import Mathlib

/-!
# sylar::ByteArray — chunked byte buffer and varint/zigzag codec

A shallow embedding of `src/sylar/bytearray.cpp`.

* Machine integers are `Nat`/`Int` with explicit reduction modulo `2^w`
  (`size_t` and `uint64_t` are 64 bits wide, `int` is 32 bits wide).
* The chunk chain is a list of `Node`s, a `Node*` is a `NodePtr`.
* A thrown `std::out_of_range` and every undefined behaviour the code can run
  into (null dereference, copy outside an allocation, store outside a local
  array, division by zero) is an explicit `Fault`; operations return
  `Except Fault _`.
* Loops are structural recursions on an iteration budget; the entry points pass a
  budget that the loop cannot use up.
-/

namespace sylar

/-! ## Machine integers -/

/-- Conversion of a mathematical integer to the unsigned `w`-bit type. -/
def toUnsigned (w : Nat) (x : Int) : Nat := (x % (2 : Int) ^ w).toNat

/-- Conversion of an unsigned bit pattern to the signed `w`-bit type (two's complement). -/
def toSigned (w : Nat) (x : Nat) : Int :=
  if x % 2 ^ w < 2 ^ (w - 1) then ((x % 2 ^ w : Nat) : Int) else ((x % 2 ^ w : Nat) : Int) - (2 : Int) ^ w

/-- Result of a signed `w`-bit operation whose mathematical value is `x` (wrap-around). -/
def wrapSigned (w : Nat) (x : Int) : Int := toSigned w (toUnsigned w x)

/-- Unsigned `w`-bit negation `-x`. -/
def negU (w : Nat) (x : Nat) : Nat := (2 ^ w - x % 2 ^ w) % 2 ^ w

/-- Unsigned `w`-bit subtraction `x - y`. -/
def subU (w : Nat) (x y : Nat) : Nat := (x % 2 ^ w + negU w y) % 2 ^ w

/-- Unsigned `w`-bit addition `x + y`. -/
def addU (w : Nat) (x y : Nat) : Nat := (x + y) % 2 ^ w

/-- Membership in the value range of the signed `w`-bit type. -/
def IsInt (w : Nat) (n : Int) : Prop := -(2 : Int) ^ (w - 1) ≤ n ∧ n < (2 : Int) ^ (w - 1)

instance (w : Nat) (n : Int) : Decidable (IsInt w n) := by
  unfold IsInt; exact inferInstance

/-! ## Zigzag mapping (bytearray.cpp:405-438) -/

/-- Embeds `static uint32_t EncodeZigzag32(const int32_t& v)`:
`if (v < 0) return (uint32_t)(-v)*2 - 1; else return v * 2;` -/
def EncodeZigzag32 (v : Int) : Nat :=
  if v < 0 then
    subU 32 ((toUnsigned 32 (wrapSigned 32 (-v)) * 2) % 2 ^ 32) 1
  else
    toUnsigned 32 (wrapSigned 32 (v * 2))

/-- Embeds `static uint64_t EncodeZigzag64(const int64_t& v)`:
`if (v < 0) return (uint32_t)(-v)*2 - 1; else return v * 2;`
The negative branch is computed in `uint32_t` and then widened to `uint64_t`. -/
def EncodeZigzag64 (v : Int) : Nat :=
  if v < 0 then
    subU 32 ((toUnsigned 32 (wrapSigned 64 (-v)) * 2) % 2 ^ 32) 1
  else
    toUnsigned 64 (wrapSigned 64 (v * 2))

/-- Embeds `static int32_t DecodeZigzag32(const uint32_t& v)`: `return (v >> 1) ^ -(v & 1);` -/
def DecodeZigzag32 (v : Nat) : Int :=
  toSigned 32 ((v >>> 1) ^^^ negU 32 (v &&& 1))

/-- Embeds `static int64_t DecodeZigzag64(const uint64_t& v)`: `return (v >> 1) ^ -(v & 1);` -/
def DecodeZigzag64 (v : Nat) : Int :=
  toSigned 64 ((v >>> 1) ^^^ negU 64 (v &&& 1))

/-! ## Data model -/

/-- Ways an operation can fail to return normally. `outOfRange` is the thrown
`std::out_of_range`, `lengthError` the `std::length_error` thrown by `std::string::resize`;
the others are undefined behaviour of the C++ code made explicit. -/
inductive Fault where
  /-- A `std::out_of_range` exception was thrown -/
  | outOfRange
  /-- A `std::length_error` exception was thrown -/
  | lengthError
  /-- Dereference of `nullptr` -/
  | nullDeref
  /-- Dereference of a pointer to a deleted node -/
  | danglingDeref
  /-- A `memcpy` or an array store outside the addressed allocation -/
  | overrun
  /-- Division or remainder by zero -/
  | divByZero
  /-- The iteration budget of a loop model was used up -/
  | outOfFuel
  deriving DecidableEq

instance instDecidableEqExcept {ε α : Type} [DecidableEq ε] [DecidableEq α] :
    DecidableEq (Except ε α)
  | .ok a, .ok b => if h : a = b then isTrue (by rw [h]) else isFalse (fun e => h (by cases e; rfl))
  | .error a, .error b =>
    if h : a = b then isTrue (by rw [h]) else isFalse (fun e => h (by cases e; rfl))
  | .ok _, .error _ => isFalse (fun e => by cases e)
  | .error _, .ok _ => isFalse (fun e => by cases e)

/-- The value of `std::string::max_size()`, the longest string `resize` accepts. It is set
by the standard library, not by `bytearray.cpp`: this is the value of libstdc++ for a 64-bit
`size_t`, `(PTRDIFF_MAX − 1) / 2`. -/
def stringMaxSize : Nat := 2 ^ 62 - 1

/-- Embeds `buff.resize(n)` on a fresh `std::string`: it throws `std::length_error` when `n`
exceeds `max_size()`. The allocation itself is taken to succeed, like `new char[s]`. -/
def stringResize (n : Nat) : Except Fault Unit :=
  if n > stringMaxSize then .error Fault.lengthError else .ok ()

/-- A value of type `Node*`: null, the `i`-th node of the chain counted from `m_root`,
or a pointer to a node that has been deleted. -/
inductive NodePtr where
  | null
  | node (i : Nat)
  | dangling
  deriving DecidableEq

/-- Embeds `ByteArray::Node`: `ptr` is the block `new char[s]` (its length is the allocation size),
`size` is the member `size`. The member `next` is given by the position in the chain. -/
structure Node where
  ptr : List Nat
  size : Nat
  deriving DecidableEq

/-- Embeds `ByteArray::Node::Node(size_t s) : ptr(new char[s]), next(nullptr), size(0)`.
The fresh block is modelled as zero bytes. -/
def Node.ctor (s : Nat) : Node := { ptr := List.replicate s 0, size := 0 }

/-- Byte order flag (`SYLAR_LITTLE_ENDIAN` / `SYLAR_BIG_ENDIAN`). -/
inductive Endian where
  | little
  | big
  deriving DecidableEq

/-- The members of `ByteArray`. `nodes` is the chain starting at `m_root`; the member `next`
of its last node is null, or, when `tailDangling` is set, a pointer to a deleted node. -/
structure ByteArray where
  m_baseSize : Nat
  m_position : Nat
  m_capacity : Nat
  m_size : Nat
  m_endian : Endian
  nodes : List Node
  tailDangling : Bool
  m_cur : NodePtr
  deriving DecidableEq

namespace ByteArray

/-- Embeds `ByteArray::ByteArray(size_t base_size)`. -/
def ctor (base_size : Nat) : ByteArray :=
  { m_baseSize := base_size, m_position := 0, m_capacity := base_size, m_size := 0,
    m_endian := Endian.big, nodes := [Node.ctor base_size], tailDangling := false,
    m_cur := NodePtr.node 0 }

/-- The member `next` of the last node of the chain. -/
def tailNext (s : ByteArray) : NodePtr :=
  if s.tailDangling then NodePtr.dangling else NodePtr.null

/-- Dereference of a node pointer. -/
def deref (s : ByteArray) : NodePtr → Except Fault Node
  | NodePtr.null => .error Fault.nullDeref
  | NodePtr.dangling => .error Fault.danglingDeref
  | NodePtr.node i =>
    match s.nodes[i]? with
    | some n => .ok n
    | none => .error Fault.danglingDeref

/-- The expression `p->next`. -/
def next (s : ByteArray) : NodePtr → Except Fault NodePtr
  | NodePtr.null => .error Fault.nullDeref
  | NodePtr.dangling => .error Fault.danglingDeref
  | NodePtr.node i =>
    if i + 1 < s.nodes.length then .ok (NodePtr.node (i + 1))
    else if i < s.nodes.length then .ok s.tailNext
    else .error Fault.danglingDeref

/-- Modelled from the spec: `getCapacity()` is declared in `bytearray.h`, which is not part of
the sources; the spec gives `spare = capacity − position`. -/
def getCapacity (s : ByteArray) : Nat := subU 64 s.m_capacity s.m_position

/-- Modelled from the spec: `getReadSize()` is declared in `bytearray.h`, which is not part of
the sources; the spec gives the readable extent `size − position`. -/
def getReadSize (s : ByteArray) : Nat := subU 64 s.m_size s.m_position

/-- Embeds `ByteArray::clear()`. The nodes after the root are deleted; line 64
(`m_root->next == nullptr;`) is a comparison, so the root keeps its `next` pointer. -/
def clear (s : ByteArray) : Except Fault ByteArray :=
  match s.nodes with
  | [] => .error Fault.nullDeref
  | root :: rest =>
    if s.tailDangling then .error Fault.danglingDeref
    else .ok { s with m_position := 0, m_size := 0, m_capacity := s.m_baseSize,
                      nodes := [root],
                      tailDangling := !rest.isEmpty,
                      m_cur := NodePtr.node 0 }

/-- Embeds `ByteArray::addCapacity(size_t size)`. `size / m_baseSize` is an integer division, so the
`ceil` of line 87 is applied to a whole number (the conversion to `double` is exact below
`2^53`). The tail walk of lines 89-93 ends at the last node of the chain unless the chain
ends in a dangling pointer. -/
def addCapacity (s : ByteArray) (size : Nat) : Except Fault ByteArray :=
  if size = 0 then .ok s
  else
    let old_cap := s.getCapacity
    if old_cap ≥ size then .ok s
    else
      let size := subU 64 size old_cap
      if s.m_baseSize = 0 then .error Fault.divByZero
      else
        let count := size / s.m_baseSize
        if s.nodes = [] then .error Fault.nullDeref
        else if s.tailDangling then .error Fault.danglingDeref
        else
          let first := if count = 0 then NodePtr.null else NodePtr.node s.nodes.length
          let s1 := { s with nodes := s.nodes ++ List.replicate count (Node.ctor s.m_baseSize),
                             m_capacity := addU 64 s.m_capacity (count * s.m_baseSize) }
          .ok (if old_cap = 0 then { s1 with m_cur := first } else s1)

/-- The `while`/`if` of `setPosition`, lines 120-126, started with `m_cur = m_root`. -/
def setPositionLoop (s : ByteArray) : Nat → Nat → NodePtr → Except Fault NodePtr
  | 0, _, _ => .error Fault.outOfFuel
  | fuel + 1, v, cur => do
    let n ← s.deref cur
    if v > n.size then
      let nx ← s.next cur
      setPositionLoop s fuel (subU 64 v n.size) nx
    else if v = n.size then s.next cur
    else pure cur

/-- Embeds `ByteArray::setPosition(size_t v)`. -/
def setPosition (s : ByteArray) (v : Nat) : Except Fault ByteArray :=
  if v > s.m_capacity then .error Fault.outOfRange
  else do
    let s1 := { s with m_position := v }
    let s2 := if s1.m_position > s1.m_size then { s1 with m_size := s1.m_position } else s1
    let cur ← setPositionLoop s2 (s2.nodes.length + 1) v (NodePtr.node 0)
    pure { s2 with m_cur := cur }

/-- Embeds `memcpy(p->ptr + npos, src, |src|)`: store into the block of node `p`. -/
def memcpyTo (s : ByteArray) (p : NodePtr) (npos : Nat) (src : List Nat) :
    Except Fault ByteArray :=
  match p with
  | NodePtr.null => .error Fault.nullDeref
  | NodePtr.dangling => .error Fault.danglingDeref
  | NodePtr.node i =>
    match s.nodes[i]? with
    | none => .error Fault.danglingDeref
    | some n =>
      if npos + src.length ≤ n.ptr.length then
        let block := n.ptr.take npos ++ src ++ n.ptr.drop (npos + src.length)
        .ok { s with nodes := s.nodes.set i { ptr := block, size := n.size } }
      else .error Fault.overrun

/-- Embeds `memcpy(dst, p->ptr + npos, len)`: load from the block of node `p`. -/
def memcpyFrom (s : ByteArray) (p : NodePtr) (npos len : Nat) : Except Fault (List Nat) := do
  let n ← s.deref p
  if npos + len ≤ n.ptr.length then pure ((n.ptr.drop npos).take len)
  else .error Fault.overrun

/-- The `while (size > 0)` loop of `write`, lines 136-156. `cur` is `m_cur`. The copy of
line 147 reads from `buf`, not from `buf + bpos`. -/
def writeLoop (buf : List Nat) : Nat → ByteArray → Nat → Nat → Nat → Nat → Except Fault ByteArray
  | 0, _, _, _, _, _ => .error Fault.outOfFuel
  | fuel + 1, s, npos, ncap, bpos, size =>
    if size > 0 then
      if ncap ≥ size then
        if bpos + size > buf.length then .error Fault.overrun
        else do
          let s1 ← s.memcpyTo s.m_cur npos ((buf.drop bpos).take size)
          let cur ← s1.deref s1.m_cur
          let s2 ← (if cur.size = addU 64 npos size then
              (do let nx ← s1.next s1.m_cur; pure { s1 with m_cur := nx })
            else pure s1)
          pure { s2 with m_position := addU 64 s2.m_position size }
      else
        if ncap > buf.length then .error Fault.overrun
        else do
          let s1 ← s.memcpyTo s.m_cur npos (buf.take ncap)
          let s2 := { s1 with m_position := addU 64 s1.m_position ncap }
          let nx ← s2.next s2.m_cur
          let s3 := { s2 with m_cur := nx }
          let cur ← s3.deref s3.m_cur
          writeLoop buf fuel s3 0 cur.size (addU 64 bpos ncap) (subU 64 size ncap)
    else pure s

/-- Embeds `ByteArray::write(const void* buf, size_t size)` with `size = |buf|`. The test
`size < 0` of line 131 is never true for a `size_t`. -/
def write (s : ByteArray) (buf : List Nat) : Except Fault ByteArray := do
  let size := buf.length
  let s1 ← s.addCapacity size
  if s1.m_baseSize = 0 then .error Fault.divByZero
  else do
    let npos := s1.m_position % s1.m_baseSize
    let cur ← s1.deref s1.m_cur
    let ncap := subU 64 cur.size npos
    let s2 ← writeLoop buf (s1.nodes.length + 1) s1 npos ncap 0 size
    pure (if s2.m_position > s2.m_size then { s2 with m_size := s2.m_position } else s2)

/-- The `while (size > 0)` loop of the cursor-relative `read`, lines 170-188. `out` is the
part of `buf` filled so far. -/
def readLoop : Nat → ByteArray → Nat → Nat → Nat → List Nat → Except Fault (List Nat × ByteArray)
  | 0, _, _, _, _, _ => .error Fault.outOfFuel
  | fuel + 1, s, npos, ncap, size, out =>
    if size > 0 then
      if ncap ≥ size then do
        let bytes ← s.memcpyFrom s.m_cur npos size
        let cur ← s.deref s.m_cur
        let s1 ← (if cur.size = addU 64 npos size then
            (do let nx ← s.next s.m_cur; pure { s with m_cur := nx })
          else pure s)
        pure (out ++ bytes, { s1 with m_position := addU 64 s1.m_position size })
      else do
        let bytes ← s.memcpyFrom s.m_cur npos ncap
        let s1 := { s with m_position := addU 64 s.m_position ncap }
        let nx ← s1.next s1.m_cur
        let s2 := { s1 with m_cur := nx }
        let cur ← s2.deref s2.m_cur
        readLoop fuel s2 0 cur.size (subU 64 size ncap) (out ++ bytes)
    else pure (out, s)

/-- Embeds `ByteArray::read(void* buf, size_t size)`: returns the bytes stored into `buf`. -/
def read (s : ByteArray) (size : Nat) : Except Fault (List Nat × ByteArray) :=
  if size > s.getReadSize then .error Fault.outOfRange
  else if s.m_baseSize = 0 then .error Fault.divByZero
  else do
    let npos := s.m_position % s.m_baseSize
    let cur ← s.deref s.m_cur
    let ncap := subU 64 cur.size npos
    readLoop (s.nodes.length + 1) s npos ncap size []

/-- The walk `while (node_index) { cur = cur->next; node_index--; }`, lines 198-201. -/
def advance (s : ByteArray) : Nat → NodePtr → Except Fault NodePtr
  | 0, cur => pure cur
  | k + 1, cur => do
    let nx ← s.next cur
    advance s k nx

/-- The `while (size > 0)` loop of the positional `read`, lines 206-224. `cur` is the local
node pointer; lines 212 and 217 add to the member `m_position`. The assignment to the local
`cur` on line 210 is dead (the loop ends right after it). -/
def readAtLoop : Nat → ByteArray → NodePtr → Nat → Nat → Nat → List Nat →
    Except Fault (List Nat × ByteArray)
  | 0, _, _, _, _, _, _ => .error Fault.outOfFuel
  | fuel + 1, s, cur, npos, ncap, size, out =>
    if size > 0 then
      if ncap ≥ size then do
        let bytes ← s.memcpyFrom cur npos size
        pure (out ++ bytes, { s with m_position := addU 64 s.m_position size })
      else do
        let bytes ← s.memcpyFrom cur npos ncap
        let s1 := { s with m_position := addU 64 s.m_position ncap }
        let nx ← s1.next cur
        let n ← s1.deref nx
        readAtLoop fuel s1 nx 0 n.size (subU 64 size ncap) (out ++ bytes)
    else pure (out, s)

/-- Embeds `ByteArray::read(void* buf, size_t size, size_t position)`: returns the bytes stored
into `buf` and the state of the object afterwards. -/
def readAt (s : ByteArray) (size position : Nat) : Except Fault (List Nat × ByteArray) :=
  if size > subU 64 s.m_size position then .error Fault.outOfRange
  else if s.m_baseSize = 0 then .error Fault.divByZero
  else do
    let node_index := position / s.m_baseSize
    let cur ← s.advance node_index (NodePtr.node 0)
    let npos := position % s.m_baseSize
    let n ← s.deref cur
    let ncap := subU 64 n.size npos
    readAtLoop (s.nodes.length + 1) s cur npos ncap size []

/-- Embeds `ByteArray::readFuint8()`: `uint8_t v; read(&v, sizeof(v)); return v;`. -/
def readFuint8 (s : ByteArray) : Except Fault (Nat × ByteArray) := do
  let (bytes, s1) ← s.read 1
  pure (bytes.headD 0, s1)

/-! ## Varint codec (bytearray.cpp:443-506) -/

/-- The `while (value >= 0x80)` loop of `writeUint32` / `writeUint64`, for a scratch array
`temp` of `cap` bytes. The statement `value >> 7;` computes a value and discards it, so
`value` is passed on unchanged. `i` is a `uint8_t`. -/
def varintLoop (cap : Nat) : Nat → Nat → Nat → List Nat → Except Fault (List Nat × Nat)
  | 0, _, _, _ => .error Fault.outOfFuel
  | fuel + 1, value, i, temp =>
    if value ≥ 0x80 then
      if i < cap then
        let temp1 := temp.set i (((0x7F &&& value) ||| 0x80) % 256)
        let _discarded := value >>> 7
        varintLoop cap fuel value ((i + 1) % 256) temp1
      else .error Fault.overrun
    else pure (temp, i)

/-- Body shared by `writeUint32` (`cap = 5`) and `writeUint64` (`cap = 10`): the bytes passed
to `write(temp, i)`. The loop is given `cap + 2` iterations: the store of iteration `cap + 1`
is already outside `temp`. -/
def varintBytes (cap : Nat) (value : Nat) : Except Fault (List Nat) := do
  let (temp, i) ← varintLoop cap (cap + 2) value 0 (List.replicate cap 0)
  if i < cap then
    let temp1 := temp.set i (value % 256)
    pure (temp1.take ((i + 1) % 256))
  else .error Fault.overrun

/-- Embeds `ByteArray::writeUint32(uint32_t value)`. -/
def writeUint32 (s : ByteArray) (value : Nat) : Except Fault ByteArray := do
  let bytes ← varintBytes 5 (value % 2 ^ 32)
  s.write bytes

/-- Embeds `ByteArray::writeUint64(uint64_t value)`. -/
def writeUint64 (s : ByteArray) (value : Nat) : Except Fault ByteArray := do
  let bytes ← varintBytes 10 (value % 2 ^ 64)
  s.write bytes

/-- Embeds `ByteArray::writeInt32(int32_t value)`. -/
def writeInt32 (s : ByteArray) (value : Int) : Except Fault ByteArray :=
  s.writeUint32 (EncodeZigzag32 value)

/-- Embeds `ByteArray::writeInt64(int64_t value)`. -/
def writeInt64 (s : ByteArray) (value : Int) : Except Fault ByteArray :=
  s.writeUint64 (EncodeZigzag64 value)

/-- The `for (int i = 0; i < 32; i += 7)` loop shared by `readUint32` (`w = 32`) and
`readUint64` (`w = 64`); `w` is the width of `result`. Both loops test `i < 32`. -/
def readVarintLoop (w : Nat) : Nat → Nat → Nat → ByteArray → Except Fault (Nat × ByteArray)
  | 0, _, _, _ => .error Fault.outOfFuel
  | fuel + 1, i, result, s =>
    if i < 32 then do
      let (b, s1) ← s.readFuint8
      if b < 0x80 then
        pure (result ||| ((b <<< i) % 2 ^ w), s1)
      else
        readVarintLoop w fuel (i + 7) (result ||| (((b &&& 0x7F) <<< i) % 2 ^ w)) s1
    else pure (result, s)

/-- Embeds `ByteArray::readUint32()`. -/
def readUint32 (s : ByteArray) : Except Fault (Nat × ByteArray) :=
  readVarintLoop 32 6 0 0 s

/-- Embeds `ByteArray::readUint64()`. -/
def readUint64 (s : ByteArray) : Except Fault (Nat × ByteArray) :=
  readVarintLoop 64 6 0 0 s

/-- Embeds `ByteArray::readInt32()`. -/
def readInt32 (s : ByteArray) : Except Fault (Int × ByteArray) := do
  let (u, s1) ← s.readUint32
  pure (DecodeZigzag32 u, s1)

/-- Embeds `ByteArray::readInt64()`. -/
def readInt64 (s : ByteArray) : Except Fault (Int × ByteArray) := do
  let (u, s1) ← s.readUint64
  pure (DecodeZigzag64 u, s1)

/-! ## Specification-side definitions -/

/-- Base-128 varint encoding as the specification words it, with `fuel` groups left:
while the remaining value is `≥ 0x80`, emit `(value & 0x7F) | 0x80` and shift the value
right by 7; emit the final group with the high bit clear. -/
def varintFuel : Nat → Nat → List Nat
  | 0, value => [value]
  | fuel + 1, value =>
    if value ≥ 0x80 then ((value &&& 0x7F) ||| 0x80) :: varintFuel fuel (value >>> 7)
    else [value]

/-- The canonical varint encoding of `value` (the budget `value` is never used up). -/
def varintEncode (value : Nat) : List Nat := varintFuel value value

/-- The byte stored at logical offset `off`: chunk `off / m_baseSize`, in-chunk offset
`off % m_baseSize`. -/
def byteAt (s : ByteArray) (off : Nat) : Option Nat :=
  (s.nodes[off / s.m_baseSize]?).bind (fun n => n.ptr[off % s.m_baseSize]?)

/-- The buffer holds the byte sequence `bytes` at the logical offsets
`off, off + 1, …, off + |bytes| − 1`. -/
def Holds (s : ByteArray) (off : Nat) (bytes : List Nat) : Prop :=
  ∀ k, k < bytes.length → s.byteAt (off + k) = bytes[k]?

instance (s : ByteArray) (off : Nat) (bytes : List Nat) : Decidable (s.Holds off bytes) := by
  unfold Holds; exact inferInstance

/-- The data-model invariants of the specification (section 3): chunks of `chunkSize` bytes
that record their capacity, `capacity = chunkSize × chunkCount`, `position ≤ capacity`,
`size ≤ capacity`, a null-terminated chain, and `cursorChunk` the chunk with index
`position / chunkSize` (null when `position = capacity`). -/
def WF (s : ByteArray) : Prop :=
  0 < s.m_baseSize ∧
  (∀ n ∈ s.nodes, n.size = s.m_baseSize ∧ n.ptr.length = s.m_baseSize) ∧
  s.m_capacity = s.m_baseSize * s.nodes.length ∧
  s.m_capacity < 2 ^ 64 ∧
  s.m_position ≤ s.m_capacity ∧
  s.m_size ≤ s.m_capacity ∧
  s.tailDangling = false ∧
  s.m_cur = (if s.m_position / s.m_baseSize < s.nodes.length
             then NodePtr.node (s.m_position / s.m_baseSize) else NodePtr.null)

instance (s : ByteArray) : Decidable s.WF := by
  unfold WF; exact inferInstance

/-- A buffer of chunk size `base` whose chunks hold the given blocks and record their
capacity, with the cursor at `position` (used to state concrete inputs). -/
def ofBlocks (base : Nat) (blocks : List (List Nat)) (size position : Nat) : ByteArray :=
  { m_baseSize := base, m_position := position, m_capacity := base * blocks.length,
    m_size := size, m_endian := Endian.big,
    nodes := blocks.map (fun b => { ptr := b, size := base }),
    tailDangling := false,
    m_cur := if position / base < blocks.length then NodePtr.node (position / base)
             else NodePtr.null }

/-- A buffer as the code builds it: chunks of `base` bytes holding the given blocks, each
recording `size = 0` as the `Node` constructor leaves it (line 20), with the cursor on
`cur`. Used to state concrete inputs, each together with the calls on the constructed
buffer that lead to it. -/
def asBuilt (base : Nat) (blocks : List (List Nat)) (size position : Nat) (cur : NodePtr) :
    ByteArray :=
  { m_baseSize := base, m_position := position, m_capacity := base * blocks.length,
    m_size := size, m_endian := Endian.big,
    nodes := blocks.map (fun b => { ptr := b, size := 0 }),
    tailDangling := false, m_cur := cur }

/-- Number of chain nodes from the one `p` points at to the end of the chain. -/
def remaining (s : ByteArray) : NodePtr → Nat
  | NodePtr.node i => s.nodes.length - i
  | _ => 0

/-! ## Byte order and fixed-width codec (bytearray.cpp:67-77, 256-336) -/

/-- Embeds `ByteArray::isLittleEndian() const`. -/
def isLittleEndian (s : ByteArray) : Bool := decide (s.m_endian = Endian.little)

/-- Embeds `ByteArray::setIsLittleEndian(bool val)`. -/
def setIsLittleEndian (s : ByteArray) (val : Bool) : ByteArray :=
  if val then { s with m_endian := Endian.little } else { s with m_endian := Endian.big }

/-- The `n` low bytes of `v`, least significant byte first. -/
def leBytes : Nat → Nat → List Nat
  | 0, _ => []
  | n + 1, v => (v % 256) :: leBytes n (v / 256)

/-- The number whose bytes, least significant first, are `bytes`. -/
def ofLeBytes : List Nat → Nat
  | [] => 0
  | b :: bs => b + 256 * ofLeBytes bs

/-- The object representation of the `n`-byte unsigned value `v` in the memory of a platform
whose byte order is `native` (what `write(&value, sizeof(value))` is handed). -/
def objectBytes (native : Endian) (n v : Nat) : List Nat :=
  match native with
  | Endian.little => leBytes n v
  | Endian.big => (leBytes n v).reverse

/-- The unsigned value whose object representation on the platform `native` is `bytes`
(what `read(&v, sizeof(v))` leaves in `v`). -/
def objectValue (native : Endian) (bytes : List Nat) : Nat :=
  match native with
  | Endian.little => ofLeBytes bytes
  | Endian.big => ofLeBytes bytes.reverse

/-- Modelled from the spec: `byteswap` is declared in `endian.h`, which is not part of the
sources; the spec has the bytes of a value swapped, i.e. their order reversed. -/
def byteswap (n v : Nat) : Nat := ofLeBytes (leBytes n v).reverse

/-- Body shared by the `writeF…` functions of `n > 1` bytes, with `native` standing for
`SYLAR_BYTE_ORDER` (defined in the absent `endian.h`):
`if (m_endian != SYLAR_BYTE_ORDER) value = byteswap(value); write(&value, sizeof(value));`. -/
def writeFixed (s : ByteArray) (native : Endian) (n value : Nat) : Except Fault ByteArray :=
  let value := if s.m_endian ≠ native then byteswap n value else value
  s.write (objectBytes native n value)

/-- Body of the macro `XX(type)` shared by the `readF…` functions of `n > 1` bytes:
`type v; read(&v, sizeof(v)); if (m_endian != SYLAR_BYTE_ORDER) return byteswap(v); else return v;`. -/
def readFixed (s : ByteArray) (native : Endian) (n : Nat) : Except Fault (Nat × ByteArray) := do
  let (bytes, s1) ← s.read n
  let v := objectValue native bytes
  pure (if s.m_endian ≠ native then byteswap n v else v, s1)

/-- Embeds `ByteArray::writeFint8(int8_t value)`: no byte swap for one byte. -/
def writeFint8 (s : ByteArray) (value : Int) : Except Fault ByteArray :=
  s.write [toUnsigned 8 value]

/-- Embeds `ByteArray::writeFuint8(uint8_t value)`: no byte swap for one byte. -/
def writeFuint8 (s : ByteArray) (value : Nat) : Except Fault ByteArray :=
  s.write [value % 2 ^ 8]

/-- Embeds `ByteArray::writeFint16(int16_t value)`. -/
def writeFint16 (s : ByteArray) (native : Endian) (value : Int) : Except Fault ByteArray :=
  s.writeFixed native 2 (toUnsigned 16 value)

/-- Embeds `ByteArray::writeFuint16(uint16_t value)`. -/
def writeFuint16 (s : ByteArray) (native : Endian) (value : Nat) : Except Fault ByteArray :=
  s.writeFixed native 2 (value % 2 ^ 16)

/-- Embeds `ByteArray::writeFint32(int32_t value)`. -/
def writeFint32 (s : ByteArray) (native : Endian) (value : Int) : Except Fault ByteArray :=
  s.writeFixed native 4 (toUnsigned 32 value)

/-- Embeds `ByteArray::writeFuint32(uint32_t value)`. -/
def writeFuint32 (s : ByteArray) (native : Endian) (value : Nat) : Except Fault ByteArray :=
  s.writeFixed native 4 (value % 2 ^ 32)

/-- Modelled from the spec: `writeFint64` is called by `writeDouble` but defined nowhere in
the sources; the spec gives the 8-byte width the same swap-then-write path as the others. -/
def writeFint64 (s : ByteArray) (native : Endian) (value : Int) : Except Fault ByteArray :=
  s.writeFixed native 8 (toUnsigned 64 value)

/-- Modelled from the spec: `writeFuint64` is called by `writeStringF64` but defined nowhere
in the sources; the spec gives the 8-byte width the same swap-then-write path as the others. -/
def writeFuint64 (s : ByteArray) (native : Endian) (value : Nat) : Except Fault ByteArray :=
  s.writeFixed native 8 (value % 2 ^ 64)

/-- Embeds `ByteArray::readFint8()`: `int8_t v; read(&v, sizeof(v)); return v;`. -/
def readFint8 (s : ByteArray) : Except Fault (Int × ByteArray) := do
  let (bytes, s1) ← s.read 1
  pure (toSigned 8 (bytes.headD 0), s1)

/-- Embeds `ByteArray::readFint16()`. -/
def readFint16 (s : ByteArray) (native : Endian) : Except Fault (Int × ByteArray) := do
  let (v, s1) ← s.readFixed native 2
  pure (toSigned 16 v, s1)

/-- Embeds `ByteArray::readFuint16()`. -/
def readFuint16 (s : ByteArray) (native : Endian) : Except Fault (Nat × ByteArray) :=
  s.readFixed native 2

/-- Embeds `ByteArray::readFint32()`. -/
def readFint32 (s : ByteArray) (native : Endian) : Except Fault (Int × ByteArray) := do
  let (v, s1) ← s.readFixed native 4
  pure (toSigned 32 v, s1)

/-- Embeds `ByteArray::readFuint32()`. -/
def readFuint32 (s : ByteArray) (native : Endian) : Except Fault (Nat × ByteArray) :=
  s.readFixed native 4

/-- Embeds `ByteArray::readFint64()`. -/
def readFint64 (s : ByteArray) (native : Endian) : Except Fault (Int × ByteArray) := do
  let (v, s1) ← s.readFixed native 8
  pure (toSigned 64 v, s1)

/-- Embeds `ByteArray::readFuint64()`. -/
def readFuint64 (s : ByteArray) (native : Endian) : Except Fault (Nat × ByteArray) :=
  s.readFixed native 8

/-! ## String framing (bytearray.cpp:352-399); a string is its list of bytes -/

/-- Embeds `ByteArray::writeStringF16`: `writeFuint16(value.size()); write(value.c_str(), value.size());`. -/
def writeStringF16 (s : ByteArray) (native : Endian) (value : List Nat) :
    Except Fault ByteArray := do
  let s1 ← s.writeFuint16 native value.length
  s1.write value

/-- Embeds `ByteArray::writeStringF32`. -/
def writeStringF32 (s : ByteArray) (native : Endian) (value : List Nat) :
    Except Fault ByteArray := do
  let s1 ← s.writeFuint32 native value.length
  s1.write value

/-- Embeds `ByteArray::writeStringF64`, which calls the spec-modelled `writeFuint64`. -/
def writeStringF64 (s : ByteArray) (native : Endian) (value : List Nat) :
    Except Fault ByteArray := do
  let s1 ← s.writeFuint64 native value.length
  s1.write value

/-- Embeds `ByteArray::writeStringVint`: `writeUint64(value.size()); write(…)`. -/
def writeStringVint (s : ByteArray) (value : List Nat) : Except Fault ByteArray := do
  let s1 ← s.writeUint64 value.length
  s1.write value

/-- Embeds `ByteArray::writeStringWithoutLength`. -/
def writeStringWithoutLength (s : ByteArray) (value : List Nat) : Except Fault ByteArray :=
  s.write value

/-- Embeds `ByteArray::readStringF16`: `len = readFuint16(); buff.resize(len); read(&buff[0], len);`. -/
def readStringF16 (s : ByteArray) (native : Endian) : Except Fault (List Nat × ByteArray) := do
  let (len, s1) ← s.readFuint16 native
  let _ ← stringResize len
  s1.read len

/-- Embeds `ByteArray::readStringF32`, with the same `resize` between the two reads. -/
def readStringF32 (s : ByteArray) (native : Endian) : Except Fault (List Nat × ByteArray) := do
  let (len, s1) ← s.readFuint32 native
  let _ ← stringResize len
  s1.read len

/-- Embeds `ByteArray::readStringF64`, with the same `resize` between the two reads. -/
def readStringF64 (s : ByteArray) (native : Endian) : Except Fault (List Nat × ByteArray) := do
  let (len, s1) ← s.readFuint64 native
  let _ ← stringResize len
  s1.read len

/-- Embeds `ByteArray::readStringVin`, with the same `resize` between the two reads. -/
def readStringVin (s : ByteArray) : Except Fault (List Nat × ByteArray) := do
  let (len, s1) ← s.readUint64
  let _ ← stringResize len
  s1.read len

/-! ## Scatter/gather spans (bytearray.cpp:547-628) -/

/-- One `iovec`: `iov_base = cur->ptr + offset` for the chunk with index `chunk`,
`iov_len = len`. -/
structure Span where
  chunk : Nat
  offset : Nat
  len : Nat
  deriving DecidableEq

/-- The pointer `cur->ptr + npos` as the start of a span of `len` bytes. -/
def spanAt (s : ByteArray) (cur : NodePtr) (npos len : Nat) : Except Fault Span :=
  match cur with
  | NodePtr.null => .error Fault.nullDeref
  | NodePtr.dangling => .error Fault.danglingDeref
  | NodePtr.node i =>
    if i < s.nodes.length then .ok { chunk := i, offset := npos, len := len }
    else .error Fault.danglingDeref

/-- The `while (len > 0)` loop shared by `getReadBuffers` and `getWriteBuffers`
(lines 555-569, 586-600, 612-626). In the else-branch `ncap = cur->size` is read from the
chunk just described, before `cur = cur->next`. -/
def spanLoop : Nat → ByteArray → NodePtr → Nat → Nat → Nat → List Span →
    Except Fault (List Span)
  | 0, _, _, _, _, _, _ => .error Fault.outOfFuel
  | fuel + 1, s, cur, npos, ncap, len, buffers =>
    if len > 0 then
      if ncap > len then do
        let iov ← s.spanAt cur npos len
        pure (buffers ++ [iov])
      else do
        let iov ← s.spanAt cur npos ncap
        let n ← s.deref cur
        let nx ← s.next cur
        spanLoop fuel s nx 0 n.size (subU 64 len ncap) (buffers ++ [iov])
    else pure buffers

/-- Embeds `ByteArray::getReadBuffers(std::vector<iovec>& buffers, uint64_t len) const`:
the spans pushed onto `buffers` and the value returned. For a clamped length of 0 line 549
is `return;`, a return without a value: the result is `none`. -/
def getReadBuffers (s : ByteArray) (len : Nat) : Except Fault (List Span × Option Nat) :=
  let len := if len % 2 ^ 64 > s.getReadSize then s.getReadSize else len % 2 ^ 64
  if len = 0 then .ok ([], none)
  else if s.m_baseSize = 0 then .error Fault.divByZero
  else do
    let npos := s.m_position % s.m_baseSize
    let n ← s.deref s.m_cur
    let ncap := subU 64 n.size npos
    let buffers ← spanLoop (s.nodes.length + 1) s s.m_cur npos ncap len []
    pure (buffers, some len)

/-- Embeds `ByteArray::getReadBuffers(std::vector<iovec>& buffers, uint64_t len,
uint64_t position) const`: `len` is clamped against `getReadSize()`, the walk starts at the
chunk `position / m_baseSize`. -/
def getReadBuffersAt (s : ByteArray) (len position : Nat) :
    Except Fault (List Span × Option Nat) :=
  let len := if len % 2 ^ 64 > s.getReadSize then s.getReadSize else len % 2 ^ 64
  if len = 0 then .ok ([], none)
  else if s.m_baseSize = 0 then .error Fault.divByZero
  else do
    let npos := position % s.m_baseSize
    let count := position / s.m_baseSize
    let cur ← s.advance count (NodePtr.node 0)
    let n ← s.deref cur
    let ncap := subU 64 n.size npos
    let buffers ← spanLoop (s.nodes.length + 1) s cur npos ncap len []
    pure (buffers, some len)

/-- Embeds `ByteArray::getWriteBuffers(std::vector<iovec>& buffers, uint64_t len) const`:
the state after `addCapacity(len)`, the spans pushed and the value returned. -/
def getWriteBuffers (s : ByteArray) (len : Nat) :
    Except Fault (List Span × Nat × ByteArray) :=
  if len = 0 then .ok ([], 0, s)
  else do
    let s1 ← s.addCapacity len
    if s1.m_baseSize = 0 then .error Fault.divByZero
    else do
      let npos := s1.m_position % s1.m_baseSize
      let n ← s1.deref s1.m_cur
      let ncap := subU 64 n.size npos
      let buffers ← spanLoop (s1.nodes.length + 1) s1 s1.m_cur npos ncap len []
      pure (buffers, len, s1)

/-! ## Diagnostics and call sequences -/

/-- Embeds `ByteArray::toString() const`: `str.resize(getReadSize()); if (str.empty()) return
str; read(&str[0], str.size(), m_position); return str;`. The `resize` throws before the
object is touched. -/
def toString (s : ByteArray) : Except Fault (List Nat × ByteArray) :=
  let n := s.getReadSize
  match stringResize n with
  | .error e => .error e
  | .ok _ =>
    if n = 0 then .ok ([], s)
    else s.readAt n s.m_position

/-- A call on a buffer object (arguments only; results are dropped). -/
inductive Call where
  | setPosition (v : Nat)
  | write (buf : List Nat)
  | read (size : Nat)
  | readAt (size position : Nat)
  | toString
  | toHexString
  | addCapacity (size : Nat)
  | clear
  deriving DecidableEq

/-- The object after one call. `toHexString` touches the object only through its call of
`toString` (line 238). -/
def Call.apply (s : ByteArray) : Call → Except Fault ByteArray
  | Call.setPosition v => s.setPosition v
  | Call.write buf => s.write buf
  | Call.read size => (s.read size).map Prod.snd
  | Call.readAt size position => (s.readAt size position).map Prod.snd
  | Call.toString => s.toString.map Prod.snd
  | Call.toHexString => s.toString.map Prod.snd
  | Call.addCapacity size => s.addCapacity size
  | Call.clear => s.clear

/-- The states a sequence of calls goes through, one per call: a call that throws
`std::out_of_range` or `std::length_error` (the functions throw before they change
anything) leaves the object as it was and the sequence goes on; the sequence ends at the
first call that neither returns nor throws. -/
def reached : ByteArray → List Call → List ByteArray
  | _, [] => []
  | s, c :: cs =>
    match c.apply s with
    | .ok s1 => s1 :: reached s1 cs
    | .error Fault.outOfRange => s :: reached s cs
    | .error Fault.lengthError => s :: reached s cs
    | .error _ => []

/-- The sequence consists of `setPosition` and `write` calls only. -/
def Call.isSeekOrWrite : Call → Bool
  | Call.setPosition _ => true
  | Call.write _ => true
  | _ => false

/-- Running maximum of `m` and the elements of a list. -/
def runningMax (m : Nat) : List Nat → List Nat
  | [] => []
  | p :: ps => max m p :: runningMax (max m p) ps

/-- The bytes of all chunks in chain order. -/
def content (s : ByteArray) : List Nat := (s.nodes.map (fun n => n.ptr)).flatten

/-- The bytes a span describes: `len` bytes of its chunk from the in-chunk `offset`. -/
def spanBytes (s : ByteArray) (sp : Span) : List Nat :=
  match s.nodes[sp.chunk]? with
  | some n => (n.ptr.drop sp.offset).take sp.len
  | none => []

/-- The logical offsets a span describes, for chunks of `base` bytes. -/
def spanOffsets (base : Nat) (sp : Span) : List Nat :=
  List.range' (sp.chunk * base + sp.offset) sp.len

/-! ## Bulk transfer (bytearray.cpp:509-543); a file is the list of its bytes -/

/-- Embeds `ofs.write(cur->ptr + diff, len)`: the characters the stream receives. The
pointer `cur->ptr` is read first; a count that is not positive inserts nothing. -/
def sinkWrite (s : ByteArray) (cur : NodePtr) (diff len : Int) : Except Fault (List Nat) := do
  let n ← s.deref cur
  if len ≤ 0 then pure []
  else if diff < 0 then .error Fault.overrun
  else if diff.toNat + len.toNat ≤ n.ptr.length then pure ((n.ptr.drop diff.toNat).take len.toNat)
  else .error Fault.overrun

/-- The `while (read_size > 0)` loop of `writeToFile`, lines 518-526. `pos`, `read_size` and
`len` are `int64_t`, `diff` is `int`; the remainder of line 520 and the conditional
expression of line 521 are computed in `size_t`, the operands being converted. `out` is what
the stream has received so far. -/
def writeToFileLoop : Nat → ByteArray → NodePtr → Int → Int → List Nat →
    Except Fault (List Nat)
  | 0, _, _, _, _, _ => .error Fault.outOfFuel
  | fuel + 1, s, cur, pos, read_size, out =>
    if read_size > 0 then
      if s.m_baseSize = 0 then .error Fault.divByZero
      else do
        let diff := toSigned 32 (toUnsigned 64 pos % s.m_baseSize)
        let len := toSigned 64 (subU 64
          (if read_size > toSigned 64 s.m_baseSize then s.m_baseSize else toUnsigned 64 read_size)
          (toUnsigned 64 diff))
        let bytes ← s.sinkWrite cur diff len
        let nx ← s.next cur
        writeToFileLoop fuel s nx (wrapSigned 64 (pos + len)) (wrapSigned 64 (read_size - len))
          (out ++ bytes)
    else pure out

/-- Embeds `writeToFile(const std::string& name) const` (written without the `ByteArray::`
qualifier; it uses the members and is embedded as the member function it is meant to be):
the value returned and the bytes the file holds afterwards; `opened` tells whether
`ofs.open` succeeded. The function assigns to no member of the object. An `int64_t` sum
that leaves the range wraps around. -/
def writeToFile (s : ByteArray) (opened : Bool) : Except Fault (Bool × List Nat) :=
  if opened = false then .ok (false, [])
  else do
    let read_size := toSigned 64 s.getReadSize
    let pos := toSigned 64 s.m_position
    let out ← writeToFileLoop (s.nodes.length + 1) s s.m_cur pos read_size []
    pure (true, out)

/-- The `while (!ifs.eof())` loop of `readFromFile`, lines 536-541. `src` is the part of the
file not yet read: `ifs.read(buff.get(), m_baseSize)` takes up to `m_baseSize` bytes of it and
sets the end-of-file state when it gets fewer; `ifs.gcount()` bytes are handed to `write`. -/
def readFromFileLoop : Nat → ByteArray → List Nat → Except Fault ByteArray
  | 0, _, _ => .error Fault.outOfFuel
  | fuel + 1, s, src => do
    let got := src.take s.m_baseSize
    let s1 ← s.write got
    if got.length < s.m_baseSize then pure s1
    else readFromFileLoop fuel s1 (src.drop s.m_baseSize)

/-- Embeds `readFromFile(const std::string& name) const` (written without the `ByteArray::`
qualifier as well): the value returned and the object afterwards for a file holding `file`;
`opened` tells whether `ifs.open` succeeded. -/
def readFromFile (s : ByteArray) (opened : Bool) (file : List Nat) :
    Except Fault (Bool × ByteArray) :=
  if opened = false then .ok (false, s)
  else do
    let s1 ← readFromFileLoop (file.length + 2) s file
    pure (true, s1)

/-! ## Hexadecimal dump (bytearray.cpp:237-251); a string of characters is a `List Char` -/

/-- The digit that `std::hex` prints for a value below 16 (lowercase letters). -/
def hexDigit (d : Nat) : Char :=
  if d < 10 then Char.ofNat (48 + d) else Char.ofNat (87 + d)

/-- Embeds `ss << std::setw(2) << std::setfill('0') << std::hex << (int)(uint8_t)c`: the
value is below 256, a single digit is padded on the left with `0`. -/
def hexByte (c : Nat) : List Char :=
  let v := c % 256
  if v < 16 then ['0', hexDigit v] else [hexDigit (v / 16), hexDigit (v % 16)]

/-- The `for` loop of `toHexString`, lines 240-249: `i` is the index of the next character,
`ss` what the stream holds so far. `std::endl` inserts a line feed. -/
def toHexStringLoop : List Nat → Nat → List Char → List Char
  | [], _, ss => ss
  | c :: rest, i, ss =>
    let ss1 := if i > 0 ∧ i % 32 = 0 then ss ++ [Char.ofNat 10] else ss
    toHexStringLoop rest (i + 1) (ss1 ++ hexByte c ++ [' '])

/-- Embeds `ByteArray::toHexString() const`: the string returned and the object afterwards
(the call of `toString` on line 238 goes through the positional `read`). -/
def toHexString (s : ByteArray) : Except Fault (String × ByteArray) := do
  let (str, s1) ← s.toString
  pure (String.mk (toHexStringLoop str 0 []), s1)

/-- The groups of a run of bytes as the hexadecimal dump prints them: two lowercase
hexadecimal digits and a space for each byte. -/
def hexGroups (bytes : List Nat) : List Char :=
  (bytes.map (fun b => [hexDigit (b % 256 / 16), hexDigit (b % 16), ' '])).flatten

end ByteArray

/-! ## Theorems -/

open ByteArray

/-- Exclusive or with the all-ones pattern of width `n` complements the `n` low bits. -/
theorem xor_allOnes (n x : Nat) (h : x < 2 ^ n) : x ^^^ (2 ^ n - 1) = 2 ^ n - 1 - x := by
  apply Nat.eq_of_testBit_eq
  intro i
  have e : 2 ^ n - 1 - x = 2 ^ n - (x + 1) := by omega
  rw [e, Nat.testBit_xor, Nat.testBit_two_pow_sub_one, Nat.testBit_two_pow_sub_succ h]
  by_cases hi : i < n
  · simp [hi]
  · have hx : x.testBit i = false :=
      Nat.testBit_lt_two_pow (lt_of_lt_of_le h (Nat.pow_le_pow_right (by decide) (by omega)))
    simp [hi, hx]

/-- Closed form of `EncodeZigzag32` on the int32 range. -/
theorem EncodeZigzag32_eq (n : Int) (h1 : -2147483648 ≤ n) (h2 : n < 2147483648) :
    EncodeZigzag32 n = if n < 0 then (-2 * n - 1).toNat else (2 * n).toNat := by
  unfold EncodeZigzag32 subU negU wrapSigned toSigned toUnsigned
  simp only [Nat.add_one_sub_one, Nat.reducePow, Int.reducePow, Nat.reduceSub]
  split <;> split <;> omega

/-- Closed form of `DecodeZigzag32` on the uint32 range. -/
theorem DecodeZigzag32_eq (u : Nat) (h : u < 4294967296) :
    DecodeZigzag32 u =
      if u % 2 = 0 then ((u / 2 : Nat) : Int) else -((u / 2 : Nat) : Int) - 1 := by
  unfold DecodeZigzag32
  rw [Nat.shiftRight_eq_div_pow, Nat.and_one_is_mod, pow_one]
  rcases Nat.mod_two_eq_zero_or_one u with h0 | h0
  · rw [h0]
    have : negU 32 0 = 0 := by decide
    rw [this, Nat.xor_zero]
    unfold toSigned
    simp only [Nat.reducePow, Int.reducePow, Nat.reduceSub, if_true]
    split <;> omega
  · rw [h0]
    have : negU 32 1 = 2 ^ 32 - 1 := by decide
    rw [this, xor_allOnes 32 (u / 2) (by omega)]
    unfold toSigned
    simp only [Nat.reducePow, Int.reducePow, Nat.reduceSub, one_ne_zero, if_false]
    split <;> omega

/-! ### Reading one byte from a well-formed buffer -/

theorem div_succ_of_wf (base p : Nat) (hb : 0 < base) :
    (p + 1) / base = if p % base + 1 = base then p / base + 1 else p / base := by
  have h1 : p % base < base := Nat.mod_lt _ hb
  have h2 : base * (p / base) + p % base = p := Nat.div_add_mod p base
  split
  · rename_i h
    have : p + 1 = base * (p / base + 1) := by
      rw [Nat.mul_add, Nat.mul_one]; omega
    rw [this, Nat.mul_div_cancel_left _ hb]
  · rename_i h
    have : p + 1 = (p % base + 1) + base * (p / base) := by omega
    rw [this, Nat.add_mul_div_left _ _ hb, Nat.div_eq_of_lt (by omega)]
    omega

theorem readFuint8_wf (s : ByteArray) (hwf : s.WF) (hlt : s.m_position < s.m_size) :
    ∃ b s', s.readFuint8 = .ok (b, s') ∧ s.byteAt s.m_position = some b ∧ s'.WF ∧
      s'.m_position = s.m_position + 1 ∧ s'.m_size = s.m_size ∧ s'.nodes = s.nodes ∧
      s'.m_baseSize = s.m_baseSize := by
  obtain ⟨hb, hn, hcap, hc64, hpc, hsc, htl, hcur⟩ := hwf
  have hq : s.m_position / s.m_baseSize < s.nodes.length := by
    apply Nat.div_lt_of_lt_mul
    rw [← hcap]; omega
  rw [if_pos hq] at hcur
  have hr : s.m_position % s.m_baseSize < s.m_baseSize := Nat.mod_lt _ hb
  have hget : s.nodes[s.m_position / s.m_baseSize]? = some (s.nodes[s.m_position / s.m_baseSize]) :=
    List.getElem?_eq_getElem hq
  obtain ⟨hns, hnl⟩ := hn _ (List.getElem_mem hq)
  have hrs : ¬ (1 > s.getReadSize) := by
    unfold getReadSize subU negU
    simp only [Nat.reducePow]
    omega
  have hncap : subU 64 s.m_baseSize (s.m_position % s.m_baseSize) =
      s.m_baseSize - s.m_position % s.m_baseSize := by
    have : s.m_baseSize ≤ s.m_capacity := by
      rw [hcap]; exact Nat.le_mul_of_pos_right _ (Nat.lt_of_le_of_lt (Nat.zero_le _) hq)
    unfold subU negU
    simp only [Nat.reducePow] at *
    omega
  simp only [readFuint8, ByteArray.read, hrs, if_false, hb.ne', hcur, deref, hget, hns, hncap, readLoop,
    bind, Except.bind, pure, Except.pure, memcpyFrom]
  have hge : s.m_baseSize - s.m_position % s.m_baseSize ≥ 1 := by omega
  have hle : s.m_position % s.m_baseSize + 1 ≤
      s.nodes[s.m_position / s.m_baseSize].ptr.length := by omega
  have ha1 : addU 64 (s.m_position % s.m_baseSize) 1 = s.m_position % s.m_baseSize + 1 := by
    have : s.m_baseSize ≤ s.m_capacity := by
      rw [hcap]; exact Nat.le_mul_of_pos_right _ (Nat.lt_of_le_of_lt (Nat.zero_le _) hq)
    unfold addU
    simp only [Nat.reducePow] at *
    omega
  have ha2 : addU 64 s.m_position 1 = s.m_position + 1 := by
    unfold addU
    simp only [Nat.reducePow] at *
    omega
  have htk : List.take 1 (List.drop (s.m_position % s.m_baseSize)
      s.nodes[s.m_position / s.m_baseSize].ptr) =
      [s.nodes[s.m_position / s.m_baseSize].ptr[s.m_position % s.m_baseSize]] := by
    rw [List.drop_eq_getElem_cons (by omega)]
    rfl
  have hbyte : s.byteAt s.m_position =
      some (s.nodes[s.m_position / s.m_baseSize].ptr[s.m_position % s.m_baseSize]) := by
    unfold byteAt
    rw [hget]
    simp only [Option.some_bind]
    exact List.getElem?_eq_getElem (by omega)
  simp only [gt_iff_lt, Nat.lt_one_iff, Nat.zero_lt_one, if_true, hge, hle, ha1, ha2, htk,
    List.nil_append, ByteArray.next, hq, ByteArray.tailNext, htl]
  have hdiv := div_succ_of_wf s.m_baseSize s.m_position hb
  by_cases h1 : s.m_baseSize = s.m_position % s.m_baseSize + 1
  · rw [if_pos h1]
    rw [if_pos h1.symm] at hdiv
    by_cases h2 : s.m_position / s.m_baseSize + 1 < s.nodes.length
    · rw [if_pos h2]
      simp only [ha2]
      refine ⟨_, _, rfl, hbyte, ?_, rfl, rfl, rfl, rfl⟩
      refine ⟨hb, hn, hcap, hc64, ?_, hsc, rfl, ?_⟩
      · show s.m_position + 1 ≤ s.m_capacity
        omega
      · show NodePtr.node (s.m_position / s.m_baseSize + 1) = _
        simp only [ha2, hdiv, h2, if_true]
    · rw [if_neg h2]
      simp only [ha2]
      refine ⟨_, _, rfl, hbyte, ?_, rfl, rfl, rfl, rfl⟩
      refine ⟨hb, hn, hcap, hc64, ?_, hsc, rfl, ?_⟩
      · show s.m_position + 1 ≤ s.m_capacity
        omega
      · show NodePtr.null = _
        simp only [ha2, hdiv, h2, if_false]
  · rw [if_neg h1]
    rw [if_neg (fun h => h1 h.symm)] at hdiv
    simp only [ha2, hcur]
    refine ⟨_, _, rfl, hbyte, ?_, rfl, rfl, rfl, rfl⟩
    refine ⟨hb, hn, hcap, hc64, ?_, hsc, htl, ?_⟩
    · show s.m_position + 1 ≤ s.m_capacity
      omega
    · show NodePtr.node (s.m_position / s.m_baseSize) = _
      simp only [hdiv, hq, if_true]

/-! ### The canonical varint encoding and its decoding -/

theorem varintFuel_congr : ∀ (f1 f2 v : Nat), v ≤ f1 → v ≤ f2 →
    varintFuel f1 v = varintFuel f2 v := by
  intro f1
  induction f1 with
  | zero =>
    intro f2 v h1 _
    have hv : v = 0 := by omega
    subst hv
    cases f2 with
    | zero => rfl
    | succ n => simp [varintFuel]
  | succ n ih =>
    intro f2 v h1 h2
    cases f2 with
    | zero =>
      have hv : v = 0 := by omega
      subst hv
      simp [varintFuel]
    | succ m =>
      simp only [varintFuel]
      split
      · rename_i hge
        have hs : v >>> 7 = v / 128 := by rw [Nat.shiftRight_eq_div_pow]
        rw [ih m (v >>> 7) (by rw [hs]; omega) (by rw [hs]; omega)]
      · rfl

/-- The recursion the specification describes for the varint encoding. -/
theorem varintEncode_eq (v : Nat) :
    varintEncode v = if v ≥ 128 then (v % 128 + 128) :: varintEncode (v / 128) else [v] := by
  have hs : v >>> 7 = v / 128 := by rw [Nat.shiftRight_eq_div_pow]
  have hb : (v &&& 0x7F) ||| 0x80 = v % 128 + 128 := by
    have h1 : v &&& 0x7F = v % 128 := Nat.and_pow_two_sub_one_eq_mod v 7
    have h2 := Nat.mul_add_lt_is_or (Nat.mod_lt v (by decide : 0 < 2 ^ 7)) 1
    rw [h1, Nat.or_comm]
    simp only [Nat.reducePow, Nat.mul_one] at h2
    omega
  unfold varintEncode
  cases v with
  | zero => simp [varintFuel]
  | succ n =>
    simp only [varintFuel]
    rw [hs, hb]
    split
    · rw [varintFuel_congr n ((n + 1) / 128) ((n + 1) / 128) (by omega) (le_refl _)]
    · rfl

theorem byteAt_congr (s s' : ByteArray) (h1 : s'.nodes = s.nodes)
    (h2 : s'.m_baseSize = s.m_baseSize) (off : Nat) : s'.byteAt off = s.byteAt off := by
  unfold byteAt
  rw [h1, h2]

/-- A 7-bit group shifted above the bits accumulated so far is added by the bitwise or. -/
theorem or_shift_group (result x i : Nat) (hr : result < 2 ^ i) (hx : x * 2 ^ i < 2 ^ 32) :
    result ||| ((x <<< i) % 2 ^ 32) = result + x * 2 ^ i := by
  rw [Nat.shiftLeft_eq, Nat.mod_eq_of_lt hx, Nat.or_comm, Nat.mul_comm x,
    ← Nat.mul_add_lt_is_or hr x]
  omega

theorem group_split (v m : Nat) : (v % 128) * m + (v / 128) * (m * 128) = v * m := by
  have h := Nat.div_add_mod v 128
  calc (v % 128) * m + (v / 128) * (m * 128)
      = (128 * (v / 128) + v % 128) * m := by ring
    _ = v * m := by rw [h]

theorem readVarintLoop_canonical : ∀ (fuel v i result : Nat) (s : ByteArray),
    s.WF → s.Holds s.m_position (varintEncode v) →
    s.m_position + (varintEncode v).length ≤ s.m_size →
    35 < i + 7 * fuel → i < 32 → v * 2 ^ i < 2 ^ 32 → result < 2 ^ i →
    ∃ s', readVarintLoop 32 fuel i result s = .ok (result + v * 2 ^ i, s') ∧
      s'.m_position = s.m_position + (varintEncode v).length ∧ s'.WF ∧
      s'.nodes = s.nodes ∧ s'.m_size = s.m_size := by
  intro fuel
  induction fuel with
  | zero => intro v i result s _ _ _ h35 hi; omega
  | succ fuel ih =>
    intro v i result s hwf hholds hlen h35 hi hv hres
    rw [varintEncode_eq v] at hholds hlen ⊢
    by_cases hge : v ≥ 128
    · rw [if_pos hge] at hholds hlen ⊢
      simp only [List.length_cons] at hlen ⊢
      obtain ⟨b, s1, hread, hbyte, hwf1, hp1, hs1, hn1, hb1⟩ :=
        readFuint8_wf s hwf (by omega)
      have hb : b = v % 128 + 128 := by
        have h0 := hholds 0 (by simp)
        simp only [Nat.add_zero, List.getElem?_cons_zero] at h0
        rw [hbyte] at h0
        exact Option.some.inj h0
      have hbm : b &&& 0x7F = v % 128 := by
        rw [hb]
        have := Nat.and_pow_two_sub_one_eq_mod (v % 128 + 128) 7
        simp only [Nat.reducePow, Nat.add_one_sub_one, Nat.reduceSub] at this
        rw [this]; omega
      have hsplit := group_split v (2 ^ i)
      have hpow : (2 : Nat) ^ (i + 7) = 2 ^ i * 128 := by rw [Nat.pow_add]
      have hq1 : 1 ≤ v / 128 := by omega
      have hpos : 0 < 2 ^ i := Nat.two_pow_pos i
      have hmul : 1 * (2 ^ i * 128) ≤ (v / 128) * (2 ^ i * 128) :=
        Nat.mul_le_mul_right _ hq1
      have hgrp : (v % 128) * 2 ^ i < 2 ^ 32 := by omega
      have hlt128 : (v % 128) * 2 ^ i ≤ 127 * 2 ^ i :=
        Nat.mul_le_mul_right _ (by omega)
      have hi7 : i + 7 < 32 := by
        apply (Nat.pow_lt_pow_iff_right (by decide : 1 < 2)).mp
        rw [hpow]; omega
      have hholds1 : s1.Holds s1.m_position (varintEncode (v / 128)) := by
        intro k hk
        have h0 := hholds (k + 1) (by simp; omega)
        rw [byteAt_congr s s1 hn1 hb1, hp1]
        simp only [List.getElem?_cons_succ] at h0
        rw [← h0]
        congr 1
        omega
      obtain ⟨s2, hrec, hp2, hwf2, hn2, hs2⟩ :=
        ih (v / 128) (i + 7) (result + (v % 128) * 2 ^ i) s1 hwf1 hholds1
          (by omega) (by omega) hi7 (by rw [hpow]; omega) (by rw [hpow]; omega)
      refine ⟨s2, ?_, by omega, hwf2, by rw [hn2, hn1], by rw [hs2, hs1]⟩
      simp only [readVarintLoop, if_pos hi, hread, bind, Except.bind]
      have hnb : ¬ (b < 0x80) := by omega
      rw [if_neg hnb, hbm, or_shift_group result (v % 128) i hres hgrp, hrec]
      congr 2
      rw [hpow]; omega
    · rw [if_neg hge] at hholds hlen ⊢
      simp only [List.length_cons, List.length_nil] at hlen ⊢
      obtain ⟨b, s1, hread, hbyte, hwf1, hp1, hs1, hn1, hb1⟩ :=
        readFuint8_wf s hwf (by omega)
      have hb : b = v := by
        have h0 := hholds 0 (by simp)
        simp only [Nat.add_zero, List.getElem?_cons_zero] at h0
        rw [hbyte] at h0
        exact Option.some.inj h0
      refine ⟨s1, ?_, by omega, hwf1, hn1, hs1⟩
      simp only [readVarintLoop, if_pos hi, hread, bind, Except.bind]
      have hnb : b < 0x80 := by omega
      rw [if_pos hnb, hb, or_shift_group result v i hres hv]
      rfl

/-! ### Bytes consumed by the decoder in an arbitrary state -/

/-- Decomposition of a successful bind in `Except`. -/
theorem bind_eq_ok {α β : Type} {x : Except Fault α} {f : α → Except Fault β} {b : β}
    (h : (x >>= f) = .ok b) : ∃ a, x = .ok a ∧ f a = .ok b := by
  cases x with
  | error e => cases h
  | ok a => exact ⟨a, rfl, h⟩

/-- A one-byte cursor-relative read that returns has advanced `m_position` by one
(modulo `2^64`), in every state. -/
theorem readLoop_one_position : ∀ (fuel : Nat) (s : ByteArray) (npos ncap : Nat) (out : List Nat)
    (r : List Nat) (s' : ByteArray), readLoop fuel s npos ncap 1 out = .ok (r, s') →
    s'.m_position = (s.m_position + 1) % 2 ^ 64 := by
  intro fuel
  induction fuel with
  | zero => intro s npos ncap out r s' h; cases h
  | succ fuel ih =>
    intro s npos ncap out r s' h
    unfold readLoop at h
    rw [if_pos Nat.zero_lt_one] at h
    by_cases hc : ncap ≥ 1
    · rw [if_pos hc] at h
      obtain ⟨bytes, _, h⟩ := bind_eq_ok h
      obtain ⟨cur, _, h⟩ := bind_eq_ok h
      obtain ⟨s1, hs1, h⟩ := bind_eq_ok h
      cases h
      split at hs1
      · obtain ⟨nx, _, hs1⟩ := bind_eq_ok hs1
        cases hs1
        rfl
      · cases hs1
        rfl
    · rw [if_neg hc] at h
      have h0 : ncap = 0 := by omega
      subst h0
      have hsub : subU 64 1 0 = 1 := by decide
      rw [hsub] at h
      obtain ⟨bytes, _, h⟩ := bind_eq_ok h
      obtain ⟨nx, _, h⟩ := bind_eq_ok h
      obtain ⟨cur, _, h⟩ := bind_eq_ok h
      have hh := ih _ _ _ _ _ _ h
      rw [hh]
      show (addU 64 s.m_position 0 + 1) % 2 ^ 64 = _
      unfold addU
      simp only [Nat.reducePow]
      omega

theorem readFuint8_position (s : ByteArray) (b : Nat) (s' : ByteArray)
    (h : s.readFuint8 = .ok (b, s')) : s'.m_position = (s.m_position + 1) % 2 ^ 64 := by
  simp only [readFuint8, ByteArray.read, bind, Except.bind, pure, Except.pure] at h
  split at h
  · cases h
  · rename_i v hv
    simp only [Except.ok.injEq, Prod.mk.injEq] at h
    obtain ⟨_, h2⟩ := h
    rw [← h2]
    repeat' split at hv
    all_goals first
      | exact Except.noConfusion hv
      | exact readLoop_one_position _ _ _ _ _ v.1 v.2 hv

theorem readVarintLoop_consumes (w : Nat) : ∀ (fuel i result : Nat) (s : ByteArray) (r : Nat)
    (s' : ByteArray), readVarintLoop w fuel i result s = .ok (r, s') →
    ∃ k, (k = 0 ∨ 7 * k + i < 39) ∧ (i < 32 → 1 ≤ k) ∧ (k = 0 → s' = s) ∧
      (1 ≤ k → s'.m_position = (s.m_position + k) % 2 ^ 64) := by
  intro fuel
  induction fuel with
  | zero => intro i result s r s' h; cases h
  | succ fuel ih =>
    intro i result s r s' h
    simp only [readVarintLoop, bind, Except.bind, pure, Except.pure] at h
    by_cases hi : i < 32
    · rw [if_pos hi] at h
      split at h
      · cases h
      · rename_i v hv
        have hp := readFuint8_position s v.1 v.2 hv
        split at h
        · simp only [Except.ok.injEq, Prod.mk.injEq] at h
          refine ⟨1, Or.inr (by omega), fun _ => le_refl _, by omega, fun _ => ?_⟩
          rw [← h.2]; exact hp
        · obtain ⟨k, hk, _, hzero, hpos⟩ := ih _ _ _ _ _ h
          refine ⟨k + 1, Or.inr (by omega), fun _ => by omega, by omega, fun _ => ?_⟩
          rcases Nat.eq_zero_or_pos k with h0 | h0
          · rw [hzero h0, h0]; exact hp
          · rw [hpos h0, hp]
            simp only [Nat.reducePow]
            omega
    · rw [if_neg hi] at h
      simp only [Except.ok.injEq, Prod.mk.injEq] at h
      exact ⟨0, Or.inl rfl, fun h' => absurd h' hi, fun _ => h.2.symm, fun h' => by omega⟩

/-! ### The varint encoder never leaves its loop -/

/-- The loop of `writeUint32` / `writeUint64` does not change `value`, so for a value of at
least `0x80` it can only end by storing outside the scratch array, whatever the iteration
budget. -/
theorem varintLoop_never_returns (cap value : Nat) (h : 128 ≤ value) :
    ∀ (fuel i : Nat) (temp : List Nat) (r : List Nat × Nat),
      varintLoop cap fuel value i temp ≠ .ok r := by
  intro fuel
  induction fuel with
  | zero => intro i temp r hr; cases hr
  | succ fuel ih =>
    intro i temp r hr
    simp only [varintLoop, ge_iff_le, Nat.reduceLeDiff] at hr
    rw [if_pos h] at hr
    split at hr
    · exact ih _ _ _ hr
    · cases hr

/-- With a budget of more than `cap − i` iterations the loop reaches the store at index
`cap`, one past the end of the scratch array. -/
theorem varintLoop_overrun (cap value : Nat) (h : 128 ≤ value) (hcap : cap < 256) :
    ∀ (fuel i : Nat) (temp : List Nat), i ≤ cap → cap - i < fuel →
      varintLoop cap fuel value i temp = .error Fault.overrun := by
  intro fuel
  induction fuel with
  | zero => intro i temp _ hf; omega
  | succ fuel ih =>
    intro i temp hi hf
    simp only [varintLoop, ge_iff_le, Nat.reduceLeDiff]
    rw [if_pos h]
    by_cases hlt : i < cap
    · rw [if_pos hlt]
      have hmod : (i + 1) % 256 = i + 1 := Nat.mod_eq_of_lt (by omega)
      rw [hmod]
      exact ih _ _ (by omega) (by omega)
    · rw [if_neg hlt]

/-! ### Iteration budgets -/

theorem bind_ne_outOfFuel {α β : Type} (x : Except Fault α) (f : α → Except Fault β)
    (hx : x ≠ .error Fault.outOfFuel) (hf : ∀ a, x = .ok a → f a ≠ .error Fault.outOfFuel) :
    (x >>= f) ≠ .error Fault.outOfFuel := by
  cases x with
  | error e => simpa [bind, Except.bind] using hx
  | ok a => exact hf a rfl

theorem deref_ne_outOfFuel (s : ByteArray) (p : NodePtr) :
    s.deref p ≠ .error Fault.outOfFuel := by
  unfold deref
  repeat' split
  all_goals simp

theorem next_ne_outOfFuel (s : ByteArray) (p : NodePtr) :
    s.next p ≠ .error Fault.outOfFuel := by
  unfold ByteArray.next
  repeat' split
  all_goals simp

theorem memcpyFrom_ne_outOfFuel (s : ByteArray) (p : NodePtr) (npos len : Nat) :
    s.memcpyFrom p npos len ≠ .error Fault.outOfFuel := by
  unfold memcpyFrom
  apply bind_ne_outOfFuel _ _ (deref_ne_outOfFuel s p)
  intro n _
  split <;> simp [pure, Except.pure]

theorem memcpyTo_ne_outOfFuel (s : ByteArray) (p : NodePtr) (npos : Nat) (src : List Nat) :
    s.memcpyTo p npos src ≠ .error Fault.outOfFuel := by
  unfold memcpyTo
  repeat' split
  all_goals simp

theorem deref_ok_lt (s : ByteArray) (p : NodePtr) (n : Node) (h : s.deref p = .ok n) :
    ∃ i, p = NodePtr.node i ∧ i < s.nodes.length := by
  cases p with
  | null => cases h
  | dangling => cases h
  | node i =>
    simp only [deref] at h
    split at h
    · rename_i hget
      exact ⟨i, rfl, (List.getElem?_eq_some_iff.mp hget).1⟩
    · cases h

/-- Following `next` to a node that can be dereferenced shortens the rest of the chain. -/
theorem next_remaining (s : ByteArray) (p q : NodePtr) (n : Node)
    (hq : s.next p = .ok q) (hn : s.deref q = .ok n) : s.remaining q < s.remaining p := by
  obtain ⟨j, hj, hjl⟩ := deref_ok_lt s q n hn
  subst hj
  cases p with
  | null => cases hq
  | dangling => cases hq
  | node i =>
    simp only [ByteArray.next] at hq
    split at hq
    · cases hq
      simp only [remaining]; omega
    · split at hq
      · simp only [Except.ok.injEq, tailNext] at hq
        split at hq <;> cases hq
      · cases hq

theorem readLoop_ne_outOfFuel : ∀ (fuel : Nat) (s : ByteArray) (npos ncap size : Nat)
    (out : List Nat), s.remaining s.m_cur < fuel →
    readLoop fuel s npos ncap size out ≠ .error Fault.outOfFuel := by
  intro fuel
  induction fuel with
  | zero => intro s _ _ _ _ h; omega
  | succ fuel ih =>
    intro s npos ncap size out h
    unfold readLoop
    split
    · split
      · apply bind_ne_outOfFuel _ _ (memcpyFrom_ne_outOfFuel _ _ _ _)
        intro bytes _
        apply bind_ne_outOfFuel _ _ (deref_ne_outOfFuel _ _)
        intro cur _
        apply bind_ne_outOfFuel
        · split
          · apply bind_ne_outOfFuel _ _ (next_ne_outOfFuel _ _)
            intro nx _
            simp [pure, Except.pure]
          · simp [pure, Except.pure]
        · intro s1 _
          simp [pure, Except.pure]
      · apply bind_ne_outOfFuel _ _ (memcpyFrom_ne_outOfFuel _ _ _ _)
        intro bytes _
        apply bind_ne_outOfFuel _ _ (next_ne_outOfFuel _ _)
        intro nx hnx
        apply bind_ne_outOfFuel _ _ (deref_ne_outOfFuel _ _)
        intro cur hcur
        apply ih
        have := next_remaining _ _ _ _ hnx hcur
        simp only [remaining] at this h ⊢
        omega
    · simp [pure, Except.pure]

theorem readAtLoop_ne_outOfFuel : ∀ (fuel : Nat) (s : ByteArray) (cur : NodePtr)
    (npos ncap size : Nat) (out : List Nat), s.remaining cur < fuel →
    readAtLoop fuel s cur npos ncap size out ≠ .error Fault.outOfFuel := by
  intro fuel
  induction fuel with
  | zero => intro s _ _ _ _ _ h; omega
  | succ fuel ih =>
    intro s cur npos ncap size out h
    unfold readAtLoop
    split
    · split
      · apply bind_ne_outOfFuel _ _ (memcpyFrom_ne_outOfFuel _ _ _ _)
        intro bytes _
        simp [pure, Except.pure]
      · apply bind_ne_outOfFuel _ _ (memcpyFrom_ne_outOfFuel _ _ _ _)
        intro bytes _
        apply bind_ne_outOfFuel _ _ (next_ne_outOfFuel _ _)
        intro nx hnx
        apply bind_ne_outOfFuel _ _ (deref_ne_outOfFuel _ _)
        intro n hn
        apply ih
        have := next_remaining _ _ _ _ hnx hn
        simp only [remaining] at this h ⊢
        omega
    · simp [pure, Except.pure]

theorem setPositionLoop_ne_outOfFuel (s : ByteArray) : ∀ (fuel v : Nat) (cur : NodePtr),
    s.remaining cur < fuel → setPositionLoop s fuel v cur ≠ .error Fault.outOfFuel := by
  intro fuel
  induction fuel with
  | zero => intro _ _ h; omega
  | succ fuel ih =>
    intro v cur h
    unfold setPositionLoop
    apply bind_ne_outOfFuel _ _ (deref_ne_outOfFuel _ _)
    intro n hn
    split
    · apply bind_ne_outOfFuel _ _ (next_ne_outOfFuel _ _)
      intro nx hnx
      by_cases hd : ∃ m, s.deref nx = .ok m
      · obtain ⟨m, hm⟩ := hd
        apply ih
        have := next_remaining _ _ _ _ hnx hm
        omega
      · cases fuel with
        | zero =>
          obtain ⟨i, hi, hil⟩ := deref_ok_lt s cur n hn
          subst hi
          simp only [remaining] at h
          omega
        | succ k =>
          unfold setPositionLoop
          cases hx : s.deref nx with
          | ok m => exact absurd ⟨m, hx⟩ hd
          | error e =>
            have := deref_ne_outOfFuel s nx
            rw [hx] at this
            simpa [bind, Except.bind] using this
    · split
      · exact next_ne_outOfFuel _ _
      · simp [pure, Except.pure]

theorem memcpyTo_ok (s s1 : ByteArray) (p : NodePtr) (npos : Nat) (src : List Nat)
    (h : s.memcpyTo p npos src = .ok s1) :
    s1.nodes.length = s.nodes.length ∧ s1.m_cur = s.m_cur ∧ s1.tailDangling = s.tailDangling := by
  cases p with
  | null => cases h
  | dangling => cases h
  | node i =>
    simp only [memcpyTo] at h
    split at h
    · cases h
    · split at h
      · cases h
        simp
      · cases h

theorem remaining_congr (s s1 : ByteArray) (h : s1.nodes.length = s.nodes.length)
    (p : NodePtr) : s1.remaining p = s.remaining p := by
  cases p <;> simp [remaining, h]

theorem writeLoop_ne_outOfFuel (buf : List Nat) : ∀ (fuel : Nat) (s : ByteArray)
    (npos ncap bpos size : Nat), s.remaining s.m_cur < fuel →
    writeLoop buf fuel s npos ncap bpos size ≠ .error Fault.outOfFuel := by
  intro fuel
  induction fuel with
  | zero => intro s _ _ _ _ h; omega
  | succ fuel ih =>
    intro s npos ncap bpos size h
    unfold writeLoop
    split
    · split
      · split
        · simp
        · apply bind_ne_outOfFuel _ _ (memcpyTo_ne_outOfFuel _ _ _ _)
          intro s1 _
          apply bind_ne_outOfFuel _ _ (deref_ne_outOfFuel _ _)
          intro cur _
          apply bind_ne_outOfFuel
          · split
            · apply bind_ne_outOfFuel _ _ (next_ne_outOfFuel _ _)
              intro nx _
              simp [pure, Except.pure]
            · simp [pure, Except.pure]
          · intro s2 _
            simp [pure, Except.pure]
      · split
        · simp
        · apply bind_ne_outOfFuel _ _ (memcpyTo_ne_outOfFuel _ _ _ _)
          intro s1 hs1
          obtain ⟨hlen, hcur, _⟩ := memcpyTo_ok _ _ _ _ _ hs1
          apply bind_ne_outOfFuel _ _ (next_ne_outOfFuel _ _)
          intro nx hnx
          apply bind_ne_outOfFuel _ _ (deref_ne_outOfFuel _ _)
          intro cur hcur2
          apply ih
          have := next_remaining _ _ _ _ hnx hcur2
          simp only [remaining] at this h ⊢
          rw [hcur] at this
          rw [hlen] at this ⊢
          omega
    · simp [pure, Except.pure]

theorem remaining_le (s : ByteArray) (p : NodePtr) : s.remaining p ≤ s.nodes.length := by
  cases p <;> simp [remaining]

theorem read_ne_outOfFuel (s : ByteArray) (size : Nat) :
    s.read size ≠ .error Fault.outOfFuel := by
  unfold ByteArray.read
  split
  · simp
  · split
    · simp
    · apply bind_ne_outOfFuel _ _ (deref_ne_outOfFuel _ _)
      intro cur _
      exact readLoop_ne_outOfFuel _ _ _ _ _ _ (Nat.lt_succ_of_le (remaining_le _ _))

theorem advance_ne_outOfFuel (s : ByteArray) : ∀ (k : Nat) (cur : NodePtr),
    s.advance k cur ≠ .error Fault.outOfFuel := by
  intro k
  induction k with
  | zero => intro cur; simp [advance, pure, Except.pure]
  | succ k ih =>
    intro cur
    unfold advance
    apply bind_ne_outOfFuel _ _ (next_ne_outOfFuel _ _)
    intro nx _
    exact ih nx

theorem readAt_ne_outOfFuel (s : ByteArray) (size position : Nat) :
    s.readAt size position ≠ .error Fault.outOfFuel := by
  unfold readAt
  split
  · simp
  · split
    · simp
    · apply bind_ne_outOfFuel _ _ (advance_ne_outOfFuel _ _ _)
      intro cur _
      apply bind_ne_outOfFuel _ _ (deref_ne_outOfFuel _ _)
      intro n _
      exact readAtLoop_ne_outOfFuel _ _ _ _ _ _ _ (Nat.lt_succ_of_le (remaining_le _ _))

theorem setPosition_ne_outOfFuel (s : ByteArray) (v : Nat) :
    s.setPosition v ≠ .error Fault.outOfFuel := by
  unfold setPosition
  split
  · simp
  · apply bind_ne_outOfFuel
    · exact setPositionLoop_ne_outOfFuel _ _ _ _ (Nat.lt_succ_of_le (remaining_le _ _))
    · intro cur _
      simp [pure, Except.pure]

theorem addCapacity_ne_outOfFuel (s : ByteArray) (size : Nat) :
    s.addCapacity size ≠ .error Fault.outOfFuel := by
  simp only [addCapacity]
  repeat' split
  all_goals simp

theorem write_ne_outOfFuel (s : ByteArray) (buf : List Nat) :
    s.write buf ≠ .error Fault.outOfFuel := by
  unfold write
  apply bind_ne_outOfFuel _ _ (addCapacity_ne_outOfFuel _ _)
  intro s1 _
  split
  · simp
  · apply bind_ne_outOfFuel _ _ (deref_ne_outOfFuel _ _)
    intro cur _
    apply bind_ne_outOfFuel
    · exact writeLoop_ne_outOfFuel _ _ _ _ _ _ _ (Nat.lt_succ_of_le (remaining_le _ _))
    · intro s2 _
      simp [pure, Except.pure]

theorem readFuint8_ne_outOfFuel (s : ByteArray) : s.readFuint8 ≠ .error Fault.outOfFuel := by
  unfold readFuint8
  apply bind_ne_outOfFuel _ _ (read_ne_outOfFuel _ _)
  intro r _
  simp [pure, Except.pure]

theorem readVarintLoop_ne_outOfFuel (w : Nat) : ∀ (fuel i result : Nat) (s : ByteArray),
    0 < fuel → 38 < i + 7 * fuel →
    readVarintLoop w fuel i result s ≠ .error Fault.outOfFuel := by
  intro fuel
  induction fuel with
  | zero => intro i result s h; omega
  | succ fuel ih =>
    intro i result s _ h
    unfold readVarintLoop
    split
    · apply bind_ne_outOfFuel _ _ (readFuint8_ne_outOfFuel _)
      intro r _
      obtain ⟨b, s1⟩ := r
      show (if b < 0x80 then _ else _) ≠ _
      split
      · simp [pure, Except.pure]
      · exact ih _ _ _ (by omega) (by omega)
    · simp [pure, Except.pure]

theorem varintBytes_ne_outOfFuel (cap value : Nat) (hcap : cap < 256) :
    varintBytes cap value ≠ .error Fault.outOfFuel := by
  unfold varintBytes
  apply bind_ne_outOfFuel
  · by_cases h : 128 ≤ value
    · rw [varintLoop_overrun cap value h hcap (cap + 2) 0 _ (Nat.zero_le _) (by omega)]
      simp
    · simp [varintLoop, h, pure, Except.pure]
  · intro r _
    obtain ⟨temp, i⟩ := r
    show (if i < cap then _ else _) ≠ _
    split <;> simp [pure, Except.pure]

/-- The iteration budgets passed by the entry points are never used up: no operation of
the model returns `outOfFuel`. -/
theorem entry_points_ne_outOfFuel (s : ByteArray) :
    (∀ v, s.setPosition v ≠ .error Fault.outOfFuel) ∧
    (∀ buf, s.write buf ≠ .error Fault.outOfFuel) ∧
    (∀ size, s.read size ≠ .error Fault.outOfFuel) ∧
    (∀ size position, s.readAt size position ≠ .error Fault.outOfFuel) ∧
    s.readUint32 ≠ .error Fault.outOfFuel ∧
    s.readUint64 ≠ .error Fault.outOfFuel ∧
    (∀ v, s.writeUint32 v ≠ .error Fault.outOfFuel) ∧
    (∀ v, s.writeUint64 v ≠ .error Fault.outOfFuel) := by
  refine ⟨setPosition_ne_outOfFuel s, write_ne_outOfFuel s, read_ne_outOfFuel s,
    readAt_ne_outOfFuel s, readVarintLoop_ne_outOfFuel 32 6 0 0 s (by decide) (by decide),
    readVarintLoop_ne_outOfFuel 64 6 0 0 s (by decide) (by decide), ?_, ?_⟩
  · intro v
    unfold writeUint32
    apply bind_ne_outOfFuel _ _ (varintBytes_ne_outOfFuel 5 _ (by decide))
    intro b _
    exact write_ne_outOfFuel s b
  · intro v
    unfold writeUint64
    apply bind_ne_outOfFuel _ _ (varintBytes_ne_outOfFuel 10 _ (by decide))
    intro b _
    exact write_ne_outOfFuel s b

/-! ### The positional read moves the cursor offset -/

/-- What the loop of the positional read does to the object, in every state: the chain,
`m_cur`, `m_size` and `m_capacity` are left alone, and `m_position` is advanced by the
number of bytes read (modulo `2^64`). -/
theorem readAtLoop_frame : ∀ (fuel : Nat) (s : ByteArray) (cur : NodePtr)
    (npos ncap size : Nat) (out r : List Nat) (s' : ByteArray),
    readAtLoop fuel s cur npos ncap size out = .ok (r, s') →
    (size = 0 → s' = s) ∧
    (0 < size → s'.m_position = (s.m_position + size) % 2 ^ 64) ∧
    s'.m_cur = s.m_cur ∧ s'.nodes = s.nodes ∧ s'.m_size = s.m_size ∧
    s'.m_capacity = s.m_capacity := by
  intro fuel
  induction fuel with
  | zero => intro s cur npos ncap size out r s' h; cases h
  | succ fuel ih =>
    intro s cur npos ncap size out r s' h
    unfold readAtLoop at h
    by_cases hs : size > 0
    · rw [if_pos hs] at h
      by_cases hc : ncap ≥ size
      · rw [if_pos hc] at h
        obtain ⟨bytes, _, h⟩ := bind_eq_ok h
        cases h
        exact ⟨fun h0 => by omega, fun _ => rfl, rfl, rfl, rfl, rfl⟩
      · rw [if_neg hc] at h
        obtain ⟨bytes, _, h⟩ := bind_eq_ok h
        obtain ⟨nx, _, h⟩ := bind_eq_ok h
        obtain ⟨n, _, h⟩ := bind_eq_ok h
        obtain ⟨h0, hp, hcur, hn, hsz, hcp⟩ := ih _ _ _ _ _ _ _ _ h
        refine ⟨fun h0 => by omega, fun _ => ?_, hcur, hn, hsz, hcp⟩
        have hsub : subU 64 size ncap = (size % 2 ^ 64 + (2 ^ 64 - ncap % 2 ^ 64) % 2 ^ 64) % 2 ^ 64 :=
          rfl
        rcases Nat.eq_zero_or_pos (subU 64 size ncap) with hz | hz
        · rw [h0 hz]
          show addU 64 s.m_position ncap = _
          unfold addU
          rw [hsub] at hz
          simp only [Nat.reducePow] at hz ⊢
          omega
        · rw [hp hz]
          show (addU 64 s.m_position ncap + subU 64 size ncap) % 2 ^ 64 = _
          unfold addU
          rw [hsub]
          simp only [Nat.reducePow]
          omega
    · rw [if_neg hs] at h
      cases h
      exact ⟨fun _ => rfl, fun h0 => absurd h0 hs, rfl, rfl, rfl, rfl⟩

/-- Every positional read of `size > 0` bytes that returns has moved the shared cursor
offset: `m_position` is advanced by `size` (modulo `2^64`), while `m_cur` keeps pointing at
the chunk of the old position. -/
theorem readAt_frame (s : ByteArray) (size position : Nat) (r : List Nat) (s' : ByteArray)
    (h : s.readAt size position = .ok (r, s')) :
    (size = 0 → s' = s) ∧
    (0 < size → s'.m_position = (s.m_position + size) % 2 ^ 64) ∧
    s'.m_cur = s.m_cur ∧ s'.nodes = s.nodes ∧ s'.m_size = s.m_size ∧
    s'.m_capacity = s.m_capacity := by
  unfold readAt at h
  split at h
  · cases h
  · split at h
    · cases h
    · obtain ⟨cur, _, h⟩ := bind_eq_ok h
      obtain ⟨n, _, h⟩ := bind_eq_ok h
      exact readAtLoop_frame _ _ _ _ _ _ _ _ _ h

/-! ### Claims -/

/-- C1 (fails on the code): a write followed by a positional read of the same range does not
always give the written bytes back. On the freshly constructed buffer a one-byte write
dereferences a null `m_cur` (the chunk records capacity 0). On a buffer of three chunks of
4 bytes that record their capacity, the 12 bytes `1 … 12` written at position 0 read back
as `1 2 3 4 1 2 3 4 9 10 11 12`: the middle chunk received the start of the input again. -/
theorem write_then_readAt_diverges :
    (ByteArray.ctor 4).write [1] = .error Fault.nullDeref ∧
    (do let s ← (ofBlocks 4 [[0, 0, 0, 0], [0, 0, 0, 0], [0, 0, 0, 0]] 0 0).write
                  [1, 2, 3, 4, 5, 6, 7, 8, 9, 10, 11, 12]
        let r ← s.readAt 12 0
        pure r.1) = .ok [1, 2, 3, 4, 1, 2, 3, 4, 9, 10, 11, 12] := by
  decide

/-- C2 (fails on the code): on the fresh buffer of chunk size 4, `addCapacity 5` appends no
chunk, so `capacity − position` stays 4, below the 5 bytes asked for; a request of 8 does
append one chunk. -/
theorem addCapacity_floors_chunk_count :
    (ByteArray.ctor 4).addCapacity 5 = .ok (ByteArray.ctor 4) ∧
    (ByteArray.ctor 4).m_capacity - (ByteArray.ctor 4).m_position = 4 ∧
    (ByteArray.ctor 4).addCapacity 8 =
      .ok { ByteArray.ctor 4 with m_capacity := 8, nodes := [Node.ctor 4, Node.ctor 4] } := by
  decide

/-- C3 (fails on the code): the positional read adds the number of bytes read to
`m_position`. Reading 2 bytes at offset 0 from a buffer holding `1 2 3 4` with the cursor
at 0 leaves the cursor at 2; on the fresh buffer `read(buf, 1, 1)` leaves it at 1. -/
theorem readAt_moves_position :
    (ofBlocks 4 [[1, 2, 3, 4]] 4 0).readAt 2 0 =
      .ok ([1, 2], ofBlocks 4 [[1, 2, 3, 4]] 4 2) ∧
    (ByteArray.ctor 4).readAt 1 1 =
      .ok ([0], { ByteArray.ctor 4 with m_position := 1 }) := by
  decide

/-- C4 (fails on the code): the canonical varint encoding of 300 is `[0xAC, 0x02]`, but
`writeUint64(300)` and `writeUint32(300)` never reach their `write`: the loop does not
return for any budget and overruns the scratch array. -/
theorem writeUint64_300_never_emits :
    varintEncode 300 = [0xAC, 0x02] ∧
    (∀ s : ByteArray, s.writeUint64 300 = .error Fault.overrun) ∧
    (∀ s : ByteArray, s.writeUint32 300 = .error Fault.overrun) ∧
    (∀ (fuel i : Nat) (temp : List Nat) (r : List Nat × Nat),
      varintLoop 10 fuel 300 i temp ≠ .ok r) :=
  ⟨by decide, fun _ => rfl, fun _ => rfl, varintLoop_never_returns 10 300 (by decide)⟩

/-- C5 (fails on the code): for the value 128 the loops of `writeUint32` and `writeUint64`
return for no iteration budget, and their sixth resp. eleventh iteration stores at index 5
resp. 10, outside the 5-byte resp. 10-byte scratch array. -/
theorem varint_scratch_overrun :
    (∀ (fuel i : Nat) (temp : List Nat) (r : List Nat × Nat),
      varintLoop 5 fuel 128 i temp ≠ .ok r) ∧
    (∀ (fuel i : Nat) (temp : List Nat) (r : List Nat × Nat),
      varintLoop 10 fuel 128 i temp ≠ .ok r) ∧
    (∀ (fuel : Nat) (temp : List Nat),
      varintLoop 5 (fuel + 6) 128 0 temp = .error Fault.overrun) ∧
    (∀ (fuel : Nat) (temp : List Nat),
      varintLoop 10 (fuel + 11) 128 0 temp = .error Fault.overrun) ∧
    (∀ s : ByteArray, s.writeUint32 128 = .error Fault.overrun) ∧
    (∀ s : ByteArray, s.writeUint64 128 = .error Fault.overrun) :=
  ⟨varintLoop_never_returns 5 128 (by decide), varintLoop_never_returns 10 128 (by decide),
   fun fuel temp => varintLoop_overrun 5 128 (by decide) (by decide) (fuel + 6) 0 temp
     (by decide) (by omega),
   fun fuel temp => varintLoop_overrun 10 128 (by decide) (by decide) (fuel + 11) 0 temp
     (by decide) (by omega),
   fun _ => rfl, fun _ => rfl⟩

/-- C6: for every int32 `n` (32-bit wrap-around arithmetic), decoding the zigzag encoding
of `n` gives `n` back. -/
theorem zigzag32_roundtrip (n : Int) (h : IsInt 32 n) :
    DecodeZigzag32 (EncodeZigzag32 n) = n := by
  obtain ⟨h1, h2⟩ := h
  simp only [Nat.add_one_sub_one, Nat.reducePow, Int.reducePow, Int.reduceNeg,
    Nat.reduceSub] at h1 h2
  rw [EncodeZigzag32_eq n h1 h2]
  split
  · rw [DecodeZigzag32_eq _ (by omega)]; split <;> omega
  · rw [DecodeZigzag32_eq _ (by omega)]; split <;> omega

/-- C6 at the values the claim names: `0`, `-1`, `1` and the minimum int32. -/
theorem zigzag32_roundtrip_witness :
    DecodeZigzag32 (EncodeZigzag32 0) = 0 ∧
    DecodeZigzag32 (EncodeZigzag32 (-1)) = -1 ∧
    DecodeZigzag32 (EncodeZigzag32 1) = 1 ∧
    DecodeZigzag32 (EncodeZigzag32 (-2147483648)) = -2147483648 :=
  ⟨zigzag32_roundtrip 0 (by decide), zigzag32_roundtrip (-1) (by decide),
   zigzag32_roundtrip 1 (by decide), zigzag32_roundtrip (-2147483648) (by decide)⟩

/-- C7 (fails on the code): `writeInt32(64)` passes the zigzag value 128 to `writeUint32`,
whose loop overruns the scratch array instead of returning, so nothing is written and
nothing can be read back. For `-1` the encoder does produce the single byte `0x01`, and on
a buffer whose chunk records its capacity that byte decodes back to `-1`; on the freshly
constructed buffer the `write` of that byte dereferences a null `m_cur`. -/
theorem writeInt32_roundtrip_fails :
    EncodeZigzag32 64 = 128 ∧
    (∀ s : ByteArray, s.writeInt32 64 = .error Fault.overrun) ∧
    varintBytes 5 (EncodeZigzag32 (-1)) = .ok [0x01] ∧
    (do let s ← (ofBlocks 4 [[0, 0, 0, 0]] 0 0).writeInt32 (-1)
        let s ← s.setPosition 0
        s.readInt32) = .ok (-1, ofBlocks 4 [[1, 0, 0, 0]] 1 1) ∧
    (ByteArray.ctor 4).writeInt32 (-1) = .error Fault.nullDeref :=
  ⟨by decide, fun _ => rfl, by decide, by decide, by decide⟩

/-- C8 (fails on the code): `EncodeZigzag64` computes its negative branch in 32 bits, so
`-2^31 - 1` is encoded as 1 (the code of `-1`) and decodes to `-1`, and the minimum int64
decodes to `-2^31`: the mapping is not injective and decoding is not its inverse. -/
theorem zigzag64_not_inverse :
    IsInt 64 (-2147483649) ∧
    EncodeZigzag64 (-2147483649) = EncodeZigzag64 (-1) ∧
    DecodeZigzag64 (EncodeZigzag64 (-2147483649)) = -1 ∧
    IsInt 64 (-9223372036854775808) ∧
    DecodeZigzag64 (EncodeZigzag64 (-9223372036854775808)) = -2147483648 := by
  decide

/-- C9 (fails on the code): the canonical encoding of `2^35` has six bytes; `readUint64`
leaves its loop after five of them, returns 0 and advances the position by 5. -/
theorem readUint64_stops_after_five_groups :
    varintEncode (2 ^ 35) = [0x80, 0x80, 0x80, 0x80, 0x80, 0x01] ∧
    (ofBlocks 8 [[0x80, 0x80, 0x80, 0x80, 0x80, 0x01, 0, 0]] 6 0).WF ∧
    (ofBlocks 8 [[0x80, 0x80, 0x80, 0x80, 0x80, 0x01, 0, 0]] 6 0).Holds 0
      (varintEncode (2 ^ 35)) ∧
    (ofBlocks 8 [[0x80, 0x80, 0x80, 0x80, 0x80, 0x01, 0, 0]] 6 0).readUint64 =
      .ok (0, ofBlocks 8 [[0x80, 0x80, 0x80, 0x80, 0x80, 0x01, 0, 0]] 6 5) := by
  decide

/-- The decoder on the design-intended states: on a buffer whose chunks record their capacity
(the data-model invariants) and which holds the canonical varint encoding of a uint32 `v` at
its position, `readUint32` returns `v` and advances the position by the length of the
encoding, which is between 1 and 5. And in every state, for arbitrary contents, a
`readUint32` that returns has advanced the position by at least 1 and at most 5 bytes
(modulo `2^64`). -/
theorem readUint32_canonical :
    (∀ (s : ByteArray) (v : Nat), s.WF → v < 2 ^ 32 →
      s.Holds s.m_position (varintEncode v) →
      s.m_position + (varintEncode v).length ≤ s.m_size →
      ∃ s', s.readUint32 = .ok (v, s') ∧
        s'.m_position = s.m_position + (varintEncode v).length ∧
        1 ≤ (varintEncode v).length ∧ (varintEncode v).length ≤ 5) ∧
    (∀ (s : ByteArray) (r : Nat) (s' : ByteArray), s.readUint32 = .ok (r, s') →
      ∃ k, 1 ≤ k ∧ k ≤ 5 ∧ s'.m_position = (s.m_position + k) % 2 ^ 64) := by
  have part2 : ∀ (s : ByteArray) (r : Nat) (s' : ByteArray), s.readUint32 = .ok (r, s') →
      ∃ k, 1 ≤ k ∧ k ≤ 5 ∧ s'.m_position = (s.m_position + k) % 2 ^ 64 := by
    intro s r s' h
    obtain ⟨k, hk, h1, _, hpos⟩ := readVarintLoop_consumes 32 6 0 0 s r s' h
    have hk1 : 1 ≤ k := h1 (by decide)
    exact ⟨k, hk1, by omega, hpos hk1⟩
  refine ⟨?_, part2⟩
  intro s v hwf hv hholds hlen
  obtain ⟨s', hrd, hpos, _, _, _⟩ :=
    readVarintLoop_canonical 6 v 0 0 s hwf hholds hlen (by decide) (by decide)
      (by simpa using hv) (by decide)
  have hrd' : s.readUint32 = .ok (v, s') := by
    unfold readUint32
    rw [hrd]
    simp
  obtain ⟨k, hk1, hk5, hkp⟩ := part2 s v s' hrd'
  obtain ⟨_, _, hcap, hc64, hpc, hsc, _, _⟩ := hwf
  refine ⟨s', hrd', hpos, ?_, ?_⟩
  · rw [varintEncode_eq]; split <;> simp
  · rw [hpos] at hkp
    simp only [Nat.reducePow] at hkp hc64
    omega

/-- C10 (fails on the code): after `ByteArray ba(4); ba.read(buf, 1, 1);
ba.getWriteBuffers(v, 11); ba.write(b, 2); ba.setPosition(0); ba.read(buf, 1, 1);` with `b`
the bytes `AC 02`, the canonical encoding of 300, the buffer has `position = 1`, `size = 3`
and holds `AC 02` at the offsets `[1, 3)`; `readUint32` returns 0 and advances the position by 1, because
`setPosition(0)` has left `m_cur` on the second chunk (every chunk records `size = 0`). When
`07 07` is written at the offsets `[5, 7)` before (the position moved there by three
positional reads), the call returns 7, the byte at offset 5. On the buffer with the same
bytes whose chunks record their capacity the call returns 300. -/
theorem readUint32_misses_stored_encoding :
    varintEncode 300 = [0xAC, 0x02] ∧
    (∃ s : ByteArray,
      (do let r ← (ByteArray.ctor 4).readAt 1 1
          let w ← r.2.getWriteBuffers 11
          let s ← w.2.2.write [0xAC, 0x02]
          let s ← s.setPosition 0
          let r ← s.readAt 1 1
          pure r.2) = .ok s ∧
      s.m_position = 1 ∧ s.m_size = 3 ∧ s.m_capacity = 12 ∧ s.m_cur = NodePtr.node 1 ∧
      s.Holds 1 (varintEncode 300) ∧
      s.m_position + (varintEncode 300).length ≤ s.m_size ∧
      s.readUint32 = .ok (0, { s with m_position := 2 })) ∧
    (∃ s : ByteArray,
      (do let r ← (ByteArray.ctor 4).readAt 1 1
          let w ← r.2.getWriteBuffers 11
          let s ← w.2.2.write [0xAC, 0x02]
          let s ← s.setPosition 0
          let r ← s.readAt 2 1
          let r ← r.2.readAt 2 1
          let r ← r.2.readAt 1 1
          let s ← r.2.write [7, 7]
          let s ← s.setPosition 0
          let r ← s.readAt 1 1
          pure r.2) = .ok s ∧
      s.m_position = 1 ∧ s.m_size = 7 ∧ s.m_capacity = 12 ∧ s.m_cur = NodePtr.node 1 ∧
      s.Holds 1 (varintEncode 300) ∧ s.Holds 5 [7, 7] ∧
      s.readUint32 = .ok (7, { s with m_position := 2 })) ∧
    (ofBlocks 4 [[0, 0xAC, 0x02, 0], [0, 0, 0, 0], [0, 0, 0, 0]] 3 1).readUint32 =
      .ok (300, ofBlocks 4 [[0, 0xAC, 0x02, 0], [0, 0, 0, 0], [0, 0, 0, 0]] 3 3) :=
  ⟨by decide,
   ⟨asBuilt 4 [[0, 0xAC, 0x02, 0], [0, 0, 0, 0], [0, 0, 0, 0]] 3 1 (NodePtr.node 1),
    by decide⟩,
   ⟨asBuilt 4 [[0, 0xAC, 0x02, 0], [0, 7, 7, 0], [0, 0, 0, 0]] 7 1 (NodePtr.node 1),
    by decide⟩,
   by decide⟩

/-! ### What `addCapacity`, `setPosition` and `write` do to position and size -/

/-- A call of `addCapacity` that returns leaves `m_position`, `m_size` and `m_baseSize`
alone. -/
theorem addCapacity_frame (s s1 : ByteArray) (size : Nat) (h : s.addCapacity size = .ok s1) :
    s1.m_position = s.m_position ∧ s1.m_size = s.m_size ∧ s1.m_baseSize = s.m_baseSize := by
  simp only [addCapacity] at h
  repeat' split at h
  all_goals first
    | exact Except.noConfusion h
    | (cases h; exact ⟨rfl, rfl, rfl⟩)

/-- A store into a chunk leaves every scalar member alone. -/
theorem memcpyTo_frame (s s1 : ByteArray) (p : NodePtr) (npos : Nat) (src : List Nat)
    (h : s.memcpyTo p npos src = .ok s1) :
    s1.m_position = s.m_position ∧ s1.m_size = s.m_size ∧ s1.m_capacity = s.m_capacity ∧
    s1.m_baseSize = s.m_baseSize := by
  cases p with
  | null => cases h
  | dangling => cases h
  | node i =>
    simp only [memcpyTo] at h
    split at h
    · cases h
    · split at h
      · cases h
        exact ⟨rfl, rfl, rfl, rfl⟩
      · cases h

/-- What the loop of `write` does to the scalar members, in every state: `m_size` and
`m_capacity` are left alone and `m_position` is advanced by the number of bytes still to
copy (modulo `2^64`). -/
theorem writeLoop_frame (buf : List Nat) : ∀ (fuel : Nat) (s : ByteArray)
    (npos ncap bpos size : Nat) (s' : ByteArray),
    writeLoop buf fuel s npos ncap bpos size = .ok s' →
    (size = 0 → s' = s) ∧
    (0 < size → s'.m_position = (s.m_position + size) % 2 ^ 64) ∧
    s'.m_size = s.m_size ∧ s'.m_capacity = s.m_capacity := by
  intro fuel
  induction fuel with
  | zero => intro s npos ncap bpos size s' h; cases h
  | succ fuel ih =>
    intro s npos ncap bpos size s' h
    unfold writeLoop at h
    by_cases hs : size > 0
    · rw [if_pos hs] at h
      by_cases hc : ncap ≥ size
      · rw [if_pos hc] at h
        split at h
        · cases h
        · obtain ⟨s1, hs1, h⟩ := bind_eq_ok h
          obtain ⟨hp1, hz1, hc1, _⟩ := memcpyTo_frame _ _ _ _ _ hs1
          obtain ⟨cur, _, h⟩ := bind_eq_ok h
          obtain ⟨s2, hs2, h⟩ := bind_eq_ok h
          cases h
          have h2 : s2.m_position = s1.m_position ∧ s2.m_size = s1.m_size ∧
              s2.m_capacity = s1.m_capacity := by
            split at hs2
            · obtain ⟨nx, _, hs2⟩ := bind_eq_ok hs2
              cases hs2
              exact ⟨rfl, rfl, rfl⟩
            · cases hs2
              exact ⟨rfl, rfl, rfl⟩
          refine ⟨fun h0 => by omega, fun _ => ?_, ?_, ?_⟩
          · show addU 64 s2.m_position size = _
            rw [h2.1, hp1]; rfl
          · show s2.m_size = _
            rw [h2.2.1, hz1]
          · show s2.m_capacity = _
            rw [h2.2.2, hc1]
      · rw [if_neg hc] at h
        split at h
        · cases h
        · obtain ⟨s1, hs1, h⟩ := bind_eq_ok h
          obtain ⟨hp1, hz1, hc1, _⟩ := memcpyTo_frame _ _ _ _ _ hs1
          obtain ⟨nx, _, h⟩ := bind_eq_ok h
          obtain ⟨cur, _, h⟩ := bind_eq_ok h
          obtain ⟨h0, hp, hsz, hcp⟩ := ih _ _ _ _ _ _ h
          refine ⟨fun h0 => by omega, fun _ => ?_, by rw [hsz]; exact hz1,
            by rw [hcp]; exact hc1⟩
          have hsub : subU 64 size ncap =
              (size % 2 ^ 64 + (2 ^ 64 - ncap % 2 ^ 64) % 2 ^ 64) % 2 ^ 64 := rfl
          rcases Nat.eq_zero_or_pos (subU 64 size ncap) with hz | hz
          · rw [h0 hz]
            show addU 64 s1.m_position ncap = _
            rw [hp1]
            unfold addU
            rw [hsub] at hz
            simp only [Nat.reducePow] at hz ⊢
            omega
          · rw [hp hz]
            show (addU 64 s1.m_position ncap + subU 64 size ncap) % 2 ^ 64 = _
            rw [hp1]
            unfold addU
            rw [hsub]
            simp only [Nat.reducePow]
            omega
    · rw [if_neg hs] at h
      cases h
      exact ⟨fun _ => rfl, fun h0 => absurd h0 hs, rfl, rfl⟩

/-- Every `write` that returns has advanced `m_position` by the full length of the input
(modulo `2^64`) and left `m_size` at the larger of the old size and the new position. -/
theorem write_frame (s s' : ByteArray) (buf : List Nat) (h : s.write buf = .ok s') :
    (buf = [] → s'.m_position = s.m_position) ∧
    (buf ≠ [] → s'.m_position = (s.m_position + buf.length) % 2 ^ 64) ∧
    s'.m_size = max s.m_size s'.m_position := by
  unfold write at h
  obtain ⟨s1, hs1, h⟩ := bind_eq_ok h
  obtain ⟨hp1, hz1, _⟩ := addCapacity_frame _ _ _ hs1
  split at h
  · cases h
  · obtain ⟨cur, _, h⟩ := bind_eq_ok h
    obtain ⟨s2, hs2, h⟩ := bind_eq_ok h
    obtain ⟨h0, hp, hsz, _⟩ := writeLoop_frame _ _ _ _ _ _ _ _ hs2
    cases h
    have hpos : (buf = [] → s2.m_position = s.m_position) ∧
        (buf ≠ [] → s2.m_position = (s.m_position + buf.length) % 2 ^ 64) := by
      constructor
      · intro hb
        rw [h0 (by simp [hb]), hp1]
      · intro hb
        rw [hp (List.length_pos.mpr hb), hp1]
    by_cases hgt : s2.m_position > s2.m_size
    · rw [if_pos hgt]
      refine ⟨hpos.1, hpos.2, ?_⟩
      show s2.m_position = max s.m_size s2.m_position
      rw [hsz, hz1] at hgt
      omega
    · rw [if_neg hgt]
      refine ⟨hpos.1, hpos.2, ?_⟩
      rw [hsz, hz1] at hgt ⊢
      omega

/-- Every `setPosition` that returns has set `m_position` to its argument and left
`m_size` at the larger of the old size and the new position; its argument was within the
capacity. -/
theorem setPosition_frame (s s' : ByteArray) (v : Nat) (h : s.setPosition v = .ok s') :
    v ≤ s.m_capacity ∧ s'.m_position = v ∧ s'.m_size = max s.m_size v ∧
    s'.m_capacity = s.m_capacity := by
  unfold setPosition at h
  split at h
  · cases h
  · rename_i hv
    obtain ⟨cur, _, h⟩ := bind_eq_ok h
    cases h
    refine ⟨by omega, ?_, ?_, ?_⟩
    · show (if v > s.m_size then _ else _ : ByteArray).m_position = v
      split <;> rfl
    · show (if v > s.m_size then _ else _ : ByteArray).m_size = _
      split
      · show v = _; omega
      · show s.m_size = _; omega
    · show (if v > s.m_size then _ else _ : ByteArray).m_capacity = _
      split <;> rfl

/-! ### Size along sequences of `setPosition` and `write` calls -/

/-- After a `setPosition` or `write` call that returns, `m_size` is the larger of the old
size and the new position. -/
theorem seekOrWrite_size (s s' : ByteArray) (c : Call) (hc : c.isSeekOrWrite = true)
    (h : c.apply s = .ok s') : s'.m_size = max s.m_size s'.m_position := by
  cases c with
  | setPosition v =>
    obtain ⟨_, hp, hs, _⟩ := setPosition_frame s s' v h
    rw [hs, hp]
  | write buf => exact (write_frame s s' buf h).2.2
  | read _ => cases hc
  | readAt _ _ => cases hc
  | toString => cases hc
  | toHexString => cases hc
  | addCapacity _ => cases hc
  | clear => cases hc

theorem reached_size_runningMax : ∀ (calls : List Call) (s : ByteArray),
    (∀ c ∈ calls, c.isSeekOrWrite = true) → s.m_position ≤ s.m_size →
    (reached s calls).map (fun t => t.m_size) =
      runningMax s.m_size ((reached s calls).map (fun t => t.m_position)) ∧
    List.Chain (fun a b => a ≤ b) s.m_size ((reached s calls).map (fun t => t.m_size)) := by
  intro calls
  induction calls with
  | nil => intro s _ _; exact ⟨rfl, List.Chain.nil⟩
  | cons c cs ih =>
    intro s hall h0
    have hc : c.isSeekOrWrite = true := hall c (List.mem_cons_self _ _)
    have hcs : ∀ c' ∈ cs, c'.isSeekOrWrite = true :=
      fun c' hc' => hall c' (List.mem_cons_of_mem _ hc')
    cases hca : c.apply s with
    | ok s1 =>
      have hsz := seekOrWrite_size s s1 c hc hca
      obtain ⟨ih1, ih2⟩ := ih s1 hcs (by omega)
      simp only [reached, hca, List.map_cons, runningMax]
      refine ⟨?_, List.Chain.cons (by omega) ih2⟩
      rw [ih1, ← hsz]
    | error e =>
      cases e with
      | outOfRange =>
        obtain ⟨ih1, ih2⟩ := ih s hcs h0
        simp only [reached, hca, List.map_cons, runningMax]
        have hmax : max s.m_size s.m_position = s.m_size := by omega
        refine ⟨?_, List.Chain.cons (le_refl _) ih2⟩
        rw [hmax, ← ih1]
      | lengthError =>
        obtain ⟨ih1, ih2⟩ := ih s hcs h0
        simp only [reached, hca, List.map_cons, runningMax]
        have hmax : max s.m_size s.m_position = s.m_size := by omega
        refine ⟨?_, List.Chain.cons (le_refl _) ih2⟩
        rw [hmax, ← ih1]
      | nullDeref => simp only [reached, hca]; exact ⟨rfl, List.Chain.nil⟩
      | danglingDeref => simp only [reached, hca]; exact ⟨rfl, List.Chain.nil⟩
      | overrun => simp only [reached, hca]; exact ⟨rfl, List.Chain.nil⟩
      | divByZero => simp only [reached, hca]; exact ⟨rfl, List.Chain.nil⟩
      | outOfFuel => simp only [reached, hca]; exact ⟨rfl, List.Chain.nil⟩

/-! ### Byte order of the fixed-width writers -/

theorem leBytes_length : ∀ (n v : Nat), (leBytes n v).length = n := by
  intro n
  induction n with
  | zero => intro v; rfl
  | succ n ih => intro v; simp [leBytes, ih]

theorem leBytes_lt : ∀ (n v b : Nat), b ∈ leBytes n v → b < 256 := by
  intro n
  induction n with
  | zero => intro v b h; simp [leBytes] at h
  | succ n ih =>
    intro v b h
    simp only [leBytes, List.mem_cons] at h
    rcases h with h | h
    · omega
    · exact ih _ _ h

theorem leBytes_ofLeBytes : ∀ (bs : List Nat), (∀ b ∈ bs, b < 256) →
    leBytes bs.length (ofLeBytes bs) = bs := by
  intro bs
  induction bs with
  | nil => intro _; rfl
  | cons b bs ih =>
    intro h
    have hb : b < 256 := h b (List.mem_cons_self _ _)
    have hbs : ∀ x ∈ bs, x < 256 := fun x hx => h x (List.mem_cons_of_mem _ hx)
    simp only [List.length_cons, leBytes, ofLeBytes]
    have h1 : (b + 256 * ofLeBytes bs) % 256 = b := by omega
    have h2 : (b + 256 * ofLeBytes bs) / 256 = ofLeBytes bs := by omega
    rw [h1, h2, ih hbs]

/-- The bytes of a swapped value are the bytes of the value in reverse order. -/
theorem leBytes_byteswap (n v : Nat) : leBytes n (byteswap n v) = (leBytes n v).reverse := by
  unfold byteswap
  have hlen : ((leBytes n v).reverse).length = n := by
    rw [List.length_reverse, leBytes_length]
  have h := leBytes_ofLeBytes (leBytes n v).reverse
    (fun b hb => leBytes_lt n v b (List.mem_reverse.mp hb))
  rw [hlen] at h
  exact h

/-- Whatever the byte order of the platform, a fixed-width writer hands `write` the bytes
of the value most significant first when the buffer is big-endian and least significant
first when it is little-endian. -/
theorem writeFixed_bytes (s : ByteArray) (native : Endian) (n value : Nat) :
    s.writeFixed native n value =
      s.write (if s.m_endian = Endian.big then (leBytes n value).reverse
               else leBytes n value) := by
  unfold writeFixed objectBytes
  cases native <;> cases he : s.m_endian <;>
    simp [leBytes_byteswap, List.reverse_reverse]

/-! ### Writes on the freshly constructed buffer -/

/-- On the freshly constructed buffer every non-empty `write` that fits into the first
chunk faults: the chunk records capacity 0, so the loop copies nothing, steps to
`m_cur->next`, which is null, and dereferences it. -/
theorem ctor_write_faults (base : Nat) (buf : List Nat) (hb : 0 < base) (hb64 : base < 2 ^ 64)
    (hne : buf ≠ []) (hlen : buf.length ≤ base) :
    (ByteArray.ctor base).write buf = .error Fault.nullDeref := by
  have hl : 0 < buf.length := List.length_pos.mpr hne
  have hcap : (ByteArray.ctor base).getCapacity = base := by
    show subU 64 base 0 = base
    unfold subU negU
    simp only [Nat.reducePow] at hb64 ⊢
    omega
  have hadd : (ByteArray.ctor base).addCapacity buf.length = .ok (ByteArray.ctor base) := by
    simp only [addCapacity, hcap]
    rw [if_neg (by omega), if_pos hlen]
  have hsub : subU 64 (Node.ctor base).size 0 = 0 := rfl
  have hderef : (ByteArray.ctor base).deref (NodePtr.node 0) = .ok (Node.ctor base) := rfl
  have hloop : writeLoop buf (1 + 1) (ByteArray.ctor base) 0 0 0 buf.length =
      .error Fault.nullDeref := by
    have hl0 : ¬ buf.length = 0 := by omega
    simp [writeLoop, hl, hl0, memcpyTo, ByteArray.ctor, Node.ctor, ByteArray.next, tailNext,
      deref, bind, Except.bind]
  have hbase : (ByteArray.ctor base).m_baseSize = base := rfl
  have hpos : (ByteArray.ctor base).m_position = 0 := rfl
  have hcur : (ByteArray.ctor base).m_cur = NodePtr.node 0 := rfl
  have hnodes : (ByteArray.ctor base).nodes.length = 1 := rfl
  simp only [write, hadd, bind, Except.bind, hbase, hpos, hcur, hnodes, hderef, hsub,
    Nat.zero_mod, hloop]
  rw [if_neg (by omega)]

/-! ### When the positional read throws -/

theorem bind_ne_outOfRange {α β : Type} (x : Except Fault α) (f : α → Except Fault β)
    (hx : x ≠ .error Fault.outOfRange) (hf : ∀ a, x = .ok a → f a ≠ .error Fault.outOfRange) :
    (x >>= f) ≠ .error Fault.outOfRange := by
  cases x with
  | error e => simpa [bind, Except.bind] using hx
  | ok a => exact hf a rfl

theorem deref_ne_outOfRange (s : ByteArray) (p : NodePtr) :
    s.deref p ≠ .error Fault.outOfRange := by
  unfold deref
  repeat' split
  all_goals simp

theorem next_ne_outOfRange (s : ByteArray) (p : NodePtr) :
    s.next p ≠ .error Fault.outOfRange := by
  unfold ByteArray.next
  repeat' split
  all_goals simp

theorem memcpyFrom_ne_outOfRange (s : ByteArray) (p : NodePtr) (npos len : Nat) :
    s.memcpyFrom p npos len ≠ .error Fault.outOfRange := by
  unfold memcpyFrom
  apply bind_ne_outOfRange _ _ (deref_ne_outOfRange s p)
  intro n _
  split <;> simp [pure, Except.pure]

theorem advance_ne_outOfRange (s : ByteArray) : ∀ (k : Nat) (cur : NodePtr),
    s.advance k cur ≠ .error Fault.outOfRange := by
  intro k
  induction k with
  | zero => intro cur; simp [advance, pure, Except.pure]
  | succ k ih =>
    intro cur
    unfold advance
    apply bind_ne_outOfRange _ _ (next_ne_outOfRange _ _)
    intro nx _
    exact ih nx

theorem readAtLoop_ne_outOfRange : ∀ (fuel : Nat) (s : ByteArray) (cur : NodePtr)
    (npos ncap size : Nat) (out : List Nat),
    readAtLoop fuel s cur npos ncap size out ≠ .error Fault.outOfRange := by
  intro fuel
  induction fuel with
  | zero => intro s _ _ _ _ _; simp [readAtLoop]
  | succ fuel ih =>
    intro s cur npos ncap size out
    unfold readAtLoop
    split
    · split
      · apply bind_ne_outOfRange _ _ (memcpyFrom_ne_outOfRange _ _ _ _)
        intro bytes _
        simp [pure, Except.pure]
      · apply bind_ne_outOfRange _ _ (memcpyFrom_ne_outOfRange _ _ _ _)
        intro bytes _
        apply bind_ne_outOfRange _ _ (next_ne_outOfRange _ _)
        intro nx _
        apply bind_ne_outOfRange _ _ (deref_ne_outOfRange _ _)
        intro n _
        exact ih _ _ _ _ _ _
    · simp [pure, Except.pure]

/-- The positional read throws `std::out_of_range` exactly when `size > m_size − position`
in 64-bit unsigned arithmetic. -/
theorem readAt_throws_iff (s : ByteArray) (size position : Nat) :
    s.readAt size position = .error Fault.outOfRange ↔ size > subU 64 s.m_size position := by
  unfold readAt
  constructor
  · intro h
    by_contra hn
    rw [if_neg hn] at h
    revert h
    split
    · simp
    · apply bind_ne_outOfRange _ _ (advance_ne_outOfRange _ _ _)
      intro cur _
      apply bind_ne_outOfRange _ _ (deref_ne_outOfRange _ _)
      intro n _
      exact readAtLoop_ne_outOfRange _ _ _ _ _ _ _
  · intro h
    rw [if_pos h]

/-- For an offset beyond `size` the bound of the positional read has wrapped around: the
call does not throw for any length up to `2^64 − (position − size)`. -/
theorem readAt_offset_beyond_size (s : ByteArray) (size position : Nat)
    (hgt : s.m_size < position)
    (hlen : size ≤ 2 ^ 64 - (position - s.m_size)) :
    s.readAt size position ≠ .error Fault.outOfRange := by
  rw [Ne, readAt_throws_iff]
  unfold subU negU
  simp only [Nat.reducePow] at hlen ⊢
  omega

/-- For an offset within `size` the positional read throws exactly when
`position + size > m_size`. -/
theorem readAt_offset_within_size (s : ByteArray) (size position : Nat)
    (hle : position ≤ s.m_size) (hs : s.m_size < 2 ^ 64) :
    s.readAt size position = .error Fault.outOfRange ↔ position + size > s.m_size := by
  rw [readAt_throws_iff]
  unfold subU negU
  simp only [Nat.reducePow] at hs ⊢
  omega

/-! ### Spans over chunks that record their capacity -/

theorem spanLoop_zero (fuel : Nat) (s : ByteArray) (cur : NodePtr) (npos ncap : Nat)
    (acc : List Span) : spanLoop (fuel + 1) s cur npos ncap 0 acc = .ok acc := by
  simp [spanLoop, pure, Except.pure]

/-- In a chain of chunks of `base` bytes each, the bytes from the logical offset
`i * base + r` on are the rest of chunk `i` followed by the chunks after it. -/
theorem flatten_drop_chunk (base : Nat) : ∀ (nodes : List Node) (i r : Nat),
    (∀ n ∈ nodes, n.ptr.length = base) → (hi : i < nodes.length) → r ≤ base →
    ((nodes.map (fun n => n.ptr)).flatten).drop (i * base + r) =
      (nodes[i].ptr).drop r ++ ((nodes.map (fun n => n.ptr)).flatten).drop ((i + 1) * base) := by
  intro nodes
  induction nodes with
  | nil => intro i r _ hi; simp at hi
  | cons n ns ih =>
    intro i r hall hi hr
    have hn : n.ptr.length = base := hall n (List.mem_cons_self _ _)
    have hns : ∀ m ∈ ns, m.ptr.length = base := fun m hm => hall m (List.mem_cons_of_mem _ hm)
    simp only [List.map_cons, List.flatten_cons]
    cases i with
    | zero =>
      simp only [Nat.zero_mul, Nat.zero_add, Nat.one_mul, List.getElem_cons_zero]
      rw [List.drop_append_of_le_length (by omega)]
      congr 1
      rw [← hn, List.drop_left]
    | succ j =>
      have hj : j < ns.length := by simpa using hi
      have e1 : (j + 1) * base + r = n.ptr.length + (j * base + r) := by
        rw [hn, Nat.add_mul, Nat.one_mul]; omega
      have e2 : (j + 1 + 1) * base = n.ptr.length + (j + 1) * base := by
        rw [hn, Nat.add_mul (j + 1) 1 base, Nat.one_mul]; omega
      rw [e1, e2, List.drop_append, List.drop_append]
      simp only [List.getElem_cons_succ]
      exact ih j r hns hj hr

/-- The span walk over chunks that record their capacity: started at chunk `i`, in-chunk
offset `npos`, with `len > 0` bytes that lie within the chain, it returns spans whose
lengths sum to `len`, each non-empty and inside one chunk, which in order cover the logical
offsets `[i * base + npos, i * base + npos + len)` and describe the bytes stored there. -/
theorem spanLoop_wf (s : ByteArray) (base : Nat) (hb : 0 < base)
    (hb64 : base * s.nodes.length < 2 ^ 64)
    (hn : ∀ n ∈ s.nodes, n.size = base ∧ n.ptr.length = base) :
    ∀ (fuel i npos len : Nat) (acc : List Span), i < s.nodes.length → npos < base → 0 < len →
      i * base + npos + len ≤ base * s.nodes.length → s.nodes.length - i < fuel →
      ∃ spans, spanLoop fuel s (NodePtr.node i) npos (base - npos) len acc = .ok (acc ++ spans) ∧
        (spans.map (fun sp => sp.len)).sum = len ∧
        (∀ sp ∈ spans, sp.chunk < s.nodes.length ∧ sp.offset + sp.len ≤ base ∧ 0 < sp.len) ∧
        (spans.map (spanOffsets base)).flatten = List.range' (i * base + npos) len ∧
        (spans.map (spanBytes s)).flatten = (s.content.drop (i * base + npos)).take len := by
  intro fuel
  induction fuel with
  | zero => intro i npos len acc _ _ _ _ hf; omega
  | succ fuel ih =>
    intro i npos len acc hi hnp hlen hfit hf
    have hget : s.nodes[i]? = some s.nodes[i] := List.getElem?_eq_getElem hi
    obtain ⟨hsz, hpl⟩ := hn _ (List.getElem_mem hi)
    have hptr : ∀ n ∈ s.nodes, n.ptr.length = base := fun n hm => (hn n hm).2
    have hdrop := flatten_drop_chunk base s.nodes i npos hptr hi (by omega)
    have hdl : (s.nodes[i].ptr.drop npos).length = base - npos := by
      rw [List.length_drop, hpl]
    have hspan : ∀ k, s.spanAt (NodePtr.node i) npos k =
        .ok { chunk := i, offset := npos, len := k } := by
      intro k
      simp [spanAt, hi]
    have hbytes : ∀ k, spanBytes s { chunk := i, offset := npos, len := k } =
        (s.nodes[i].ptr.drop npos).take k := by
      intro k
      simp [spanBytes, hget]
    unfold spanLoop
    rw [if_pos hlen]
    by_cases hc : base - npos > len
    · rw [if_pos hc]
      refine ⟨[{ chunk := i, offset := npos, len := len }], ?_, by simp, ?_, by simp [spanOffsets],
        ?_⟩
      · simp [hspan, bind, Except.bind, pure, Except.pure]
      · intro sp hsp
        simp only [List.mem_singleton] at hsp
        subst hsp
        exact ⟨hi, by show npos + len ≤ base; omega, hlen⟩
      · simp only [List.map_cons, List.map_nil, List.flatten_cons, List.flatten_nil,
          List.append_nil, hbytes]
        unfold content
        rw [hdrop, List.take_append_of_le_length (by rw [hdl]; omega)]
    · rw [if_neg hc]
      have hderef : s.deref (NodePtr.node i) = .ok s.nodes[i] := by
        simp [deref, hget]
      have hlen64 : len < 2 ^ 64 := by
        have : len ≤ base * s.nodes.length := by omega
        omega
      have hsub : subU 64 len (base - npos) = len - (base - npos) := by
        unfold subU negU
        simp only [Nat.reducePow] at hlen64 ⊢
        omega
      have hfull : (s.nodes[i].ptr.drop npos).take (base - npos) = s.nodes[i].ptr.drop npos := by
        rw [List.take_of_length_le (by rw [hdl])]
      simp only [hspan, hderef, bind, Except.bind, hsz, hsub]
      by_cases heq : len = base - npos
      · -- the chunk is used up exactly: the loop ends
        have hf1 : ∃ f, fuel = f + 1 := ⟨fuel - 1, by omega⟩
        obtain ⟨f, hfe⟩ := hf1
        refine ⟨[{ chunk := i, offset := npos, len := base - npos }], ?_, by simp [heq], ?_,
          by simp [spanOffsets, heq], ?_⟩
        · have hz : len - (base - npos) = 0 := by omega
          have hnxok : ∃ nx, s.next (NodePtr.node i) = .ok nx := by
            simp only [ByteArray.next]
            split
            · exact ⟨_, rfl⟩
            · exact ⟨_, rfl⟩
          obtain ⟨nx, hnx⟩ := hnxok
          simp only [hnx, hz, hfe]
          exact spanLoop_zero f s nx 0 base _
        · intro sp hsp
          simp only [List.mem_singleton] at hsp
          subst hsp
          exact ⟨hi, by show npos + (base - npos) ≤ base; omega, by show 0 < base - npos; omega⟩
        · simp only [List.map_cons, List.map_nil, List.flatten_cons, List.flatten_nil,
            List.append_nil, hbytes, hfull]
          unfold content
          rw [hdrop, heq, List.take_append_of_le_length (by rw [hdl]), ← hdl, List.take_length]
      · -- more bytes follow in the next chunk
        have hmul : (i + 1) * base = i * base + base := by rw [Nat.add_mul, Nat.one_mul]
        have hi1 : i + 1 < s.nodes.length := by
          by_contra hcon
          have hle : s.nodes.length ≤ i + 1 := by omega
          have : base * s.nodes.length ≤ base * (i + 1) := Nat.mul_le_mul_left _ hle
          rw [Nat.mul_comm base (i + 1), hmul] at this
          omega
        have hnx : s.next (NodePtr.node i) = .ok (NodePtr.node (i + 1)) := by
          simp [ByteArray.next, hi1]
        obtain ⟨spans, hrun, hsum, hall, hoff, hcont⟩ :=
          ih (i + 1) 0 (len - (base - npos))
            (acc ++ [{ chunk := i, offset := npos, len := base - npos }]) hi1 hb (by omega)
            (by rw [hmul]; omega) (by omega)
        rw [Nat.sub_zero] at hrun
        refine ⟨{ chunk := i, offset := npos, len := base - npos } :: spans, ?_, ?_, ?_, ?_, ?_⟩
        · simp only [hnx]
          rw [hrun, List.append_assoc]
          rfl
        · simp only [List.map_cons, List.sum_cons, hsum]
          omega
        · intro sp hsp
          simp only [List.mem_cons] at hsp
          rcases hsp with hsp | hsp
          · subst hsp
            exact ⟨hi, by show npos + (base - npos) ≤ base; omega,
              by show 0 < base - npos; omega⟩
          · exact hall sp hsp
        · simp only [List.map_cons, List.flatten_cons, hoff, Nat.add_zero]
          show List.range' (i * base + npos) (base - npos) ++ _ = _
          have hr := List.range'_append_1 (i * base + npos) (base - npos) (len - (base - npos))
          have e1 : (len - (base - npos)) + (base - npos) = len := by omega
          have e2 : i * base + npos + (base - npos) = (i + 1) * base := by rw [hmul]; omega
          rw [e1, e2] at hr
          exact hr
        · simp only [List.map_cons, List.flatten_cons, hbytes, hfull, hcont, Nat.add_zero]
          unfold content
          rw [hdrop]
          have hl : len = (s.nodes[i].ptr.drop npos).length + (len - (base - npos)) := by
            rw [hdl]; omega
          conv_rhs => rw [hl, List.take_append]

/-- On a buffer that satisfies the data-model invariants, with `position ≤ size` and a
non-empty clamped range, `getReadBuffers(n)` returns `total = min(n, size − position)` and
spans whose lengths sum to `total`, each non-empty and inside one chunk, which in order
cover the offsets `[position, position + total)` and describe the bytes stored there. -/
theorem getReadBuffers_wf (s : ByteArray) (n : Nat) (hwf : s.WF) (hps : s.m_position ≤ s.m_size)
    (hn64 : n < 2 ^ 64) (htot : 0 < min n (s.m_size - s.m_position)) :
    ∃ spans, s.getReadBuffers n = .ok (spans, some (min n (s.m_size - s.m_position))) ∧
      (spans.map (fun sp => sp.len)).sum = min n (s.m_size - s.m_position) ∧
      (∀ sp ∈ spans, sp.chunk < s.nodes.length ∧ sp.offset + sp.len ≤ s.m_baseSize ∧
        0 < sp.len) ∧
      (spans.map (spanOffsets s.m_baseSize)).flatten =
        List.range' s.m_position (min n (s.m_size - s.m_position)) ∧
      (spans.map (spanBytes s)).flatten =
        (s.content.drop s.m_position).take (min n (s.m_size - s.m_position)) := by
  obtain ⟨hb, hn, hcap, hc64, hpc, hsc, htl, hcur⟩ := hwf
  have hrs : s.getReadSize = s.m_size - s.m_position := by
    unfold getReadSize subU negU
    simp only [Nat.reducePow] at hc64 ⊢
    omega
  have hclamp : (if n % 2 ^ 64 > s.getReadSize then s.getReadSize else n % 2 ^ 64) =
      min n (s.m_size - s.m_position) := by
    rw [hrs, Nat.mod_eq_of_lt hn64]
    split <;> omega
  have hlt : s.m_position < s.m_size := by omega
  have hq : s.m_position / s.m_baseSize < s.nodes.length := by
    apply Nat.div_lt_of_lt_mul
    rw [← hcap]; omega
  rw [if_pos hq] at hcur
  have hr : s.m_position % s.m_baseSize < s.m_baseSize := Nat.mod_lt _ hb
  have hget : s.nodes[s.m_position / s.m_baseSize]? =
      some (s.nodes[s.m_position / s.m_baseSize]) := List.getElem?_eq_getElem hq
  obtain ⟨hns, _⟩ := hn _ (List.getElem_mem hq)
  have hbcap : s.m_baseSize ≤ s.m_capacity := by
    rw [hcap]; exact Nat.le_mul_of_pos_right _ (Nat.lt_of_le_of_lt (Nat.zero_le _) hq)
  have hncap : subU 64 s.m_baseSize (s.m_position % s.m_baseSize) =
      s.m_baseSize - s.m_position % s.m_baseSize := by
    unfold subU negU
    simp only [Nat.reducePow] at hc64 ⊢
    omega
  have hoff : s.m_position / s.m_baseSize * s.m_baseSize + s.m_position % s.m_baseSize =
      s.m_position := by
    rw [Nat.mul_comm]; exact Nat.div_add_mod _ _
  obtain ⟨spans, hrun, hsum, hall, hoffs, hcont⟩ :=
    spanLoop_wf s s.m_baseSize hb (by rw [← hcap]; exact hc64) hn (s.nodes.length + 1)
      (s.m_position / s.m_baseSize) (s.m_position % s.m_baseSize)
      (min n (s.m_size - s.m_position)) [] hq hr htot
      (by rw [hoff, ← hcap]; omega) (Nat.lt_succ_of_le (Nat.sub_le _ _))
  rw [hoff] at hoffs hcont
  refine ⟨spans, ?_, hsum, hall, hoffs, hcont⟩
  unfold getReadBuffers
  simp only [hclamp]
  rw [if_neg (by omega), if_neg (by omega)]
  simp only [hcur, deref, hget, bind, Except.bind, hns, hncap, hrun, List.nil_append, pure,
    Except.pure]

/-- On a buffer that satisfies the data-model invariants and has at least `len > 0` spare
bytes beyond its position, `getWriteBuffers(len)` leaves the object as it is, returns `len`
and spans whose lengths sum to `len`, each non-empty and inside one chunk, which in order
cover the offsets `[position, position + len)`. -/
theorem getWriteBuffers_wf (s : ByteArray) (len : Nat) (hwf : s.WF) (hlen : 0 < len)
    (hfit : len ≤ s.m_capacity - s.m_position) :
    ∃ spans, s.getWriteBuffers len = .ok (spans, len, s) ∧
      (spans.map (fun sp => sp.len)).sum = len ∧
      (∀ sp ∈ spans, sp.chunk < s.nodes.length ∧ sp.offset + sp.len ≤ s.m_baseSize ∧
        0 < sp.len) ∧
      (spans.map (spanOffsets s.m_baseSize)).flatten = List.range' s.m_position len := by
  obtain ⟨hb, hn, hcap, hc64, hpc, hsc, htl, hcur⟩ := hwf
  have hgc : s.getCapacity = s.m_capacity - s.m_position := by
    unfold getCapacity subU negU
    simp only [Nat.reducePow] at hc64 ⊢
    omega
  have hadd : s.addCapacity len = .ok s := by
    simp only [addCapacity, hgc]
    rw [if_neg (by omega), if_pos hfit]
  have hlt : s.m_position < s.m_capacity := by omega
  have hq : s.m_position / s.m_baseSize < s.nodes.length := by
    apply Nat.div_lt_of_lt_mul
    rw [← hcap]; omega
  rw [if_pos hq] at hcur
  have hr : s.m_position % s.m_baseSize < s.m_baseSize := Nat.mod_lt _ hb
  have hget : s.nodes[s.m_position / s.m_baseSize]? =
      some (s.nodes[s.m_position / s.m_baseSize]) := List.getElem?_eq_getElem hq
  obtain ⟨hns, _⟩ := hn _ (List.getElem_mem hq)
  have hbcap : s.m_baseSize ≤ s.m_capacity := by
    rw [hcap]; exact Nat.le_mul_of_pos_right _ (Nat.lt_of_le_of_lt (Nat.zero_le _) hq)
  have hncap : subU 64 s.m_baseSize (s.m_position % s.m_baseSize) =
      s.m_baseSize - s.m_position % s.m_baseSize := by
    unfold subU negU
    simp only [Nat.reducePow] at hc64 ⊢
    omega
  have hoff : s.m_position / s.m_baseSize * s.m_baseSize + s.m_position % s.m_baseSize =
      s.m_position := by
    rw [Nat.mul_comm]; exact Nat.div_add_mod _ _
  obtain ⟨spans, hrun, hsum, hall, hoffs, _⟩ :=
    spanLoop_wf s s.m_baseSize hb (by rw [← hcap]; exact hc64) hn (s.nodes.length + 1)
      (s.m_position / s.m_baseSize) (s.m_position % s.m_baseSize) len [] hq hr hlen
      (by rw [hoff, ← hcap]; omega) (Nat.lt_succ_of_le (Nat.sub_le _ _))
  rw [hoff] at hoffs
  refine ⟨spans, ?_, hsum, hall, hoffs⟩
  unfold getWriteBuffers
  rw [if_neg (by omega)]
  simp only [hadd, bind, Except.bind]
  rw [if_neg (by omega)]
  simp only [hcur, deref, hget, hns, hncap, hrun, List.nil_append, pure, Except.pure]

/-! ### Iteration budgets of the span walk and of the codec entry points -/

/-- Following `next` shortens the rest of the chain. -/
theorem next_remaining_lt (s : ByteArray) (p q : NodePtr) (hq : s.next p = .ok q) :
    s.remaining q < s.remaining p := by
  cases p with
  | null => cases hq
  | dangling => cases hq
  | node i =>
    simp only [ByteArray.next] at hq
    split at hq
    · cases hq
      simp only [remaining]; omega
    · split at hq
      · simp only [Except.ok.injEq, tailNext] at hq
        split at hq <;> (subst hq; simp only [remaining]; omega)
      · cases hq

theorem spanAt_ne_outOfFuel (s : ByteArray) (cur : NodePtr) (npos len : Nat) :
    s.spanAt cur npos len ≠ .error Fault.outOfFuel := by
  unfold spanAt
  repeat' split
  all_goals simp

theorem spanLoop_ne_outOfFuel : ∀ (fuel : Nat) (s : ByteArray) (cur : NodePtr)
    (npos ncap len : Nat) (acc : List Span), s.remaining cur < fuel →
    spanLoop fuel s cur npos ncap len acc ≠ .error Fault.outOfFuel := by
  intro fuel
  induction fuel with
  | zero => intro s _ _ _ _ _ h; omega
  | succ fuel ih =>
    intro s cur npos ncap len acc h
    unfold spanLoop
    split
    · split
      · apply bind_ne_outOfFuel _ _ (spanAt_ne_outOfFuel _ _ _ _)
        intro iov _
        simp [pure, Except.pure]
      · apply bind_ne_outOfFuel _ _ (spanAt_ne_outOfFuel _ _ _ _)
        intro iov _
        apply bind_ne_outOfFuel _ _ (deref_ne_outOfFuel _ _)
        intro n _
        apply bind_ne_outOfFuel _ _ (next_ne_outOfFuel _ _)
        intro nx hnx
        apply ih
        have := next_remaining_lt _ _ _ hnx
        omega
    · simp [pure, Except.pure]

theorem getReadBuffers_ne_outOfFuel (s : ByteArray) (len : Nat) :
    s.getReadBuffers len ≠ .error Fault.outOfFuel := by
  unfold getReadBuffers
  generalize (if len % 2 ^ 64 > s.getReadSize then s.getReadSize else len % 2 ^ 64) = l
  simp only []
  split
  · simp
  · split
    · simp
    · apply bind_ne_outOfFuel _ _ (deref_ne_outOfFuel _ _)
      intro n _
      apply bind_ne_outOfFuel
      · exact spanLoop_ne_outOfFuel _ _ _ _ _ _ _ (Nat.lt_succ_of_le (remaining_le _ _))
      · intro b _
        simp [pure, Except.pure]

theorem getReadBuffersAt_ne_outOfFuel (s : ByteArray) (len position : Nat) :
    s.getReadBuffersAt len position ≠ .error Fault.outOfFuel := by
  unfold getReadBuffersAt
  generalize (if len % 2 ^ 64 > s.getReadSize then s.getReadSize else len % 2 ^ 64) = l
  simp only []
  split
  · simp
  · split
    · simp
    · apply bind_ne_outOfFuel _ _ (advance_ne_outOfFuel _ _ _)
      intro cur _
      apply bind_ne_outOfFuel _ _ (deref_ne_outOfFuel _ _)
      intro n _
      apply bind_ne_outOfFuel
      · exact spanLoop_ne_outOfFuel _ _ _ _ _ _ _ (Nat.lt_succ_of_le (remaining_le _ _))
      · intro b _
        simp [pure, Except.pure]

theorem getWriteBuffers_ne_outOfFuel (s : ByteArray) (len : Nat) :
    s.getWriteBuffers len ≠ .error Fault.outOfFuel := by
  unfold getWriteBuffers
  split
  · simp
  · apply bind_ne_outOfFuel _ _ (addCapacity_ne_outOfFuel _ _)
    intro s1 _
    split
    · simp
    · apply bind_ne_outOfFuel _ _ (deref_ne_outOfFuel _ _)
      intro n _
      apply bind_ne_outOfFuel
      · exact spanLoop_ne_outOfFuel _ _ _ _ _ _ _ (Nat.lt_succ_of_le (remaining_le _ _))
      · intro b _
        simp [pure, Except.pure]

theorem readFixed_ne_outOfFuel (s : ByteArray) (native : Endian) (n : Nat) :
    s.readFixed native n ≠ .error Fault.outOfFuel := by
  unfold readFixed
  apply bind_ne_outOfFuel _ _ (read_ne_outOfFuel _ _)
  intro r _
  simp [pure, Except.pure]

/-- The `resize` of a string throws `std::length_error` or returns; it uses up no
iteration budget. -/
theorem stringResize_ne_outOfFuel (n : Nat) : stringResize n ≠ .error Fault.outOfFuel := by
  unfold stringResize
  split <;> simp

/-- The three outcomes of `toString()`: `std::length_error` from the `resize` when
`getReadSize()` exceeds `max_size()`, the empty string when nothing is readable, the
positional read of `getReadSize()` bytes otherwise. -/
theorem toString_eq (s : ByteArray) :
    s.toString =
      if s.getReadSize > stringMaxSize then .error Fault.lengthError
      else if s.getReadSize = 0 then .ok ([], s)
      else s.readAt s.getReadSize s.m_position := by
  unfold ByteArray.toString stringResize
  by_cases h : s.getReadSize > stringMaxSize
  · simp only [h, if_true]
  · simp only [h, if_false]

/-- None of the fixed-width, string, span and diagnostic operations uses up the iteration
budget of a loop. -/
theorem codec_entry_points_ne_outOfFuel (s : ByteArray) (native : Endian) :
    (∀ n v, s.writeFixed native n v ≠ .error Fault.outOfFuel) ∧
    (∀ n, s.readFixed native n ≠ .error Fault.outOfFuel) ∧
    (∀ str, s.writeStringF16 native str ≠ .error Fault.outOfFuel) ∧
    (∀ str, s.writeStringF32 native str ≠ .error Fault.outOfFuel) ∧
    (∀ str, s.writeStringF64 native str ≠ .error Fault.outOfFuel) ∧
    (∀ str, s.writeStringVint str ≠ .error Fault.outOfFuel) ∧
    s.readStringF16 native ≠ .error Fault.outOfFuel ∧
    s.readStringF32 native ≠ .error Fault.outOfFuel ∧
    s.readStringF64 native ≠ .error Fault.outOfFuel ∧
    s.readStringVin ≠ .error Fault.outOfFuel ∧
    (∀ len, s.getReadBuffers len ≠ .error Fault.outOfFuel) ∧
    (∀ len position, s.getReadBuffersAt len position ≠ .error Fault.outOfFuel) ∧
    (∀ len, s.getWriteBuffers len ≠ .error Fault.outOfFuel) ∧
    s.toString ≠ .error Fault.outOfFuel := by
  have hw : ∀ (t : ByteArray) n v, t.writeFixed native n v ≠ .error Fault.outOfFuel :=
    fun t n v => write_ne_outOfFuel t _
  have hws : ∀ (x : Except Fault ByteArray) (str : List Nat), x ≠ .error Fault.outOfFuel →
      (x >>= fun s1 => s1.write str) ≠ .error Fault.outOfFuel :=
    fun x str hx => bind_ne_outOfFuel _ _ hx (fun s1 _ => write_ne_outOfFuel s1 str)
  have hrs : ∀ (x : Except Fault (Nat × ByteArray)), x ≠ .error Fault.outOfFuel →
      (x >>= fun r => (stringResize r.1 >>= fun _ => r.2.read r.1)) ≠
        .error Fault.outOfFuel :=
    fun x hx => bind_ne_outOfFuel _ _ hx (fun r _ =>
      bind_ne_outOfFuel _ _ (stringResize_ne_outOfFuel r.1)
        (fun _ _ => read_ne_outOfFuel r.2 r.1))
  refine ⟨hw s, readFixed_ne_outOfFuel s native, ?_, ?_, ?_, ?_, ?_, ?_, ?_, ?_,
    getReadBuffers_ne_outOfFuel s, getReadBuffersAt_ne_outOfFuel s,
    getWriteBuffers_ne_outOfFuel s, ?_⟩
  · exact fun str => hws _ str (hw s _ _)
  · exact fun str => hws _ str (hw s _ _)
  · exact fun str => hws _ str (hw s _ _)
  · exact fun str => hws _ str ((entry_points_ne_outOfFuel s).2.2.2.2.2.2.2 _)
  · exact hrs _ (readFixed_ne_outOfFuel s native 2)
  · exact hrs _ (readFixed_ne_outOfFuel s native 4)
  · exact hrs _ (readFixed_ne_outOfFuel s native 8)
  · exact hrs _ (entry_points_ne_outOfFuel s).2.2.2.2.2.1
  · rw [toString_eq]
    split
    · simp
    · split
      · simp
      · exact readAt_ne_outOfFuel _ _ _

/-! ### Claims C11–C20 -/

/-- C11 (fails on the code): on the freshly constructed buffer `writeFuint32(0x01020304)`
dereferences a null `m_cur` and stores nothing, on either platform; at position 1 of a
buffer of 2-byte chunks that record their capacity it stores `01 01 02 04`. What the
function hands to `write` is right: on a one-chunk buffer that records its capacity the
bytes stored are `01 02 03 04` by default and `04 03 02 01` when little-endian is set,
whatever the platform's byte order. -/
theorem writeFuint32_not_stored :
    (∀ native : Endian,
      (ByteArray.ctor 4).writeFuint32 native 0x01020304 = .error Fault.nullDeref) ∧
    (∀ native : Endian,
      (ofBlocks 2 [[0, 0], [0, 0], [0, 0]] 0 1).writeFuint32 native 0x01020304 =
        .ok (ofBlocks 2 [[0, 1], [1, 2], [4, 0]] 5 5)) ∧
    (∀ native : Endian,
      (ofBlocks 4 [[0, 0, 0, 0]] 0 0).writeFuint32 native 0x01020304 =
        .ok (ofBlocks 4 [[1, 2, 3, 4]] 4 4)) ∧
    (∀ native : Endian,
      ((ofBlocks 4 [[0, 0, 0, 0]] 0 0).setIsLittleEndian true).writeFuint32 native 0x01020304 =
        .ok ((ofBlocks 4 [[4, 3, 2, 1]] 4 4).setIsLittleEndian true)) := by
  refine ⟨?_, ?_, ?_, ?_⟩ <;> intro native <;> cases native <;> decide

/-- C12 (fails on the code): on the freshly constructed buffer even `writeFuint8` faults;
on a buffer of 2-byte chunks that record their capacity, `writeFuint32(0x01020304)` at
position 1, `setPosition(1)` and `readFuint32()` give `0x01010204`. Within one chunk the
round trip works, e.g. for the int16 `-2` in both byte orders. -/
theorem fixed_width_roundtrip_fails :
    (ByteArray.ctor 4).writeFuint8 0x7f = .error Fault.nullDeref ∧
    (∀ native : Endian,
      (do let s ← (ofBlocks 2 [[0, 0], [0, 0], [0, 0]] 0 1).writeFuint32 native 0x01020304
          let s ← s.setPosition 1
          let r ← s.readFuint32 native
          pure r.1) = .ok 0x01010204) ∧
    (∀ native : Endian,
      (do let s ← (ofBlocks 8 [[0, 0, 0, 0, 0, 0, 0, 0]] 0 0).writeFint16 native (-2)
          let s ← s.setPosition 0
          let r ← s.readFint16 native
          pure r.1) = .ok (-2)) ∧
    (∀ native : Endian,
      (do let s ← ((ofBlocks 8 [[0, 0, 0, 0, 0, 0, 0, 0]] 0 0).setIsLittleEndian
                    true).writeFint16 native (-2)
          let s ← s.setPosition 0
          let r ← s.readFint16 native
          pure r.1) = .ok (-2)) := by
  refine ⟨by decide, ?_, ?_, ?_⟩ <;> intro native <;> cases native <;> decide

/-- C13 (fails on the code): on the freshly constructed buffer `writeStringF16("")` faults;
`writeStringVint` of a 128-byte string never reaches its `write`, on any buffer; on a buffer
of 2-byte chunks that record their capacity `"hello"` written with a 16-bit prefix reads
back as `"heheo"`. Within one chunk `"hello"` and the empty string do round-trip, with the
position advanced by `2 + |s|`. -/
theorem string_roundtrip_fails :
    (∀ native : Endian, (ByteArray.ctor 4).writeStringF16 native [] = .error Fault.nullDeref) ∧
    (∀ s : ByteArray, s.writeStringVint (List.replicate 128 0x61) = .error Fault.overrun) ∧
    (∀ native : Endian,
      (do let s ← (ofBlocks 2 [[0, 0], [0, 0], [0, 0], [0, 0]] 0 0).writeStringF16 native
                    [0x68, 0x65, 0x6c, 0x6c, 0x6f]
          let s ← s.setPosition 0
          let r ← s.readStringF16 native
          pure (r.1, r.2.m_position)) = .ok ([0x68, 0x65, 0x68, 0x65, 0x6f], 7)) ∧
    (∀ native : Endian,
      (do let s ← (ofBlocks 8 [[0, 0, 0, 0, 0, 0, 0, 0]] 0 0).writeStringF16 native
                    [0x68, 0x65, 0x6c, 0x6c, 0x6f]
          let s ← s.setPosition 0
          let r ← s.readStringF16 native
          pure (r.1, r.2.m_position)) = .ok ([0x68, 0x65, 0x6c, 0x6c, 0x6f], 7)) ∧
    (∀ native : Endian,
      (do let s ← (ofBlocks 8 [[0, 0, 0, 0, 0, 0, 0, 0]] 0 0).writeStringF16 native []
          let s ← s.setPosition 0
          let r ← s.readStringF16 native
          pure (r.1, r.2.m_position)) = .ok ([], 2)) := by
  have hvint : ∀ s : ByteArray,
      s.writeStringVint (List.replicate 128 0x61) = .error Fault.overrun := by
    intro s
    unfold writeStringVint
    rw [List.length_replicate]
    rfl
  refine ⟨?_, hvint, ?_, ?_, ?_⟩ <;> intro native <;> cases native <;> decide

/-- C14 (fails on the code): on the freshly constructed default buffer of chunk size 4096,
`writeStringF16` faults for every string, `"hello"` included: the write of the length
prefix dereferences a null `m_cur`, nothing is stored and `size` stays 0. On a one-chunk
buffer that records its capacity the call stores `00 05 68 65 6c 6c 6f` and leaves
`size = 7`. -/
theorem writeStringF16_hello_faults :
    (ByteArray.ctor 4096).m_endian = Endian.big ∧
    (∀ (native : Endian) (str : List Nat),
      (ByteArray.ctor 4096).writeStringF16 native str = .error Fault.nullDeref) ∧
    (∀ native : Endian,
      (ofBlocks 8 [[0, 0, 0, 0, 0, 0, 0, 0]] 0 0).writeStringF16 native
          [0x68, 0x65, 0x6c, 0x6c, 0x6f] =
        .ok (ofBlocks 8 [[0x00, 0x05, 0x68, 0x65, 0x6c, 0x6c, 0x6f, 0]] 7 7)) := by
  refine ⟨rfl, ?_, ?_⟩
  · intro native str
    have hlen : ((leBytes 2 (str.length % 2 ^ 16)).reverse).length = 2 := by
      rw [List.length_reverse, leBytes_length]
    have hne : (leBytes 2 (str.length % 2 ^ 16)).reverse ≠ [] := by
      intro h
      rw [h] at hlen
      cases hlen
    have hw := ctor_write_faults 4096 _ (by decide) (by decide) hne (by rw [hlen]; decide)
    unfold writeStringF16 writeFuint16
    rw [writeFixed_bytes]
    have hbig : (ByteArray.ctor 4096).m_endian = Endian.big := rfl
    rw [if_pos hbig, hw]
    rfl
  · intro native
    cases native <;> decide

/-- C15 (fails on the code): when the clamped length is 0 `getReadBuffers` returns without a
value (`return;`), on the freshly constructed buffer for every `n` and on a buffer with
readable bytes for `n = 0`. With readable bytes and `n > 0` the spans are right: three chunks
of 4096 bytes holding 10000 bytes give spans of 4096, 4096 and 1808 bytes and the total
10000. -/
theorem getReadBuffers_no_value :
    (∀ n : Nat, (ByteArray.ctor 4).getReadBuffers n = .ok ([], none)) ∧
    (ofBlocks 4 [[1, 2, 3, 4]] 4 0).getReadBuffers 0 = .ok ([], none) ∧
    (ofBlocks 4096 (List.replicate 3 (List.replicate 4096 0)) 10000 0).getReadBuffers 10000 =
      .ok ([{ chunk := 0, offset := 0, len := 4096 }, { chunk := 1, offset := 0, len := 4096 },
            { chunk := 2, offset := 0, len := 1808 }], some 10000) := by
  refine ⟨?_, by decide, by decide⟩
  intro n
  have h0 : (ByteArray.ctor 4).getReadSize = 0 := by decide
  unfold getReadBuffers
  rw [h0]
  have hlen : (if n % 2 ^ 64 > 0 then 0 else n % 2 ^ 64) = 0 := by
    split <;> omega
  simp only [hlen, if_true]

/-- C16 (fails on the code): on the freshly constructed buffer `getWriteBuffers(1)` pushes a
span of length 0 and then dereferences a null chunk pointer; for `len = 5` on a one-chunk
buffer of chunk size 4 that records its capacity `addCapacity` appends nothing and the walk
runs off the chain. For `len = 8` one chunk is appended and the spans cover `[0, 8)`. -/
theorem getWriteBuffers_faults :
    (ByteArray.ctor 4).getWriteBuffers 1 = .error Fault.nullDeref ∧
    (ofBlocks 4 [[0, 0, 0, 0]] 0 0).getWriteBuffers 5 = .error Fault.nullDeref ∧
    ((ofBlocks 4 [[0, 0, 0, 0]] 0 0).getWriteBuffers 8).map (fun r => (r.1, r.2.1)) =
      .ok ([{ chunk := 0, offset := 0, len := 4 }, { chunk := 1, offset := 0, len := 4 }], 8) := by
  decide

/-- C17: along every sequence of `setPosition` and `write` calls started in a state with
`position ≤ size` (such as the freshly constructed buffer), the size after each call is the
running maximum of the starting size and the positions reached so far, and the sizes never
decrease. -/
theorem size_is_max_position_reached (s : ByteArray) (calls : List Call)
    (hcalls : ∀ c ∈ calls, c.isSeekOrWrite = true) (h0 : s.m_position ≤ s.m_size) :
    (reached s calls).map (fun t => t.m_size) =
      runningMax s.m_size ((reached s calls).map (fun t => t.m_position)) ∧
    List.Chain (fun a b => a ≤ b) s.m_size ((reached s calls).map (fun t => t.m_size)) :=
  reached_size_runningMax calls s hcalls h0

/-- C17 on a two-chunk buffer: write 3 bytes, seek to 1, write 1 byte, seek to 9 (thrown
`out_of_range`), seek to 6, seek to 2: the positions are 3, 1, 2, 2, 6, 2 and the sizes
3, 3, 3, 3, 6, 6. -/
theorem size_is_max_position_reached_witness :
    (reached (ofBlocks 4 [[0, 0, 0, 0], [0, 0, 0, 0]] 0 0)
        [Call.write [1, 2, 3], Call.setPosition 1, Call.write [9], Call.setPosition 9,
         Call.setPosition 6, Call.setPosition 2]).map (fun t => (t.m_position, t.m_size)) =
      [(3, 3), (1, 3), (2, 3), (2, 3), (6, 6), (2, 6)] ∧
    ((reached (ofBlocks 4 [[0, 0, 0, 0], [0, 0, 0, 0]] 0 0)
        [Call.write [1, 2, 3], Call.setPosition 1, Call.write [9], Call.setPosition 9,
         Call.setPosition 6, Call.setPosition 2]).map (fun t => t.m_size) =
      runningMax (ofBlocks 4 [[0, 0, 0, 0], [0, 0, 0, 0]] 0 0).m_size
        ((reached (ofBlocks 4 [[0, 0, 0, 0], [0, 0, 0, 0]] 0 0)
          [Call.write [1, 2, 3], Call.setPosition 1, Call.write [9], Call.setPosition 9,
           Call.setPosition 6, Call.setPosition 2]).map (fun t => t.m_position)) ∧
     List.Chain (fun a b => a ≤ b) (ofBlocks 4 [[0, 0, 0, 0], [0, 0, 0, 0]] 0 0).m_size
      ((reached (ofBlocks 4 [[0, 0, 0, 0], [0, 0, 0, 0]] 0 0)
        [Call.write [1, 2, 3], Call.setPosition 1, Call.write [9], Call.setPosition 9,
         Call.setPosition 6, Call.setPosition 2]).map (fun t => t.m_size))) :=
  ⟨by decide,
   size_is_max_position_reached (ofBlocks 4 [[0, 0, 0, 0], [0, 0, 0, 0]] 0 0)
    [Call.write [1, 2, 3], Call.setPosition 1, Call.write [9], Call.setPosition 9,
     Call.setPosition 6, Call.setPosition 2] (by decide) (by decide)⟩

/-- C18 (fails on the code): five positional reads of one byte at offset 1 on the freshly
constructed buffer of capacity 4 all return and leave `position` at 1, 2, 3, 4, 5: the last
state has `position > capacity`. Two positional reads of 4 bytes at offset 0 on a full
one-chunk buffer leave `position = 8` with `capacity = 4`. -/
theorem position_exceeds_capacity :
    (reached (ByteArray.ctor 4) (List.replicate 5 (Call.readAt 1 1))).map
        (fun t => (t.m_position, t.m_capacity, t.m_size)) =
      [(1, 4, 0), (2, 4, 0), (3, 4, 0), (4, 4, 0), (5, 4, 0)] ∧
    (reached (ofBlocks 4 [[1, 2, 3, 4]] 4 0) [Call.readAt 4 0, Call.readAt 4 0]).map
        (fun t => (t.m_position, t.m_capacity, t.m_size)) =
      [(4, 4, 4), (8, 4, 4)] := by
  decide

/-- C19 (fails on the code): `write` does not return for every state and input. On the
freshly constructed buffer a one-byte write faults; on a one-chunk buffer that records its
capacity a write of 5 bytes (no chunk is appended) and a write of 8 bytes (the appended
chunk records capacity 0) both run off the chain. A write that fits, here 4 bytes, advances
the position by 4 and sets `size = 4`. -/
theorem write_does_not_always_return :
    (ByteArray.ctor 4).write [1] = .error Fault.nullDeref ∧
    (ofBlocks 4 [[0, 0, 0, 0]] 0 0).write [1, 2, 3, 4, 5] = .error Fault.nullDeref ∧
    (ofBlocks 4 [[0, 0, 0, 0]] 0 0).write [1, 2, 3, 4, 5, 6, 7, 8] = .error Fault.nullDeref ∧
    (ofBlocks 4 [[0, 0, 0, 0]] 0 0).write [1, 2, 3, 4] = .ok (ofBlocks 4 [[1, 2, 3, 4]] 4 4) := by
  decide

/-- C20 (fails on the code): the bound `size > m_size − position` wraps around when the
offset is beyond `size`: on the freshly constructed buffer (`size = 0`) `read(buf, 1, 1)`
returns, and on a buffer with `size = 2` a read of 1 byte at offset 3 returns the byte
stored there. With `offset + len = size = capacity` the read of 0 bytes at offset 4
dereferences a null chunk pointer instead of succeeding. An offset within `size` with
`offset + len > size` does throw. -/
theorem readAt_bound_wraps :
    ((ByteArray.ctor 4).readAt 1 1).map Prod.fst = .ok [0] ∧
    ((ofBlocks 4 [[1, 2, 3, 4]] 2 0).readAt 1 3).map Prod.fst = .ok [4] ∧
    (ofBlocks 4 [[1, 2, 3, 4]] 4 0).readAt 0 4 = .error Fault.nullDeref ∧
    (ofBlocks 4 [[1, 2, 3, 4]] 2 0).readAt 2 1 = .error Fault.outOfRange := by
  decide

/-! ### When the cursor-relative read throws, and what it leaves alone -/

theorem readLoop_ne_outOfRange : ∀ (fuel : Nat) (s : ByteArray) (npos ncap size : Nat)
    (out : List Nat), readLoop fuel s npos ncap size out ≠ .error Fault.outOfRange := by
  intro fuel
  induction fuel with
  | zero => intro s _ _ _ _; simp [readLoop]
  | succ fuel ih =>
    intro s npos ncap size out
    unfold readLoop
    split
    · split
      · apply bind_ne_outOfRange _ _ (memcpyFrom_ne_outOfRange _ _ _ _)
        intro bytes _
        apply bind_ne_outOfRange _ _ (deref_ne_outOfRange _ _)
        intro cur _
        apply bind_ne_outOfRange
        · split
          · apply bind_ne_outOfRange _ _ (next_ne_outOfRange _ _)
            intro nx _
            simp [pure, Except.pure]
          · simp [pure, Except.pure]
        · intro s1 _
          simp [pure, Except.pure]
      · apply bind_ne_outOfRange _ _ (memcpyFrom_ne_outOfRange _ _ _ _)
        intro bytes _
        apply bind_ne_outOfRange _ _ (next_ne_outOfRange _ _)
        intro nx _
        apply bind_ne_outOfRange _ _ (deref_ne_outOfRange _ _)
        intro n _
        exact ih _ _ _ _ _
    · simp [pure, Except.pure]

/-- The cursor-relative read throws `std::out_of_range` exactly in its guard (line 164):
when `size > getReadSize()`. -/
theorem read_throws_iff (s : ByteArray) (size : Nat) :
    s.read size = .error Fault.outOfRange ↔ size > s.getReadSize := by
  unfold ByteArray.read
  constructor
  · intro h
    by_contra hn
    rw [if_neg hn] at h
    revert h
    split
    · simp
    · apply bind_ne_outOfRange _ _ (deref_ne_outOfRange _ _)
      intro n _
      exact readLoop_ne_outOfRange _ _ _ _ _ _
  · intro h
    rw [if_pos h]

/-- With `position ≤ size` the readable extent is the plain difference. -/
theorem getReadSize_eq (s : ByteArray) (hps : s.m_position ≤ s.m_size) (hsz : s.m_size < 2 ^ 64) :
    s.getReadSize = s.m_size - s.m_position := by
  unfold getReadSize subU negU
  simp only [Nat.reducePow] at hsz ⊢
  omega

/-- What the loop of the cursor-relative read does to the object, in every state: only
`m_position` and `m_cur` change, and `m_position` is advanced by the number of bytes read
(modulo `2^64`). -/
theorem readLoop_frame : ∀ (fuel : Nat) (s : ByteArray) (npos ncap size : Nat)
    (out r : List Nat) (s' : ByteArray),
    readLoop fuel s npos ncap size out = .ok (r, s') →
    (size = 0 → s' = s) ∧
    (0 < size → s'.m_position = (s.m_position + size) % 2 ^ 64) ∧
    s' = { s with m_position := s'.m_position, m_cur := s'.m_cur } := by
  intro fuel
  induction fuel with
  | zero => intro s npos ncap size out r s' h; cases h
  | succ fuel ih =>
    intro s npos ncap size out r s' h
    unfold readLoop at h
    by_cases hs : size > 0
    · rw [if_pos hs] at h
      by_cases hc : ncap ≥ size
      · rw [if_pos hc] at h
        obtain ⟨bytes, _, h⟩ := bind_eq_ok h
        obtain ⟨cur, _, h⟩ := bind_eq_ok h
        obtain ⟨s1, hs1, h⟩ := bind_eq_ok h
        cases h
        split at hs1
        · obtain ⟨nx, _, hs1⟩ := bind_eq_ok hs1
          cases hs1
          exact ⟨fun h0 => by omega, fun _ => rfl, rfl⟩
        · cases hs1
          exact ⟨fun h0 => by omega, fun _ => rfl, rfl⟩
      · rw [if_neg hc] at h
        obtain ⟨bytes, _, h⟩ := bind_eq_ok h
        obtain ⟨nx, _, h⟩ := bind_eq_ok h
        obtain ⟨n, _, h⟩ := bind_eq_ok h
        obtain ⟨h0, hp, hrest⟩ := ih _ _ _ _ _ _ _ h
        refine ⟨fun h0 => by omega, fun _ => ?_, ?_⟩
        · have hsub : subU 64 size ncap =
              (size % 2 ^ 64 + (2 ^ 64 - ncap % 2 ^ 64) % 2 ^ 64) % 2 ^ 64 := rfl
          rcases Nat.eq_zero_or_pos (subU 64 size ncap) with hz | hz
          · rw [h0 hz]
            show addU 64 s.m_position ncap = _
            unfold addU
            rw [hsub] at hz
            simp only [Nat.reducePow] at hz ⊢
            omega
          · rw [hp hz]
            show (addU 64 s.m_position ncap + subU 64 size ncap) % 2 ^ 64 = _
            unfold addU
            rw [hsub]
            simp only [Nat.reducePow]
            omega
        · rw [hrest]
    · rw [if_neg hs] at h
      cases h
      exact ⟨fun _ => rfl, fun h0 => absurd h0 hs, rfl⟩

/-- Every cursor-relative read that returns has advanced `m_position` by the number of bytes
asked for (modulo `2^64`) and changed nothing else but `m_cur`; the request was within
`getReadSize()`. -/
theorem read_frame (s : ByteArray) (size : Nat) (r : List Nat) (s' : ByteArray)
    (h : s.read size = .ok (r, s')) :
    size ≤ s.getReadSize ∧
    (size = 0 → s' = s) ∧
    (0 < size → s'.m_position = (s.m_position + size) % 2 ^ 64) ∧
    s' = { s with m_position := s'.m_position, m_cur := s'.m_cur } := by
  unfold ByteArray.read at h
  split at h
  · cases h
  · rename_i hg
    split at h
    · cases h
    · obtain ⟨n, _, h⟩ := bind_eq_ok h
      exact ⟨by omega, readLoop_frame _ _ _ _ _ _ _ _ h⟩

/-- A cursor-relative read that returns in a state with `position ≤ size` leaves
`position ≤ size`, the position being advanced by exactly the number of bytes asked for. -/
theorem read_position (s : ByteArray) (size : Nat) (r : List Nat) (s' : ByteArray)
    (hps : s.m_position ≤ s.m_size) (hsz : s.m_size < 2 ^ 64)
    (h : s.read size = .ok (r, s')) :
    s'.m_position = s.m_position + size ∧ s'.m_size = s.m_size ∧ s'.m_position ≤ s'.m_size := by
  obtain ⟨hle, h0, hp, hrest⟩ := read_frame s size r s' h
  rw [getReadSize_eq s hps hsz] at hle
  have hsize : s'.m_size = s.m_size := by rw [hrest]
  rcases Nat.eq_zero_or_pos size with hz | hz
  · rw [h0 hz, hz]
    exact ⟨rfl, rfl, hps⟩
  · have hpe : s'.m_position = s.m_position + size := by
      rw [hp hz]
      simp only [Nat.reducePow] at hsz ⊢
      omega
    exact ⟨hpe, hsize, by rw [hpe, hsize]; omega⟩
/-! ### The cursor-relative read over chunks that record their capacity -/

/-- An offset inside chunk `i` belongs to chunk `i`. -/
theorem cursor_same_chunk (base i r : Nat) (hr : r < base) : (i * base + r) / base = i := by
  have hb : 0 < base := by omega
  rw [Nat.add_comm, Nat.add_mul_div_right _ _ hb, Nat.div_eq_of_lt hr, Nat.zero_add]

/-- The offset at the end of chunk `i` belongs to chunk `i + 1`. -/
theorem cursor_next_chunk (base i : Nat) (hb : 0 < base) : (i * base + base) / base = i + 1 := by
  have : i * base + base = (i + 1) * base := by rw [Nat.add_mul, Nat.one_mul]
  rw [this, Nat.mul_div_cancel _ hb]

/-- The loop of the cursor-relative read over chunks that record their capacity: started
with `m_cur` at chunk `i`, in-chunk offset `npos`, and `len > 0` bytes that lie within the
chain, it returns the bytes stored at the logical offsets
`[i * base + npos, i * base + npos + len)`, advances `m_position` by `len` and leaves `m_cur`
at the chunk of the offset reached (null at the end of the chain). -/
theorem readLoop_wf (base : Nat) (hb : 0 < base) :
    ∀ (fuel : Nat) (s : ByteArray) (i npos len : Nat) (out : List Nat),
      (∀ n ∈ s.nodes, n.size = base ∧ n.ptr.length = base) → s.tailDangling = false →
      base * s.nodes.length < 2 ^ 64 → s.m_cur = NodePtr.node i →
      i < s.nodes.length → npos < base → 0 < len →
      i * base + npos + len ≤ base * s.nodes.length → s.m_position + len < 2 ^ 64 →
      s.nodes.length - i < fuel →
      readLoop fuel s npos (base - npos) len out =
        .ok (out ++ (s.content.drop (i * base + npos)).take len,
             { s with m_position := s.m_position + len,
                      m_cur := if (i * base + npos + len) / base < s.nodes.length
                               then NodePtr.node ((i * base + npos + len) / base)
                               else NodePtr.null }) := by
  intro fuel
  induction fuel with
  | zero => intro s i npos len out _ _ _ _ _ _ _ _ _ hf; omega
  | succ fuel ih =>
    intro s i npos len out hn htl hb64 hcur hi hnp hlen hfit hp64 hf
    have hget : s.nodes[i]? = some s.nodes[i] := List.getElem?_eq_getElem hi
    obtain ⟨hsz, hpl⟩ := hn _ (List.getElem_mem hi)
    have hptr : ∀ n ∈ s.nodes, n.ptr.length = base := fun n hm => (hn n hm).2
    have hdrop := flatten_drop_chunk base s.nodes i npos hptr hi (by omega)
    have hdl : (s.nodes[i].ptr.drop npos).length = base - npos := by
      rw [List.length_drop, hpl]
    have hderef : s.deref (NodePtr.node i) = .ok s.nodes[i] := by
      simp [deref, hget]
    have hlen64 : len < 2 ^ 64 := by omega
    have hbase64 : base < 2 ^ 64 := by
      have : base * 1 ≤ base * s.nodes.length := Nat.mul_le_mul_left _ (by omega)
      omega
    unfold readLoop
    rw [if_pos hlen]
    by_cases hc : base - npos ≥ len
    · rw [if_pos hc]
      have hmc : s.memcpyFrom (NodePtr.node i) npos len =
          .ok ((s.nodes[i].ptr.drop npos).take len) := by
        simp only [memcpyFrom, hderef, bind, Except.bind, pure, Except.pure]
        rw [if_pos (by omega)]
      have hadd : addU 64 npos len = npos + len := by
        unfold addU
        simp only [Nat.reducePow] at hbase64 ⊢
        omega
      have hpadd : addU 64 s.m_position len = s.m_position + len := by
        unfold addU
        simp only [Nat.reducePow] at hp64 ⊢
        omega
      have hbytes : (s.content.drop (i * base + npos)).take len =
          (s.nodes[i].ptr.drop npos).take len := by
        unfold content
        rw [hdrop, List.take_append_of_le_length (by rw [hdl]; omega)]
      simp only [hcur, hmc, hderef, bind, Except.bind, pure, Except.pure, hsz, hadd, hbytes]
      by_cases heq : base = npos + len
      · rw [if_pos heq]
        have he : (i * base + npos + len) / base = i + 1 := by
          have : i * base + npos + len = i * base + base := by omega
          rw [this]; exact cursor_next_chunk base i hb
        simp only [ByteArray.next, ByteArray.tailNext, htl, he, hi]
        by_cases hi1 : i + 1 < s.nodes.length
        · simp [hi1, hpadd]
        · simp [hi1, hpadd]
      · rw [if_neg heq]
        have he : (i * base + npos + len) / base = i := by
          have : i * base + npos + len = i * base + (npos + len) := by omega
          rw [this]; exact cursor_same_chunk base i _ (by omega)
        simp only [he, hi, if_true, hpadd, ← hcur]
    · rw [if_neg hc]
      have hmc : s.memcpyFrom (NodePtr.node i) npos (base - npos) =
          .ok (s.nodes[i].ptr.drop npos) := by
        simp only [memcpyFrom, hderef, bind, Except.bind, pure, Except.pure]
        rw [if_pos (by omega), List.take_of_length_le (by rw [hdl])]
      have hmul : (i + 1) * base = i * base + base := by rw [Nat.add_mul, Nat.one_mul]
      have hi1 : i + 1 < s.nodes.length := by
        by_contra hcon
        have hle : s.nodes.length ≤ i + 1 := by omega
        have : base * s.nodes.length ≤ base * (i + 1) := Nat.mul_le_mul_left _ hle
        rw [Nat.mul_comm base (i + 1), hmul] at this
        omega
      have hget1 : s.nodes[i + 1]? = some s.nodes[i + 1] := List.getElem?_eq_getElem hi1
      obtain ⟨hsz1, _⟩ := hn _ (List.getElem_mem hi1)
      have hsub : subU 64 len (base - npos) = len - (base - npos) := by
        unfold subU negU
        simp only [Nat.reducePow] at hlen64 ⊢
        omega
      have hpadd : addU 64 s.m_position (base - npos) = s.m_position + (base - npos) := by
        unfold addU
        simp only [Nat.reducePow] at hp64 ⊢
        omega
      have hrec := ih { s with m_position := s.m_position + (base - npos),
                               m_cur := NodePtr.node (i + 1) }
        (i + 1) 0 (len - (base - npos)) (out ++ s.nodes[i].ptr.drop npos)
        hn htl hb64 rfl hi1 hb (by omega)
        (by show (i + 1) * base + 0 + (len - (base - npos)) ≤ base * s.nodes.length
            rw [hmul]; omega)
        (by show s.m_position + (base - npos) + (len - (base - npos)) < 2 ^ 64; omega)
        (by show s.nodes.length - (i + 1) < fuel; omega)
      rw [Nat.sub_zero] at hrec
      have hoff : (i + 1) * base + (len - (base - npos)) = i * base + npos + len := by
        rw [hmul]; omega
      simp only [hcur, hmc, bind, Except.bind, ByteArray.next, hi1, if_true, deref, hget1, hsz1,
        hsub, hpadd]
      rw [hrec]
      simp only [hoff, Nat.add_zero]
      have hpos : s.m_position + (base - npos) + (len - (base - npos)) = s.m_position + len := by
        omega
      have hcont : ∀ (p : Nat) (c : NodePtr),
          ByteArray.content { s with m_position := p, m_cur := c } = s.content :=
        fun _ _ => rfl
      rw [hcont, hpos]
      have hbytes : (s.content.drop (i * base + npos)).take len =
          s.nodes[i].ptr.drop npos ++ (s.content.drop ((i + 1) * base)).take (len - (base - npos)) := by
        unfold content
        rw [hdrop]
        have hl : len = (s.nodes[i].ptr.drop npos).length + (len - (base - npos)) := by
          rw [hdl]; omega
        conv_lhs => rw [hl, List.take_append]
      rw [hbytes, List.append_assoc]

/-- The cursor-relative read on a buffer that satisfies the data-model invariants: with
`position ≤ size`, `len ≤ size − position` and the cursor on a chunk, the call returns the
bytes stored at the offsets `[position, position + len)`, advances `m_position` by `len`,
puts `m_cur` on the chunk of the new position and changes nothing else. -/
theorem read_wf (s : ByteArray) (len : Nat) (hwf : s.WF) (hps : s.m_position ≤ s.m_size)
    (hlen : len ≤ s.m_size - s.m_position) (hpc : s.m_position < s.m_capacity) :
    s.read len =
      .ok ((s.content.drop s.m_position).take len,
           { s with m_position := s.m_position + len,
                    m_cur := if (s.m_position + len) / s.m_baseSize < s.nodes.length
                             then NodePtr.node ((s.m_position + len) / s.m_baseSize)
                             else NodePtr.null }) := by
  obtain ⟨hb, hn, hcap, hc64, _, hsc, htl, hcur⟩ := hwf
  have hrs : s.getReadSize = s.m_size - s.m_position := getReadSize_eq s hps (by omega)
  have hq : s.m_position / s.m_baseSize < s.nodes.length := by
    apply Nat.div_lt_of_lt_mul
    rw [← hcap]; exact hpc
  rw [if_pos hq] at hcur
  have hr : s.m_position % s.m_baseSize < s.m_baseSize := Nat.mod_lt _ hb
  have hget : s.nodes[s.m_position / s.m_baseSize]? =
      some (s.nodes[s.m_position / s.m_baseSize]) := List.getElem?_eq_getElem hq
  obtain ⟨hns, _⟩ := hn _ (List.getElem_mem hq)
  have hbcap : s.m_baseSize ≤ s.m_capacity := by
    rw [hcap]; exact Nat.le_mul_of_pos_right _ (Nat.lt_of_le_of_lt (Nat.zero_le _) hq)
  have hncap : subU 64 s.m_baseSize (s.m_position % s.m_baseSize) =
      s.m_baseSize - s.m_position % s.m_baseSize := by
    unfold subU negU
    simp only [Nat.reducePow] at hc64 ⊢
    omega
  have hoff : s.m_position / s.m_baseSize * s.m_baseSize + s.m_position % s.m_baseSize =
      s.m_position := by
    rw [Nat.mul_comm]; exact Nat.div_add_mod _ _
  unfold ByteArray.read
  rw [hrs, if_neg (by omega), if_neg (by omega)]
  simp only [hcur, deref, hget, bind, Except.bind, hns, hncap]
  rcases Nat.eq_zero_or_pos len with hz | hz
  · subst hz
    simp only [readLoop, Nat.lt_irrefl, if_false, pure, Except.pure, List.take_zero, Nat.add_zero,
      hq, if_true, ← hcur]
  · have hrun := readLoop_wf s.m_baseSize hb (s.nodes.length + 1) s (s.m_position / s.m_baseSize)
      (s.m_position % s.m_baseSize) len [] hn htl (by rw [← hcap]; exact hc64) hcur hq hr hz
      (by rw [hoff, ← hcap]; omega) (by omega) (Nat.lt_succ_of_le (Nat.sub_le _ _))
    rw [hoff] at hrun
    rw [hrun, List.nil_append]

/-- The state a cursor-relative read leaves satisfies the data-model invariants again. -/
theorem read_wf_state (s : ByteArray) (len : Nat) (hwf : s.WF) (hps : s.m_position ≤ s.m_size)
    (hlen : len ≤ s.m_size - s.m_position) :
    ({ s with m_position := s.m_position + len,
              m_cur := if (s.m_position + len) / s.m_baseSize < s.nodes.length
                       then NodePtr.node ((s.m_position + len) / s.m_baseSize)
                       else NodePtr.null } : ByteArray).WF := by
  obtain ⟨hb, hn, hcap, hc64, _, hsc, htl, _⟩ := hwf
  exact ⟨hb, hn, hcap, hc64, by show s.m_position + len ≤ s.m_capacity; omega, hsc, htl, rfl⟩

/-- In a chain of chunks of `base` bytes each, the byte at the logical offset `j` of the
concatenated blocks is the byte at the in-chunk offset `j % base` of chunk `j / base`. -/
theorem flatten_getElem (base : Nat) (hb : 0 < base) : ∀ (nodes : List Node) (j : Nat),
    (∀ n ∈ nodes, n.ptr.length = base) →
    ((nodes.map (fun n => n.ptr)).flatten)[j]? =
      (nodes[j / base]?).bind (fun n => n.ptr[j % base]?) := by
  intro nodes
  induction nodes with
  | nil => intro j _; simp
  | cons n ns ih =>
    intro j hall
    have hn : n.ptr.length = base := hall n (List.mem_cons_self _ _)
    have hns : ∀ m ∈ ns, m.ptr.length = base := fun m hm => hall m (List.mem_cons_of_mem _ hm)
    simp only [List.map_cons, List.flatten_cons]
    by_cases hj : j < base
    · rw [List.getElem?_append_left (by omega), Nat.div_eq_of_lt hj, Nat.mod_eq_of_lt hj]
      simp
    · have hge : base ≤ j := by omega
      rw [List.getElem?_append_right (by omega), hn, ih (j - base) hns]
      have hd : j / base = (j - base) / base + 1 := by
        conv_lhs => rw [← Nat.sub_add_cancel hge]
        rw [Nat.add_div_right _ hb]
      have hm : j % base = (j - base) % base := by
        conv_lhs => rw [← Nat.sub_add_cancel hge]
        rw [Nat.add_mod_right]
      rw [hd, hm]
      simp

/-- On chunks of `m_baseSize` bytes, a run of the concatenated blocks is held at the
offsets it was taken from. -/
theorem holds_content (s : ByteArray) (hb : 0 < s.m_baseSize)
    (hn : ∀ n ∈ s.nodes, n.ptr.length = s.m_baseSize) (off len : Nat) :
    s.Holds off ((s.content.drop off).take len) := by
  intro k hk
  unfold byteAt
  rw [← flatten_getElem s.m_baseSize hb s.nodes (off + k) hn]
  rw [List.getElem?_take_of_lt (by
    rw [List.length_take] at hk; omega)]
  rw [List.getElem?_drop]
  rfl

/-- The concatenated blocks of `count` chunks of `base` bytes have `base * count` bytes. -/
theorem flatten_length (base : Nat) : ∀ (nodes : List Node),
    (∀ n ∈ nodes, n.ptr.length = base) →
    ((nodes.map (fun n => n.ptr)).flatten).length = base * nodes.length := by
  intro nodes
  induction nodes with
  | nil => intro _; simp
  | cons n ns ih =>
    intro hall
    have hn : n.ptr.length = base := hall n (List.mem_cons_self _ _)
    have hns : ∀ m ∈ ns, m.ptr.length = base := fun m hm => hall m (List.mem_cons_of_mem _ hm)
    simp only [List.map_cons, List.flatten_cons, List.length_append, List.length_cons, hn, ih hns,
      Nat.mul_add, Nat.mul_one]
    omega

/-- With the cursor past the last chunk (`position = capacity`) the cursor-relative read
dereferences a null `m_cur` on line 168, whatever the length asked for. -/
theorem read_at_capacity (s : ByteArray) (len : Nat) (hwf : s.WF)
    (hpc : s.m_position = s.m_capacity) (hle : len ≤ s.getReadSize) :
    s.read len = .error Fault.nullDeref := by
  obtain ⟨hb, hn, hcap, hc64, _, hsc, htl, hcur⟩ := hwf
  have hq : ¬ s.m_position / s.m_baseSize < s.nodes.length := by
    rw [hpc, hcap, Nat.mul_div_cancel_left _ hb]
    omega
  rw [if_neg hq] at hcur
  unfold ByteArray.read
  rw [if_neg (by omega), if_neg (by omega)]
  simp only [hcur, deref, bind, Except.bind]

/-! ### When `setPosition` throws, and the cursor it computes -/

theorem setPositionLoop_ne_outOfRange (s : ByteArray) : ∀ (fuel v : Nat) (cur : NodePtr),
    setPositionLoop s fuel v cur ≠ .error Fault.outOfRange := by
  intro fuel
  induction fuel with
  | zero => intro _ _; simp [setPositionLoop]
  | succ fuel ih =>
    intro v cur
    unfold setPositionLoop
    apply bind_ne_outOfRange _ _ (deref_ne_outOfRange _ _)
    intro n _
    split
    · apply bind_ne_outOfRange _ _ (next_ne_outOfRange _ _)
      intro nx _
      exact ih _ _
    · split
      · exact next_ne_outOfRange _ _
      · simp [pure, Except.pure]

/-- The call `setPosition(v)` throws `std::out_of_range` exactly in its guard (line 112):
when `v > m_capacity`. -/
theorem setPosition_throws_iff (s : ByteArray) (v : Nat) :
    s.setPosition v = .error Fault.outOfRange ↔ v > s.m_capacity := by
  unfold setPosition
  constructor
  · intro h
    by_contra hn
    rw [if_neg hn] at h
    revert h
    apply bind_ne_outOfRange _ _ (setPositionLoop_ne_outOfRange _ _ _ _)
    intro cur _
    simp [pure, Except.pure]
  · intro h
    rw [if_pos h]

/-- The cursor walk of `setPosition` over chunks that record their capacity: started at
chunk `i` with `v` bytes to go, it ends at the chunk of the offset `i * base + v`, or at null
when that offset is the end of the chain. -/
theorem setPositionLoop_wf (s : ByteArray) (base : Nat) (hb : 0 < base)
    (hn : ∀ n ∈ s.nodes, n.size = base ∧ n.ptr.length = base) (htl : s.tailDangling = false)
    (hb64 : base * s.nodes.length < 2 ^ 64) :
    ∀ (fuel i v : Nat), i < s.nodes.length → i * base + v ≤ base * s.nodes.length →
      s.nodes.length - i < fuel →
      setPositionLoop s fuel v (NodePtr.node i) =
        .ok (if (i * base + v) / base < s.nodes.length then NodePtr.node ((i * base + v) / base)
             else NodePtr.null) := by
  intro fuel
  induction fuel with
  | zero => intro i v _ _ hf; omega
  | succ fuel ih =>
    intro i v hi hfit hf
    have hget : s.nodes[i]? = some s.nodes[i] := List.getElem?_eq_getElem hi
    obtain ⟨hsz, _⟩ := hn _ (List.getElem_mem hi)
    have hmul : (i + 1) * base = i * base + base := by rw [Nat.add_mul, Nat.one_mul]
    unfold setPositionLoop
    simp only [deref, hget, bind, Except.bind, hsz]
    by_cases hgt : v > base
    · rw [if_pos hgt]
      have hi1 : i + 1 < s.nodes.length := by
        by_contra hcon
        have hle : s.nodes.length ≤ i + 1 := by omega
        have : base * s.nodes.length ≤ base * (i + 1) := Nat.mul_le_mul_left _ hle
        rw [Nat.mul_comm base (i + 1), hmul] at this
        omega
      have hsub : subU 64 v base = v - base := by
        unfold subU negU
        simp only [Nat.reducePow] at hb64 ⊢
        omega
      simp only [ByteArray.next, hi1, if_true, hsub]
      rw [ih (i + 1) (v - base) hi1 (by rw [hmul]; omega) (by omega)]
      have hoff : (i + 1) * base + (v - base) = i * base + v := by rw [hmul]; omega
      rw [hoff]
    · rw [if_neg hgt]
      by_cases heq : v = base
      · rw [if_pos heq]
        subst heq
        rw [cursor_next_chunk v i hb]
        simp only [ByteArray.next, ByteArray.tailNext, htl, hi]
        by_cases hi1 : i + 1 < s.nodes.length
        · simp [hi1]
        · simp [hi1]
      · rw [if_neg heq, cursor_same_chunk base i v (by omega), if_pos hi]
        rfl

/-- On a buffer that satisfies the data-model invariants `setPosition(v)` returns for every
`v ≤ capacity`: it sets `m_position = v`, `m_size = max(size, v)`, puts `m_cur` on the chunk
of the offset `v` (null when `v = capacity`) and changes nothing else. -/
theorem setPosition_wf (s : ByteArray) (v : Nat) (hwf : s.WF) (hroot : s.nodes ≠ [])
    (hv : v ≤ s.m_capacity) :
    s.setPosition v =
      .ok { s with m_position := v, m_size := max s.m_size v,
                   m_cur := if v / s.m_baseSize < s.nodes.length
                            then NodePtr.node (v / s.m_baseSize) else NodePtr.null } := by
  obtain ⟨hb, hn, hcap, hc64, _, hsc, htl, _⟩ := hwf
  have hlen : 0 < s.nodes.length := List.length_pos.mpr hroot
  unfold setPosition
  rw [if_neg (by omega)]
  have hloop : ∀ t : ByteArray, t.nodes = s.nodes → t.tailDangling = s.tailDangling →
      setPositionLoop t (s.nodes.length + 1) v (NodePtr.node 0) =
        .ok (if v / s.m_baseSize < s.nodes.length then NodePtr.node (v / s.m_baseSize)
             else NodePtr.null) := by
    intro t ht htd
    have h := setPositionLoop_wf t s.m_baseSize hb (by rw [ht]; exact hn) (by rw [htd]; exact htl)
      (by rw [ht, ← hcap]; exact hc64) (s.nodes.length + 1) 0 v (by rw [ht]; exact hlen)
      (by rw [ht, ← hcap]; omega) (by rw [ht]; omega)
    rw [Nat.zero_mul, Nat.zero_add, ht] at h
    exact h
  by_cases hgt : v > s.m_size
  · simp only [hgt, if_true, bind, Except.bind]
    rw [hloop { s with m_position := v, m_size := v } rfl rfl]
    have hmax : max s.m_size v = v := by omega
    simp only [pure, Except.pure, hmax]
  · simp only [hgt, if_false, bind, Except.bind]
    rw [hloop { s with m_position := v } rfl rfl]
    have hmax : max s.m_size v = s.m_size := by omega
    simp only [pure, Except.pure, hmax]

/-- The state `setPosition` leaves satisfies the data-model invariants again. -/
theorem setPosition_wf_state (s : ByteArray) (v : Nat) (hwf : s.WF) (hv : v ≤ s.m_capacity) :
    ({ s with m_position := v, m_size := max s.m_size v,
              m_cur := if v / s.m_baseSize < s.nodes.length
                       then NodePtr.node (v / s.m_baseSize) else NodePtr.null } : ByteArray).WF := by
  obtain ⟨hb, hn, hcap, hc64, _, hsc, htl, _⟩ := hwf
  exact ⟨hb, hn, hcap, hc64, hv, by show max s.m_size v ≤ s.m_capacity; omega, htl, rfl⟩

/-! ### What `clear` leaves behind -/

/-- Every `clear` that returns leaves `position = size = 0`, `capacity = m_baseSize`, the
root chunk alone in the chain and `m_cur` on it; the root's `next` member is null only if the
chain had no second chunk, otherwise it still points at the chunk deleted first. -/
theorem clear_frame (s s' : ByteArray) (h : s.clear = .ok s') :
    s'.m_position = 0 ∧ s'.m_size = 0 ∧ s'.m_capacity = s.m_baseSize ∧
    s'.nodes = s.nodes.take 1 ∧ s'.nodes.length = 1 ∧ s'.m_cur = NodePtr.node 0 ∧
    s'.m_baseSize = s.m_baseSize ∧
    (s.nodes.length = 1 → s'.next (NodePtr.node 0) = .ok NodePtr.null) ∧
    (1 < s.nodes.length → s'.next (NodePtr.node 0) = .ok NodePtr.dangling) := by
  unfold clear at h
  split at h
  · cases h
  · rename_i root rest hnodes
    split at h
    · cases h
    · cases h
      refine ⟨rfl, rfl, rfl, ?_, rfl, rfl, rfl, ?_, ?_⟩
      · rw [hnodes]; rfl
      · intro hlen
        rw [hnodes] at hlen
        have hrest : rest = [] := by
          cases rest with
          | nil => rfl
          | cons a t => simp at hlen
        subst hrest
        rfl
      · intro hlen
        rw [hnodes] at hlen
        cases rest with
        | nil => simp at hlen
        | cons a t => rfl

/-! ### Bulk transfer: iteration budgets, and the file read on a fresh buffer -/

theorem sinkWrite_ne_outOfFuel (s : ByteArray) (cur : NodePtr) (diff len : Int) :
    s.sinkWrite cur diff len ≠ .error Fault.outOfFuel := by
  unfold sinkWrite
  apply bind_ne_outOfFuel _ _ (deref_ne_outOfFuel _ _)
  intro n _
  repeat' split
  all_goals simp [pure, Except.pure]

/-- The loop of `writeToFile` moves to the next chunk in every iteration, so it takes at
most one iteration per chunk left in the chain, plus the one that ends it. -/
theorem writeToFileLoop_ne_outOfFuel : ∀ (fuel : Nat) (s : ByteArray) (cur : NodePtr)
    (pos read_size : Int) (out : List Nat), s.remaining cur < fuel →
    writeToFileLoop fuel s cur pos read_size out ≠ .error Fault.outOfFuel := by
  intro fuel
  induction fuel with
  | zero => intro s _ _ _ _ h; omega
  | succ fuel ih =>
    intro s cur pos read_size out h
    unfold writeToFileLoop
    split
    · split
      · simp
      · apply bind_ne_outOfFuel _ _ (sinkWrite_ne_outOfFuel _ _ _ _)
        intro bytes _
        apply bind_ne_outOfFuel _ _ (next_ne_outOfFuel _ _)
        intro nx hnx
        apply ih
        have := next_remaining_lt _ _ _ hnx
        omega
    · simp [pure, Except.pure]

theorem writeToFile_ne_outOfFuel (s : ByteArray) (opened : Bool) :
    s.writeToFile opened ≠ .error Fault.outOfFuel := by
  unfold writeToFile
  split
  · simp
  · apply bind_ne_outOfFuel
    · exact writeToFileLoop_ne_outOfFuel _ _ _ _ _ _ (Nat.lt_succ_of_le (remaining_le _ _))
    · intro b _
      simp [pure, Except.pure]

/-- A `write` that returns was made on an object with `m_baseSize ≠ 0`. -/
theorem write_ok_baseSize (s s' : ByteArray) (buf : List Nat) (h : s.write buf = .ok s') :
    s.m_baseSize ≠ 0 := by
  unfold write at h
  obtain ⟨s1, hs1, h⟩ := bind_eq_ok h
  obtain ⟨_, _, hb⟩ := addCapacity_frame _ _ _ hs1
  split at h
  · cases h
  · rename_i hne
    rw [hb] at hne
    exact hne

/-- The loop of `readFromFile` takes `m_baseSize > 0` bytes of the file in every iteration
but the last. -/
theorem readFromFileLoop_ne_outOfFuel : ∀ (fuel : Nat) (s : ByteArray) (src : List Nat),
    src.length < fuel → readFromFileLoop fuel s src ≠ .error Fault.outOfFuel := by
  intro fuel
  induction fuel with
  | zero => intro s src h; omega
  | succ fuel ih =>
    intro s src h
    unfold readFromFileLoop
    apply bind_ne_outOfFuel _ _ (write_ne_outOfFuel _ _)
    intro s1 hs1
    have hb := write_ok_baseSize _ _ _ hs1
    split
    · simp [pure, Except.pure]
    · rename_i hfull
      apply ih
      rw [List.length_take] at hfull
      rw [List.length_drop]
      omega

theorem readFromFile_ne_outOfFuel (s : ByteArray) (opened : Bool) (file : List Nat) :
    s.readFromFile opened file ≠ .error Fault.outOfFuel := by
  unfold readFromFile
  split
  · simp
  · apply bind_ne_outOfFuel
    · exact readFromFileLoop_ne_outOfFuel _ _ _ (by omega)
    · intro b _
      simp [pure, Except.pure]

theorem toHexString_ne_outOfFuel (s : ByteArray) :
    s.toHexString ≠ .error Fault.outOfFuel := by
  unfold toHexString
  apply bind_ne_outOfFuel _ _ (codec_entry_points_ne_outOfFuel s Endian.little).2.2.2.2.2.2.2.2.2.2.2.2.2
  intro r _
  simp [pure, Except.pure]

/-- On a freshly constructed buffer `readFromFile` faults for every file that is not empty:
its first `write` dereferences a null `m_cur`. -/
theorem ctor_readFromFile_faults (base : Nat) (file : List Nat) (hb : 0 < base)
    (hb64 : base < 2 ^ 64) (hne : file ≠ []) :
    (ByteArray.ctor base).readFromFile true file = .error Fault.nullDeref := by
  have htake : file.take base ≠ [] := by
    cases file with
    | nil => exact absurd rfl hne
    | cons a t =>
      cases base with
      | zero => omega
      | succ b => simp
  have hlen : (file.take base).length ≤ base := by
    rw [List.length_take]; omega
  have hw := ctor_write_faults base (file.take base) hb hb64 htake hlen
  have hbs : (ByteArray.ctor base).m_baseSize = base := rfl
  simp only [readFromFile, readFromFileLoop, hbs, hw, bind, Except.bind]
  rfl

/-! ### `writeToFile` on a buffer that satisfies the data-model invariants -/

theorem wrapSigned_small (x : Int) (h0 : 0 ≤ x) (h1 : x < 2 ^ 63) : wrapSigned 64 x = x := by
  unfold wrapSigned toSigned toUnsigned
  simp only [Nat.reducePow, Int.reducePow, Nat.reduceSub] at h1 ⊢
  split <;> omega

/-- The computation of `diff` on line 520 for a position below `2^63` and chunks of at most
`2^31` bytes. -/
theorem writeToFile_diff (p base : Nat) (hb : 0 < base) (hb31 : base ≤ 2 ^ 31)
    (hp : p < 2 ^ 63) :
    toSigned 32 (toUnsigned 64 (p : Int) % base) = ((p % base : Nat) : Int) := by
  have hu : toUnsigned 64 (p : Int) = p := by
    unfold toUnsigned
    simp only [Int.reducePow, Nat.reducePow] at hp ⊢
    omega
  have hlt : p % base < base := Nat.mod_lt _ hb
  rw [hu]
  unfold toSigned
  simp only [Nat.reducePow, Int.reducePow, Nat.reduceSub] at hb31 ⊢
  split <;> omega

/-- The computation of `len` on line 521: the smaller of `read_size` and `m_baseSize`, minus
`diff`, as a signed number. -/
theorem writeToFile_len (r base d : Nat) (hr : r < 2 ^ 63) (hb : base < 2 ^ 63)
    (hd : d < 2 ^ 31) :
    toSigned 64 (subU 64
        (if (r : Int) > toSigned 64 base then base else toUnsigned 64 (r : Int))
        (toUnsigned 64 (d : Int))) = ((min r base : Nat) : Int) - (d : Int) := by
  have hub : toSigned 64 base = (base : Int) := by
    unfold toSigned
    simp only [Nat.reducePow, Int.reducePow, Nat.reduceSub] at hb ⊢
    split <;> omega
  have hur : toUnsigned 64 (r : Int) = r := by
    unfold toUnsigned
    simp only [Int.reducePow, Nat.reducePow] at hr ⊢
    omega
  have hud : toUnsigned 64 (d : Int) = d := by
    unfold toUnsigned
    simp only [Int.reducePow, Nat.reducePow] at hd ⊢
    omega
  rw [hub, hur, hud]
  have hm : (if (r : Int) > (base : Int) then base else r) = min r base := by
    split <;> omega
  rw [hm]
  unfold toSigned subU negU
  simp only [Nat.reducePow, Int.reducePow, Nat.reduceSub] at hr hb hd ⊢
  split <;> omega

/-- With nothing left to write the loop of `writeToFile` ends. -/
theorem writeToFileLoop_done (f : Nat) (s : ByteArray) (cur : NodePtr) (pos read_size : Int)
    (out : List Nat) (h : read_size ≤ 0) :
    writeToFileLoop (f + 1) s cur pos read_size out = .ok out := by
  unfold writeToFileLoop
  rw [if_neg (by omega)]
  rfl

/-- What `ofs.write(cur->ptr + diff, len)` hands over for a chunk of the chain and a range
inside its block. -/
theorem sinkWrite_chunk (s : ByteArray) (i d len : Nat) (hi : i < s.nodes.length)
    (hlen : 0 < len) (hfit : d + len ≤ s.nodes[i].ptr.length) :
    s.sinkWrite (NodePtr.node i) (d : Int) (len : Int) = .ok ((s.nodes[i].ptr.drop d).take len) := by
  have hget : s.nodes[i]? = some s.nodes[i] := List.getElem?_eq_getElem hi
  unfold sinkWrite
  simp only [deref, hget, bind, Except.bind]
  rw [if_neg (by omega), if_neg (by omega)]
  have h1 : ((d : Int)).toNat = d := Int.toNat_ofNat d
  have h2 : ((len : Int)).toNat = len := Int.toNat_ofNat len
  rw [h1, h2, if_pos hfit]
  rfl

/-- The loop of `writeToFile` over chunks of `m_baseSize` bytes, started at chunk `i` with the
in-chunk offset `d` and `r` bytes to write: when `r = 0`, the offset is 0, or at least
`m_baseSize` bytes are to be written, the stream receives the bytes at the logical offsets
`[i * m_baseSize + d, i * m_baseSize + d + r)`. -/
theorem writeToFileLoop_wf (s : ByteArray) (hb : 0 < s.m_baseSize)
    (hb31 : s.m_baseSize ≤ 2 ^ 31) (hn : ∀ n ∈ s.nodes, n.ptr.length = s.m_baseSize)
    (htl : s.tailDangling = false) (hcap : s.m_baseSize * s.nodes.length < 2 ^ 63) :
    ∀ (fuel i d r : Nat) (out : List Nat), d < s.m_baseSize →
      (r = 0 ∨ d = 0 ∨ s.m_baseSize ≤ r) →
      i * s.m_baseSize + d + r ≤ s.m_baseSize * s.nodes.length →
      s.nodes.length - i < fuel → i ≤ s.nodes.length →
      writeToFileLoop fuel s (if i < s.nodes.length then NodePtr.node i else NodePtr.null)
          ((i * s.m_baseSize + d : Nat) : Int) (r : Int) out =
        .ok (out ++ (s.content.drop (i * s.m_baseSize + d)).take r) := by
  intro fuel
  induction fuel with
  | zero => intro i d r out _ _ _ hf _; omega
  | succ fuel ih =>
    intro i d r out hd hor hfit hf hile
    rcases Nat.eq_zero_or_pos r with hr0 | hrpos
    · subst hr0
      rw [writeToFileLoop_done _ _ _ _ _ _ (by simp), List.take_zero, List.append_nil]
    · have hmul : (i + 1) * s.m_baseSize = i * s.m_baseSize + s.m_baseSize := by
        rw [Nat.add_mul, Nat.one_mul]
      have hi : i < s.nodes.length := by
        by_contra hcon
        have hle : s.nodes.length ≤ i := by omega
        have := Nat.mul_le_mul_left s.m_baseSize hle
        rw [Nat.mul_comm s.m_baseSize i] at this
        omega
      have hpl : s.nodes[i].ptr.length = s.m_baseSize := hn _ (List.getElem_mem hi)
      have hdrop := flatten_drop_chunk s.m_baseSize s.nodes i d hn hi (by omega)
      have hdl : (s.nodes[i].ptr.drop d).length = s.m_baseSize - d := by
        rw [List.length_drop, hpl]
      have hpos63 : i * s.m_baseSize + d < 2 ^ 63 := by omega
      have hmod : (i * s.m_baseSize + d) % s.m_baseSize = d := by
        rw [Nat.add_comm, Nat.add_mul_mod_self_right, Nat.mod_eq_of_lt hd]
      have hdiff := writeToFile_diff (i * s.m_baseSize + d) s.m_baseSize hb hb31 hpos63
      rw [hmod] at hdiff
      have hlen := writeToFile_len r s.m_baseSize d (by omega) (by
        have : s.m_baseSize * 1 ≤ s.m_baseSize * s.nodes.length :=
          Nat.mul_le_mul_left _ (by omega)
        omega) (by
        have : (2 : Nat) ^ 31 = 2147483648 := by decide
        omega)
      have hnx : s.next (NodePtr.node i) =
          .ok (if i + 1 < s.nodes.length then NodePtr.node (i + 1) else NodePtr.null) := by
        simp only [ByteArray.next, ByteArray.tailNext, htl, hi]
        split <;> simp
      unfold writeToFileLoop
      rw [if_pos (by omega), if_neg (by omega), if_pos hi]
      simp only [hdiff, hlen]
      by_cases hbig : s.m_baseSize ≤ r
      · have hmin : min r s.m_baseSize = s.m_baseSize := by omega
        have hcast : ((s.m_baseSize : Nat) : Int) - (d : Int) = ((s.m_baseSize - d : Nat) : Int) := by
          omega
        rw [hmin, hcast, sinkWrite_chunk s i d (s.m_baseSize - d) hi (by omega) (by omega)]
        simp only [bind, Except.bind, hnx]
        have hp' : wrapSigned 64 (((i * s.m_baseSize + d : Nat) : Int) +
            ((s.m_baseSize - d : Nat) : Int)) = (((i + 1) * s.m_baseSize + 0 : Nat) : Int) := by
          rw [wrapSigned_small _ (by omega) (by omega), hmul]
          omega
        have hr' : wrapSigned 64 ((r : Int) - ((s.m_baseSize - d : Nat) : Int)) =
            ((r - (s.m_baseSize - d) : Nat) : Int) := by
          rw [wrapSigned_small _ (by omega) (by omega)]
          omega
        rw [hp', hr', ih (i + 1) 0 (r - (s.m_baseSize - d)) _ hb (Or.inr (Or.inl rfl))
          (by rw [hmul]; omega) (by omega) (by omega)]
        rw [List.take_of_length_le (by rw [hdl]), Nat.add_zero, List.append_assoc]
        congr 2
        unfold content
        rw [hdrop]
        have hl : r = (s.nodes[i].ptr.drop d).length + (r - (s.m_baseSize - d)) := by
          rw [hdl]; omega
        conv_rhs => rw [hl, List.take_append]
      · have hd0 : d = 0 := by
          rcases hor with h | h | h
          · omega
          · exact h
          · omega
        subst hd0
        have hmin : min r s.m_baseSize = r := by omega
        have hcast : ((r : Nat) : Int) - ((0 : Nat) : Int) = ((r : Nat) : Int) := by omega
        rw [hmin, hcast, sinkWrite_chunk s i 0 r hi hrpos (by omega)]
        simp only [bind, Except.bind, hnx]
        have hr' : wrapSigned 64 ((r : Int) - (r : Int)) = 0 := by
          rw [Int.sub_self]; rfl
        rw [hr']
        obtain ⟨f, hf'⟩ : ∃ f, fuel = f + 1 := ⟨fuel - 1, by omega⟩
        rw [hf', writeToFileLoop_done _ _ _ _ _ _ (le_refl _)]
        congr 2
        unfold content
        rw [hdrop, List.take_append_of_le_length (by rw [hdl]; omega)]

theorem toSigned_small (x : Nat) (h : x < 2 ^ 63) : toSigned 64 x = (x : Int) := by
  unfold toSigned
  simp only [Nat.reducePow, Int.reducePow, Nat.reduceSub] at h ⊢
  split <;> omega

/-- On a buffer that satisfies the data-model invariants (chunks of at most `2^31` bytes,
capacity below `2^63`), with `position ≤ size`: when nothing is readable, the position is
chunk-aligned, or at least `chunkSize` bytes are readable, `writeToFile` returns `true` and
the file holds the bytes at the offsets `[position, size)`. -/
theorem writeToFile_wf (s : ByteArray) (hwf : s.WF) (hps : s.m_position ≤ s.m_size)
    (hb31 : s.m_baseSize ≤ 2 ^ 31) (hcap63 : s.m_capacity < 2 ^ 63)
    (hor : s.m_size - s.m_position = 0 ∨ s.m_position % s.m_baseSize = 0 ∨
      s.m_baseSize ≤ s.m_size - s.m_position) :
    s.writeToFile true =
      .ok (true, (s.content.drop s.m_position).take (s.m_size - s.m_position)) := by
  obtain ⟨hb, hn, hcap, hc64, hpcap, hsc, htl, hcur⟩ := hwf
  have hptr : ∀ n ∈ s.nodes, n.ptr.length = s.m_baseSize := fun n hm => (hn n hm).2
  have hrs : s.getReadSize = s.m_size - s.m_position := getReadSize_eq s hps (by omega)
  have hoff : s.m_position / s.m_baseSize * s.m_baseSize + s.m_position % s.m_baseSize =
      s.m_position := by
    rw [Nat.mul_comm]; exact Nat.div_add_mod _ _
  have hile : s.m_position / s.m_baseSize ≤ s.nodes.length := by
    apply Nat.div_le_of_le_mul
    rw [← hcap]; exact hpcap
  have hrun := writeToFileLoop_wf s hb hb31 hptr htl (by rw [← hcap]; exact hcap63)
    (s.nodes.length + 1) (s.m_position / s.m_baseSize) (s.m_position % s.m_baseSize)
    (s.m_size - s.m_position) [] (Nat.mod_lt _ hb) hor (by rw [hoff, ← hcap]; omega)
    (Nat.lt_succ_of_le (Nat.sub_le _ _)) hile
  rw [hoff, ← hcur, List.nil_append] at hrun
  unfold writeToFile
  rw [if_neg (by simp), hrs, toSigned_small _ (by omega), toSigned_small _ (by omega)]
  simp only [hrun, bind, Except.bind, pure, Except.pure]

/-- The loop of `writeToFile` with an in-chunk offset `x > 0` and `y < m_baseSize` bytes to
write: every iteration swaps the two numbers and moves to the next chunk, so `read_size`
never reaches 0 and the loop ends by dereferencing the null pointer after the last chunk. -/
theorem writeToFileLoop_stuck (s : ByteArray) (hb31 : s.m_baseSize ≤ 2 ^ 31)
    (hn : ∀ n ∈ s.nodes, n.ptr.length = s.m_baseSize)
    (htl : s.tailDangling = false) (hcap : s.m_baseSize * s.nodes.length < 2 ^ 63) :
    ∀ (fuel c k x y : Nat) (out : List Nat), 0 < x → x < s.m_baseSize → 0 < y →
      y < s.m_baseSize → k < s.nodes.length → s.nodes.length - c < fuel →
      writeToFileLoop fuel s (if c < s.nodes.length then NodePtr.node c else NodePtr.null)
          ((k * s.m_baseSize + x : Nat) : Int) (y : Int) out = .error Fault.nullDeref := by
  intro fuel
  induction fuel with
  | zero => intro c k x y out _ _ _ _ _ hf; omega
  | succ fuel ih =>
    intro c k x y out hx0 hx hy0 hy hk hf
    have hb : 0 < s.m_baseSize := by omega
    have hkb : k * s.m_baseSize + s.m_baseSize ≤ s.m_baseSize * s.nodes.length := by
      have := Nat.mul_le_mul_left s.m_baseSize (Nat.succ_le_of_lt hk)
      rw [Nat.mul_succ, Nat.mul_comm s.m_baseSize k] at this
      exact this
    have hmodx : (k * s.m_baseSize + x) % s.m_baseSize = x := by
      rw [Nat.add_comm, Nat.add_mul_mod_self_right, Nat.mod_eq_of_lt hx]
    have hdiff := writeToFile_diff (k * s.m_baseSize + x) s.m_baseSize hb hb31 (by omega)
    rw [hmodx] at hdiff
    have hlen := writeToFile_len y s.m_baseSize x (by omega) (by omega) (by
      have : (2 : Nat) ^ 31 = 2147483648 := by decide
      omega)
    have hmin : min y s.m_baseSize = y := by omega
    rw [hmin] at hlen
    unfold writeToFileLoop
    rw [if_pos (by omega), if_neg (by omega)]
    simp only [hdiff, hlen]
    by_cases hc : c < s.nodes.length
    · rw [if_pos hc]
      have hget : s.nodes[c]? = some s.nodes[c] := List.getElem?_eq_getElem hc
      have hpl : s.nodes[c].ptr.length = s.m_baseSize := hn _ (List.getElem_mem hc)
      have hsw : ∃ bytes, s.sinkWrite (NodePtr.node c) (x : Int) ((y : Int) - (x : Int)) =
          .ok bytes := by
        unfold sinkWrite
        simp only [deref, hget, bind, Except.bind]
        by_cases hle : (y : Int) - (x : Int) ≤ 0
        · rw [if_pos hle]
          exact ⟨_, rfl⟩
        · rw [if_neg hle, if_neg (by omega), if_pos (by omega)]
          exact ⟨_, rfl⟩
      obtain ⟨bytes, hbytes⟩ := hsw
      have hnx : s.next (NodePtr.node c) =
          .ok (if c + 1 < s.nodes.length then NodePtr.node (c + 1) else NodePtr.null) := by
        simp only [ByteArray.next, ByteArray.tailNext, htl, hc]
        split <;> simp
      have hp' : wrapSigned 64 (((k * s.m_baseSize + x : Nat) : Int) + ((y : Int) - (x : Int))) =
          ((k * s.m_baseSize + y : Nat) : Int) := by
        rw [wrapSigned_small _ (by omega) (by omega)]
        omega
      have hr' : wrapSigned 64 ((y : Int) - ((y : Int) - (x : Int))) = (x : Int) := by
        rw [wrapSigned_small _ (by omega) (by omega)]
        omega
      simp only [hbytes, bind, Except.bind, hnx, hp', hr']
      exact ih (c + 1) k y x _ hy0 hy hx0 hx hk (by omega)
    · rw [if_neg hc]
      simp only [sinkWrite, deref, bind, Except.bind]

/-- On a buffer that satisfies the data-model invariants (chunks of at most `2^31` bytes,
capacity below `2^63`): when the position is not chunk-aligned and fewer than `chunkSize`
bytes are readable, `writeToFile` does not return. -/
theorem writeToFile_stuck (s : ByteArray) (hwf : s.WF) (hps : s.m_position < s.m_size)
    (hb31 : s.m_baseSize ≤ 2 ^ 31) (hcap63 : s.m_capacity < 2 ^ 63)
    (hun : s.m_position % s.m_baseSize ≠ 0) (hshort : s.m_size - s.m_position < s.m_baseSize) :
    s.writeToFile true = .error Fault.nullDeref := by
  obtain ⟨hb, hn, hcap, hc64, hpcap, hsc, htl, hcur⟩ := hwf
  have hptr : ∀ n ∈ s.nodes, n.ptr.length = s.m_baseSize := fun n hm => (hn n hm).2
  have hrs : s.getReadSize = s.m_size - s.m_position := getReadSize_eq s (by omega) (by omega)
  have hoff : s.m_position / s.m_baseSize * s.m_baseSize + s.m_position % s.m_baseSize =
      s.m_position := by
    rw [Nat.mul_comm]; exact Nat.div_add_mod _ _
  have hq : s.m_position / s.m_baseSize < s.nodes.length := by
    apply Nat.div_lt_of_lt_mul
    rw [← hcap]; omega
  have hrun := writeToFileLoop_stuck s hb31 hptr htl (by rw [← hcap]; exact hcap63)
    (s.nodes.length + 1) (s.m_position / s.m_baseSize) (s.m_position / s.m_baseSize)
    (s.m_position % s.m_baseSize) (s.m_size - s.m_position) [] (by omega) (Nat.mod_lt _ hb)
    (by omega) hshort hq (Nat.lt_succ_of_le (Nat.sub_le _ _))
  rw [hoff, ← hcur] at hrun
  unfold writeToFile
  rw [if_neg (by simp), hrs, toSigned_small _ (by omega), toSigned_small _ (by omega)]
  simp only [hrun, bind, Except.bind]

/-! ### The layout of the hexadecimal dump -/

/-- The group printed for one byte and the space after it. -/
theorem hexByte_group (c : Nat) :
    hexByte c ++ [' '] = [hexDigit (c % 256 / 16), hexDigit (c % 16), ' '] := by
  have hmod : c % 256 % 16 = c % 16 := Nat.mod_mod_of_dvd c (by decide)
  unfold hexByte
  by_cases h : c % 256 < 16
  · simp only [h, if_true]
    have h0 : c % 256 / 16 = 0 := Nat.div_eq_of_lt h
    have hv : c % 256 = c % 16 := by rw [← hmod, Nat.mod_eq_of_lt h]
    rw [h0, hv]
    rfl
  · simp only [h, if_false, hmod]
    rfl

/-- What the loop has printed so far is a prefix of its result. -/
theorem toHexStringLoop_acc : ∀ (str : List Nat) (i : Nat) (ss : List Char),
    toHexStringLoop str i ss = ss ++ toHexStringLoop str i [] := by
  intro str
  induction str with
  | nil => intro i ss; simp [toHexStringLoop]
  | cons c rest ih =>
    intro i ss
    unfold toHexStringLoop
    by_cases h : i > 0 ∧ i % 32 = 0
    · simp only [h, and_self, if_true]
      rw [ih (i + 1) (ss ++ [Char.ofNat 10] ++ hexByte c ++ [' ']),
        ih (i + 1) ([] ++ [Char.ofNat 10] ++ hexByte c ++ [' '])]
      simp only [List.nil_append, List.append_assoc]
    · simp only [h, if_false]
      rw [ih (i + 1) (ss ++ hexByte c ++ [' ']), ih (i + 1) ([] ++ hexByte c ++ [' '])]
      simp only [List.nil_append, List.append_assoc]

/-- One iteration of the loop. -/
theorem toHexStringLoop_cons (c : Nat) (rest : List Nat) (i : Nat) (ss : List Char) :
    toHexStringLoop (c :: rest) i ss =
      toHexStringLoop rest (i + 1)
        ((if i > 0 ∧ i % 32 = 0 then ss ++ [Char.ofNat 10] else ss) ++ hexByte c ++ [' ']) :=
  rfl

/-- Within one line (indices below 32) the loop prints the groups one after the other. -/
theorem toHexStringLoop_line : ∀ (line rest : List Nat) (i : Nat), i + line.length ≤ 32 →
    toHexStringLoop (line ++ rest) i [] =
      hexGroups line ++ toHexStringLoop rest (i + line.length) [] := by
  intro line
  induction line with
  | nil => intro rest i _; simp [hexGroups]
  | cons c cs ih =>
    intro rest i hi
    simp only [List.length_cons] at hi
    have hcond : ¬ (i > 0 ∧ i % 32 = 0) := by
      intro ⟨h1, h2⟩
      rw [Nat.mod_eq_of_lt (by omega)] at h2
      omega
    rw [List.cons_append, toHexStringLoop_cons, if_neg hcond, List.nil_append,
      toHexStringLoop_acc, ih rest (i + 1) (by omega), hexByte_group]
    have hidx : i + 1 + cs.length = i + (c :: cs).length := by
      rw [List.length_cons]; omega
    rw [hidx]
    simp only [hexGroups, List.map_cons, List.flatten_cons, List.append_assoc,
      List.cons_append, List.nil_append]

/-- From a positive index on, the line breaks repeat with period 32. -/
theorem toHexStringLoop_shift : ∀ (str : List Nat) (i : Nat) (ss : List Char), 0 < i →
    toHexStringLoop str (i + 32) ss = toHexStringLoop str i ss := by
  intro str
  induction str with
  | nil => intro i ss _; simp [toHexStringLoop]
  | cons c rest ih =>
    intro i ss hi
    have hcond : (i + 32 > 0 ∧ (i + 32) % 32 = 0) ↔ (i > 0 ∧ i % 32 = 0) := by
      rw [Nat.add_mod_right]
      constructor
      · intro h; exact ⟨hi, h.2⟩
      · intro h; exact ⟨by omega, h.2⟩
    unfold toHexStringLoop
    simp only [hcond]
    have h1 : i + 32 + 1 = (i + 1) + 32 := by omega
    rw [h1, ih (i + 1) _ (by omega)]

/-- After a full line of 32 groups the loop prints a line feed and goes on as from the
start, if any byte is left. -/
theorem toHexStringLoop_next_line (c : Nat) (rest : List Nat) :
    toHexStringLoop (c :: rest) 32 [] = [Char.ofNat 10] ++ toHexStringLoop (c :: rest) 0 [] := by
  have h32 : (32 > 0 ∧ 32 % 32 = 0) := by decide
  have h0 : ¬ (0 > 0 ∧ 0 % 32 = 0) := by decide
  rw [toHexStringLoop_cons, toHexStringLoop_cons, if_pos h32, if_neg h0]
  have h33 : 32 + 1 = 1 + 32 := rfl
  rw [h33, toHexStringLoop_shift rest 1 _ (by omega), toHexStringLoop_acc rest 1,
    toHexStringLoop_acc rest (0 + 1) ([] ++ hexByte c ++ [' '])]
  simp only [List.append_assoc, List.cons_append, List.nil_append, Nat.zero_add]

/-! ### The positional read over chunks that record their capacity -/

/-- The walk to the chunk of an offset: `k` steps from the root end at chunk `k`. -/
theorem advance_wf (s : ByteArray) : ∀ (k i : Nat), i + k < s.nodes.length →
    s.advance k (NodePtr.node i) = .ok (NodePtr.node (i + k)) := by
  intro k
  induction k with
  | zero => intro i _; rfl
  | succ k ih =>
    intro i hi
    unfold advance
    have hi1 : i + 1 < s.nodes.length := by omega
    simp only [ByteArray.next, hi1, if_true, bind, Except.bind]
    rw [ih (i + 1) (by omega)]
    have : i + 1 + k = i + (k + 1) := by omega
    rw [this]

/-- The loop of the positional read over chunks that record their capacity: started at
chunk `i`, in-chunk offset `npos`, with `len > 0` bytes that lie within the chain, it returns
the bytes stored at the logical offsets `[i * base + npos, i * base + npos + len)` and adds
`len` to the member `m_position`. -/
theorem readAtLoop_wf (base : Nat) (hb : 0 < base) :
    ∀ (fuel : Nat) (s : ByteArray) (i npos len : Nat) (out : List Nat),
      (∀ n ∈ s.nodes, n.size = base ∧ n.ptr.length = base) →
      base * s.nodes.length < 2 ^ 64 →
      i < s.nodes.length → npos < base → 0 < len →
      i * base + npos + len ≤ base * s.nodes.length →
      s.nodes.length - i < fuel →
      readAtLoop fuel s (NodePtr.node i) npos (base - npos) len out =
        .ok (out ++ (s.content.drop (i * base + npos)).take len,
             { s with m_position := (s.m_position + len) % 2 ^ 64 }) := by
  intro fuel
  induction fuel with
  | zero => intro s i npos len out _ _ _ _ _ _ hf; omega
  | succ fuel ih =>
    intro s i npos len out hn hb64 hi hnp hlen hfit hf
    have hget : s.nodes[i]? = some s.nodes[i] := List.getElem?_eq_getElem hi
    obtain ⟨hsz, hpl⟩ := hn _ (List.getElem_mem hi)
    have hptr : ∀ n ∈ s.nodes, n.ptr.length = base := fun n hm => (hn n hm).2
    have hdrop := flatten_drop_chunk base s.nodes i npos hptr hi (by omega)
    have hdl : (s.nodes[i].ptr.drop npos).length = base - npos := by
      rw [List.length_drop, hpl]
    have hderef : s.deref (NodePtr.node i) = .ok s.nodes[i] := by
      simp [deref, hget]
    have hlen64 : len < 2 ^ 64 := by omega
    unfold readAtLoop
    rw [if_pos hlen]
    by_cases hc : base - npos ≥ len
    · rw [if_pos hc]
      have hmc : s.memcpyFrom (NodePtr.node i) npos len =
          .ok ((s.nodes[i].ptr.drop npos).take len) := by
        simp only [memcpyFrom, hderef, bind, Except.bind, pure, Except.pure]
        rw [if_pos (by omega)]
      have hbytes : (s.content.drop (i * base + npos)).take len =
          (s.nodes[i].ptr.drop npos).take len := by
        unfold content
        rw [hdrop, List.take_append_of_le_length (by rw [hdl]; omega)]
      simp only [hmc, bind, Except.bind, pure, Except.pure, hbytes, addU]
    · rw [if_neg hc]
      have hmc : s.memcpyFrom (NodePtr.node i) npos (base - npos) =
          .ok (s.nodes[i].ptr.drop npos) := by
        simp only [memcpyFrom, hderef, bind, Except.bind, pure, Except.pure]
        rw [if_pos (by omega), List.take_of_length_le (by rw [hdl])]
      have hmul : (i + 1) * base = i * base + base := by rw [Nat.add_mul, Nat.one_mul]
      have hi1 : i + 1 < s.nodes.length := by
        by_contra hcon
        have hle : s.nodes.length ≤ i + 1 := by omega
        have : base * s.nodes.length ≤ base * (i + 1) := Nat.mul_le_mul_left _ hle
        rw [Nat.mul_comm base (i + 1), hmul] at this
        omega
      have hget1 : s.nodes[i + 1]? = some s.nodes[i + 1] := List.getElem?_eq_getElem hi1
      obtain ⟨hsz1, _⟩ := hn _ (List.getElem_mem hi1)
      have hsub : subU 64 len (base - npos) = len - (base - npos) := by
        unfold subU negU
        simp only [Nat.reducePow] at hlen64 ⊢
        omega
      have hrec := ih { s with m_position := addU 64 s.m_position (base - npos) }
        (i + 1) 0 (len - (base - npos)) (out ++ s.nodes[i].ptr.drop npos)
        hn hb64 hi1 hb (by omega)
        (by show (i + 1) * base + 0 + (len - (base - npos)) ≤ base * s.nodes.length
            rw [hmul]; omega)
        (by show s.nodes.length - (i + 1) < fuel; omega)
      rw [Nat.sub_zero] at hrec
      simp only [hmc, bind, Except.bind, ByteArray.next, hi1, if_true, deref, hget1, hsz1, hsub]
      rw [hrec]
      have hcont : ∀ (p : Nat), ByteArray.content { s with m_position := p } = s.content :=
        fun _ => rfl
      have hpos : (addU 64 s.m_position (base - npos) + (len - (base - npos))) % 2 ^ 64 =
          (s.m_position + len) % 2 ^ 64 := by
        unfold addU
        simp only [Nat.reducePow]
        omega
      have hbytes : (s.content.drop (i * base + npos)).take len =
          s.nodes[i].ptr.drop npos ++
            (s.content.drop ((i + 1) * base)).take (len - (base - npos)) := by
        unfold content
        rw [hdrop]
        have hl : len = (s.nodes[i].ptr.drop npos).length + (len - (base - npos)) := by
          rw [hdl]; omega
        conv_lhs => rw [hl, List.take_append]
      simp only [hcont, hpos, Nat.add_zero, hbytes, List.append_assoc]

/-- The positional read on a buffer that satisfies the data-model invariants: for a range
`[position, position + len)` within `size` that starts on a chunk, the call returns the bytes
stored there; it leaves `m_cur` alone but adds `len` to the member `m_position`. -/
theorem readAt_wf (s : ByteArray) (len position : Nat) (hwf : s.WF)
    (hfit : position + len ≤ s.m_size) (hpc : position < s.m_capacity) :
    s.readAt len position =
      .ok ((s.content.drop position).take len,
           { s with m_position := (s.m_position + len) % 2 ^ 64 }) := by
  obtain ⟨hb, hn, hcap, hc64, hpcap, hsc, htl, hcur⟩ := hwf
  have hguard : ¬ len > subU 64 s.m_size position := by
    unfold subU negU
    simp only [Nat.reducePow] at hc64 ⊢
    omega
  have hq : position / s.m_baseSize < s.nodes.length := by
    apply Nat.div_lt_of_lt_mul
    rw [← hcap]; exact hpc
  have hr : position % s.m_baseSize < s.m_baseSize := Nat.mod_lt _ hb
  have hget : s.nodes[position / s.m_baseSize]? =
      some (s.nodes[position / s.m_baseSize]) := List.getElem?_eq_getElem hq
  obtain ⟨hns, _⟩ := hn _ (List.getElem_mem hq)
  have hbcap : s.m_baseSize ≤ s.m_capacity := by
    rw [hcap]; exact Nat.le_mul_of_pos_right _ (Nat.lt_of_le_of_lt (Nat.zero_le _) hq)
  have hncap : subU 64 s.m_baseSize (position % s.m_baseSize) =
      s.m_baseSize - position % s.m_baseSize := by
    unfold subU negU
    simp only [Nat.reducePow] at hc64 ⊢
    omega
  have hoff : position / s.m_baseSize * s.m_baseSize + position % s.m_baseSize = position := by
    rw [Nat.mul_comm]; exact Nat.div_add_mod _ _
  have hadv := advance_wf s (position / s.m_baseSize) 0 (by omega)
  rw [Nat.zero_add] at hadv
  unfold readAt
  rw [if_neg hguard, if_neg (by omega)]
  simp only [hadv, deref, hget, bind, Except.bind, hns, hncap]
  rcases Nat.eq_zero_or_pos len with hz | hz
  · subst hz
    have hp : (s.m_position + 0) % 2 ^ 64 = s.m_position := by
      simp only [Nat.reducePow] at hc64 ⊢
      omega
    simp only [readAtLoop, Nat.lt_irrefl, if_false, pure, Except.pure, List.take_zero, hp]
  · have hrun := readAtLoop_wf s.m_baseSize hb (s.nodes.length + 1) s (position / s.m_baseSize)
      (position % s.m_baseSize) len [] hn (by rw [← hcap]; exact hc64) hq hr hz
      (by rw [hoff, ← hcap]; omega) (Nat.lt_succ_of_le (Nat.sub_le _ _))
    rw [hoff] at hrun
    rw [hrun, List.nil_append]

/-- The call `toString()` on a buffer that satisfies the data-model invariants, with
`position ≤ size` and no more readable bytes than a string can hold: the string returned
holds the bytes at the offsets `[position, size)`, and the object is left with
`m_position = m_size`. -/
theorem toString_wf (s : ByteArray) (hwf : s.WF) (hps : s.m_position ≤ s.m_size)
    (hmax : s.m_size - s.m_position ≤ stringMaxSize) :
    s.toString =
      .ok ((s.content.drop s.m_position).take (s.m_size - s.m_position),
           { s with m_position := s.m_size }) := by
  have hwf' := hwf
  obtain ⟨hb, hn, hcap, hc64, hpcap, hsc, htl, hcur⟩ := hwf
  have hrs : s.getReadSize = s.m_size - s.m_position := getReadSize_eq s hps (by omega)
  rw [toString_eq, hrs, if_neg (Nat.not_lt.mpr hmax)]
  by_cases hz : s.m_size - s.m_position = 0
  · rw [if_pos hz, hz, List.take_zero]
    have hp : s.m_size = s.m_position := by omega
    have he : ({ s with m_position := s.m_size } : ByteArray) =
        { s with m_position := s.m_position } := by rw [hp]
    rw [he]
  · rw [if_neg hz, readAt_wf s _ _ hwf' (by omega) (by omega)]
    have hp : (s.m_position + (s.m_size - s.m_position)) % 2 ^ 64 = s.m_size := by
      simp only [Nat.reducePow] at hc64 ⊢
      omega
    rw [hp]

/-- Every `toString()` that returns a string which is not empty has moved the cursor offset
to `size` (for `position ≤ size`), so that the next call returns the empty string. -/
theorem toString_moves_position (s : ByteArray) (str : List Nat) (s' : ByteArray)
    (hps : s.m_position < s.m_size) (hsz : s.m_size < 2 ^ 64)
    (h : s.toString = .ok (str, s')) :
    s'.m_position = s.m_size ∧ s'.m_size = s.m_size ∧ s'.toString = .ok ([], s') := by
  have hrs : s.getReadSize = s.m_size - s.m_position := getReadSize_eq s (by omega) hsz
  rw [toString_eq, hrs] at h
  split at h
  · cases h
  rw [if_neg (by omega)] at h
  obtain ⟨_, hp, _, _, hs, _⟩ := readAt_frame s _ _ str s' h
  have hpos : s'.m_position = s.m_size := by
    rw [hp (by omega)]
    simp only [Nat.reducePow] at hsz ⊢
    omega
  refine ⟨hpos, hs, ?_⟩
  have hrs' : s'.getReadSize = 0 := by
    rw [getReadSize_eq s' (by omega) (by omega)]
    omega
  rw [toString_eq, hrs', if_neg (by decide), if_pos rfl]

/-! ### Length prefixes: what the prefix read leaves of the readable range -/

/-- A fixed-width read of `n` bytes that returns in a state with `position ≤ size` has
advanced the position by `n` and left `position ≤ size`. -/
theorem readFixed_position (s : ByteArray) (native : Endian) (n v : Nat) (s' : ByteArray)
    (hps : s.m_position ≤ s.m_size) (hsz : s.m_size < 2 ^ 64)
    (h : s.readFixed native n = .ok (v, s')) :
    s'.m_position = s.m_position + n ∧ s'.m_size = s.m_size ∧ s'.m_position ≤ s'.m_size := by
  unfold readFixed at h
  obtain ⟨r, hr, h⟩ := bind_eq_ok h
  obtain ⟨bytes, s1⟩ := r
  simp only [pure, Except.pure, Except.ok.injEq, Prod.mk.injEq] at h
  obtain ⟨_, hs⟩ := h
  subst hs
  exact read_position s n bytes s1 hps hsz hr

theorem readFuint8_keeps (s : ByteArray) (b : Nat) (s' : ByteArray)
    (hps : s.m_position ≤ s.m_size) (hsz : s.m_size < 2 ^ 64)
    (h : s.readFuint8 = .ok (b, s')) :
    s'.m_position = s.m_position + 1 ∧ s'.m_size = s.m_size ∧ s'.m_position ≤ s'.m_size := by
  unfold readFuint8 at h
  obtain ⟨r, hr, h⟩ := bind_eq_ok h
  obtain ⟨bytes, s1⟩ := r
  simp only [pure, Except.pure, Except.ok.injEq, Prod.mk.injEq] at h
  obtain ⟨_, hs⟩ := h
  subst hs
  exact read_position s 1 bytes s1 hps hsz hr

/-- A varint decode that returns in a state with `position ≤ size` leaves `size` alone and
`position ≤ size`. -/
theorem readVarintLoop_keeps (w : Nat) : ∀ (fuel i result : Nat) (s : ByteArray) (r : Nat)
    (s' : ByteArray), s.m_position ≤ s.m_size → s.m_size < 2 ^ 64 →
    readVarintLoop w fuel i result s = .ok (r, s') →
    s'.m_size = s.m_size ∧ s'.m_position ≤ s'.m_size := by
  intro fuel
  induction fuel with
  | zero => intro i result s r s' _ _ h; cases h
  | succ fuel ih =>
    intro i result s r s' hps hsz h
    unfold readVarintLoop at h
    by_cases hi : i < 32
    · rw [if_pos hi] at h
      obtain ⟨p, hp, h⟩ := bind_eq_ok h
      obtain ⟨b, s1⟩ := p
      obtain ⟨_, hs1, hps1⟩ := readFuint8_keeps s b s1 hps hsz hp
      simp only at h
      split at h
      · simp only [pure, Except.pure, Except.ok.injEq, Prod.mk.injEq] at h
        obtain ⟨_, hs⟩ := h
        subst hs
        exact ⟨hs1, hps1⟩
      · obtain ⟨h1, h2⟩ := ih _ _ _ _ _ hps1 (by rw [hs1]; exact hsz) h
        exact ⟨by rw [h1, hs1], h2⟩
    · rw [if_neg hi] at h
      simp only [pure, Except.pure, Except.ok.injEq, Prod.mk.injEq] at h
      obtain ⟨_, hs⟩ := h
      subst hs
      exact ⟨rfl, hps⟩

/-- After a length prefix was read in a state with `position ≤ size`, the read of the
payload throws exactly when the length exceeds `size − position`. -/
theorem payload_read_throws (s1 : ByteArray) (len : Nat) (hps : s1.m_position ≤ s1.m_size)
    (hsz : s1.m_size < 2 ^ 64) (hgt : len > s1.m_size - s1.m_position) :
    s1.read len = .error Fault.outOfRange := by
  rw [read_throws_iff, getReadSize_eq s1 hps hsz]
  exact hgt

/-! ### What the positional read and `toString` leave alone -/

/-- The loop of the positional read changes no member but `m_position`. -/
theorem readAtLoop_only_position : ∀ (fuel : Nat) (s : ByteArray) (cur : NodePtr)
    (npos ncap size : Nat) (out r : List Nat) (s' : ByteArray),
    readAtLoop fuel s cur npos ncap size out = .ok (r, s') →
    s' = { s with m_position := s'.m_position } := by
  intro fuel
  induction fuel with
  | zero => intro s cur npos ncap size out r s' h; cases h
  | succ fuel ih =>
    intro s cur npos ncap size out r s' h
    unfold readAtLoop at h
    by_cases hs : size > 0
    · rw [if_pos hs] at h
      by_cases hc : ncap ≥ size
      · rw [if_pos hc] at h
        obtain ⟨bytes, _, h⟩ := bind_eq_ok h
        cases h
        rfl
      · rw [if_neg hc] at h
        obtain ⟨bytes, _, h⟩ := bind_eq_ok h
        obtain ⟨nx, _, h⟩ := bind_eq_ok h
        obtain ⟨n, _, h⟩ := bind_eq_ok h
        have hrest := ih _ _ _ _ _ _ _ _ h
        rw [hrest]
    · rw [if_neg hs] at h
      cases h
      rfl

theorem readAt_only_position (s : ByteArray) (size position : Nat) (r : List Nat)
    (s' : ByteArray) (h : s.readAt size position = .ok (r, s')) :
    s' = { s with m_position := s'.m_position } := by
  unfold readAt at h
  split at h
  · cases h
  · split at h
    · cases h
    · obtain ⟨cur, _, h⟩ := bind_eq_ok h
      obtain ⟨n, _, h⟩ := bind_eq_ok h
      exact readAtLoop_only_position _ _ _ _ _ _ _ _ _ h

theorem toString_only_position (s : ByteArray) (r : List Nat) (s' : ByteArray)
    (h : s.toString = .ok (r, s')) : s' = { s with m_position := s'.m_position } := by
  rw [toString_eq] at h
  split at h
  · cases h
  · split at h
    · cases h
      rfl
    · exact readAt_only_position _ _ _ _ _ h

theorem readAt_shape (s : ByteArray) (size position : Nat) (r : List Nat) (s' : ByteArray)
    (h : s.readAt size position = .ok (r, s'))
    (hinv : s.m_capacity = (s.m_baseSize * s.nodes.length) % 2 ^ 64) (hne : 0 < s.nodes.length) :
    s'.m_baseSize = s.m_baseSize ∧
    s'.m_capacity = (s'.m_baseSize * s'.nodes.length) % 2 ^ 64 ∧ 0 < s'.nodes.length := by
  rw [readAt_only_position s size position r s' h]
  exact ⟨rfl, hinv, hne⟩

theorem toString_shape (s : ByteArray) (r : List Nat) (s' : ByteArray)
    (h : s.toString = .ok (r, s'))
    (hinv : s.m_capacity = (s.m_baseSize * s.nodes.length) % 2 ^ 64) (hne : 0 < s.nodes.length) :
    s'.m_baseSize = s.m_baseSize ∧
    s'.m_capacity = (s'.m_baseSize * s'.nodes.length) % 2 ^ 64 ∧ 0 < s'.nodes.length := by
  rw [toString_only_position s r s' h]
  exact ⟨rfl, hinv, hne⟩

/-! ### Capacity and chunk count along sequences of calls -/

/-- A store into a chunk leaves the number of chunks alone. -/
theorem memcpyTo_length (s s1 : ByteArray) (p : NodePtr) (npos : Nat) (src : List Nat)
    (h : s.memcpyTo p npos src = .ok s1) : s1.nodes.length = s.nodes.length := by
  cases p with
  | null => cases h
  | dangling => cases h
  | node i =>
    simp only [memcpyTo] at h
    split at h
    · cases h
    · split at h
      · cases h
        exact List.length_set _ _ _
      · cases h

/-- The loop of `write` leaves `m_baseSize`, `m_capacity` and the number of chunks alone. -/
theorem writeLoop_shape (buf : List Nat) : ∀ (fuel : Nat) (s : ByteArray)
    (npos ncap bpos size : Nat) (s' : ByteArray),
    writeLoop buf fuel s npos ncap bpos size = .ok s' →
    s'.m_baseSize = s.m_baseSize ∧ s'.m_capacity = s.m_capacity ∧
    s'.nodes.length = s.nodes.length := by
  intro fuel
  induction fuel with
  | zero => intro s npos ncap bpos size s' h; cases h
  | succ fuel ih =>
    intro s npos ncap bpos size s' h
    unfold writeLoop at h
    by_cases hs : size > 0
    · rw [if_pos hs] at h
      by_cases hc : ncap ≥ size
      · rw [if_pos hc] at h
        split at h
        · cases h
        · obtain ⟨s1, hs1, h⟩ := bind_eq_ok h
          obtain ⟨_, _, hc1, hb1⟩ := memcpyTo_frame _ _ _ _ _ hs1
          have hl1 := memcpyTo_length _ _ _ _ _ hs1
          obtain ⟨cur, _, h⟩ := bind_eq_ok h
          obtain ⟨s2, hs2, h⟩ := bind_eq_ok h
          cases h
          have h2 : s2.m_baseSize = s1.m_baseSize ∧ s2.m_capacity = s1.m_capacity ∧
              s2.nodes.length = s1.nodes.length := by
            split at hs2
            · obtain ⟨nx, _, hs2⟩ := bind_eq_ok hs2
              cases hs2
              exact ⟨rfl, rfl, rfl⟩
            · cases hs2
              exact ⟨rfl, rfl, rfl⟩
          refine ⟨?_, ?_, ?_⟩
          · show s2.m_baseSize = _
            rw [h2.1, hb1]
          · show s2.m_capacity = _
            rw [h2.2.1, hc1]
          · show s2.nodes.length = _
            rw [h2.2.2, hl1]
      · rw [if_neg hc] at h
        split at h
        · cases h
        · obtain ⟨s1, hs1, h⟩ := bind_eq_ok h
          obtain ⟨_, _, hc1, hb1⟩ := memcpyTo_frame _ _ _ _ _ hs1
          have hl1 := memcpyTo_length _ _ _ _ _ hs1
          obtain ⟨nx, _, h⟩ := bind_eq_ok h
          obtain ⟨cur, _, h⟩ := bind_eq_ok h
          obtain ⟨hb2, hc2, hl2⟩ := ih _ _ _ _ _ _ h
          exact ⟨by rw [hb2]; exact hb1, by rw [hc2]; exact hc1, by rw [hl2]; exact hl1⟩
    · rw [if_neg hs] at h
      cases h
      exact ⟨rfl, rfl, rfl⟩

/-- The relation between capacity and chunk count that the constructor sets up and every
member function keeps: `m_capacity = m_baseSize × chunk count` in 64-bit arithmetic, with at
least the root chunk in the chain. -/
theorem addCapacity_capacity (s s1 : ByteArray) (size : Nat) (h : s.addCapacity size = .ok s1)
    (hinv : s.m_capacity = (s.m_baseSize * s.nodes.length) % 2 ^ 64) (hne : 0 < s.nodes.length) :
    s1.m_baseSize = s.m_baseSize ∧
    s1.m_capacity = (s1.m_baseSize * s1.nodes.length) % 2 ^ 64 ∧ 0 < s1.nodes.length := by
  simp only [addCapacity] at h
  split at h
  · cases h; exact ⟨rfl, hinv, hne⟩
  · split at h
    · cases h; exact ⟨rfl, hinv, hne⟩
    · split at h
      · cases h
      · split at h
        · cases h
        · split at h
          · cases h
          · have key : ∀ count : Nat,
                addU 64 s.m_capacity (count * s.m_baseSize) =
                  (s.m_baseSize * (s.nodes ++ List.replicate count (Node.ctor s.m_baseSize)).length)
                    % 2 ^ 64 := by
              intro count
              rw [List.length_append, List.length_replicate, Nat.mul_add, hinv,
                Nat.mul_comm count s.m_baseSize]
              unfold addU
              simp only [Nat.reducePow]
              omega
            have hpos : ∀ count : Nat,
                0 < (s.nodes ++ List.replicate count (Node.ctor s.m_baseSize)).length := by
              intro count
              rw [List.length_append]
              omega
            split at h
            · cases h
              exact ⟨rfl, key _, hpos _⟩
            · cases h
              exact ⟨rfl, key _, hpos _⟩

/-- Every member function that returns keeps `m_baseSize` and the relation
`m_capacity = m_baseSize × chunk count` (in 64-bit arithmetic), with at least the root chunk
in the chain. -/
theorem apply_capacity (s s' : ByteArray) (c : Call) (h : c.apply s = .ok s')
    (hb64 : s.m_baseSize < 2 ^ 64)
    (hinv : s.m_capacity = (s.m_baseSize * s.nodes.length) % 2 ^ 64) (hne : 0 < s.nodes.length) :
    s'.m_baseSize = s.m_baseSize ∧
    s'.m_capacity = (s'.m_baseSize * s'.nodes.length) % 2 ^ 64 ∧ 0 < s'.nodes.length := by
  cases c with
  | setPosition v =>
    simp only [Call.apply, setPosition] at h
    split at h
    · cases h
    · obtain ⟨cur, _, h⟩ := bind_eq_ok h
      cases h
      split <;> exact ⟨rfl, hinv, hne⟩
  | write buf =>
    simp only [Call.apply] at h
    unfold write at h
    obtain ⟨s1, hs1, h⟩ := bind_eq_ok h
    obtain ⟨hb1, hinv1, hne1⟩ := addCapacity_capacity s s1 _ hs1 hinv hne
    split at h
    · cases h
    · obtain ⟨cur, _, h⟩ := bind_eq_ok h
      obtain ⟨s2, hs2, h⟩ := bind_eq_ok h
      obtain ⟨hb2, hc2, hl2⟩ := writeLoop_shape _ _ _ _ _ _ _ _ hs2
      cases h
      have h2 : s2.m_baseSize = s.m_baseSize ∧
          s2.m_capacity = (s2.m_baseSize * s2.nodes.length) % 2 ^ 64 ∧ 0 < s2.nodes.length :=
        ⟨by rw [hb2, hb1], by rw [hc2, hb2, hl2]; exact hinv1, by rw [hl2]; exact hne1⟩
      split <;> exact h2
  | read size =>
    simp only [Call.apply] at h
    cases hr : s.read size with
    | error e => rw [hr] at h; cases h
    | ok r =>
      rw [hr] at h
      obtain ⟨bytes, s1⟩ := r
      simp only [Except.map, Except.ok.injEq] at h
      subst h
      obtain ⟨_, _, _, hrest⟩ := read_frame s size bytes s1 hr
      rw [hrest]
      exact ⟨rfl, hinv, hne⟩
  | readAt size position =>
    simp only [Call.apply] at h
    cases hr : s.readAt size position with
    | error e => rw [hr] at h; cases h
    | ok r =>
      rw [hr] at h
      obtain ⟨bytes, s1⟩ := r
      simp only [Except.map, Except.ok.injEq] at h
      subst h
      exact readAt_shape s size position bytes s1 hr hinv hne
  | toString =>
    simp only [Call.apply] at h
    cases hr : s.toString with
    | error e => rw [hr] at h; cases h
    | ok r =>
      rw [hr] at h
      obtain ⟨bytes, s1⟩ := r
      simp only [Except.map, Except.ok.injEq] at h
      subst h
      exact toString_shape s bytes s1 hr hinv hne
  | toHexString =>
    simp only [Call.apply] at h
    cases hr : s.toString with
    | error e => rw [hr] at h; cases h
    | ok r =>
      rw [hr] at h
      obtain ⟨bytes, s1⟩ := r
      simp only [Except.map, Except.ok.injEq] at h
      subst h
      exact toString_shape s bytes s1 hr hinv hne
  | addCapacity size => exact addCapacity_capacity s s' size h hinv hne
  | clear =>
    obtain ⟨_, _, hc, _, hl, _, hb, _, _⟩ := clear_frame s s' h
    refine ⟨hb, ?_, by rw [hl]; exact Nat.one_pos⟩
    rw [hc, hb, hl, Nat.mul_one, Nat.mod_eq_of_lt hb64]

/-- Along every sequence of calls, from a state in which `m_capacity = m_baseSize × chunk
count` (in 64-bit arithmetic) and the chain holds the root chunk, every state reached has
the same `m_baseSize` and satisfies the same relation. -/
theorem reached_capacity : ∀ (calls : List Call) (s : ByteArray), s.m_baseSize < 2 ^ 64 →
    s.m_capacity = (s.m_baseSize * s.nodes.length) % 2 ^ 64 → 0 < s.nodes.length →
    ∀ t ∈ reached s calls, t.m_baseSize = s.m_baseSize ∧
      t.m_capacity = (t.m_baseSize * t.nodes.length) % 2 ^ 64 ∧ 0 < t.nodes.length := by
  intro calls
  induction calls with
  | nil => intro s _ _ _ t ht; simp [reached] at ht
  | cons c cs ih =>
    intro s hb64 hinv hne t ht
    cases hca : c.apply s with
    | ok s1 =>
      obtain ⟨hb1, hinv1, hne1⟩ := apply_capacity s s1 c hca hb64 hinv hne
      simp only [reached, hca, List.mem_cons] at ht
      rcases ht with ht | ht
      · subst ht
        exact ⟨hb1, hinv1, hne1⟩
      · obtain ⟨h1, h2, h3⟩ := ih s1 (by rw [hb1]; exact hb64) hinv1 hne1 t ht
        exact ⟨by rw [h1, hb1], h2, h3⟩
    | error e =>
      cases e with
      | outOfRange =>
        simp only [reached, hca, List.mem_cons] at ht
        rcases ht with ht | ht
        · subst ht
          exact ⟨rfl, hinv, hne⟩
        · exact ih s hb64 hinv hne t ht
      | lengthError =>
        simp only [reached, hca, List.mem_cons] at ht
        rcases ht with ht | ht
        · subst ht
          exact ⟨rfl, hinv, hne⟩
        · exact ih s hb64 hinv hne t ht
      | nullDeref => simp [reached, hca] at ht
      | danglingDeref => simp [reached, hca] at ht
      | overrun => simp [reached, hca] at ht
      | divByZero => simp [reached, hca] at ht
      | outOfFuel => simp [reached, hca] at ht

/-- Setting the byte order changes neither the capacity nor the chain. -/
theorem setIsLittleEndian_capacity (s : ByteArray) (val : Bool) :
    (s.setIsLittleEndian val).m_baseSize = s.m_baseSize ∧
    (s.setIsLittleEndian val).m_capacity = s.m_capacity ∧
    (s.setIsLittleEndian val).nodes = s.nodes := by
  unfold setIsLittleEndian
  split <;> exact ⟨rfl, rfl, rfl⟩

/-! ### Claims C21–C30 -/

/-- The guard of the cursor-relative `read(len)` where the subtraction does not wrap: in a
state with `position ≤ size` the call throws `std::out_of_range` if and only if
`len > size − position`. The throw is the first statement of the function (the copy loop
never throws), so a call that throws leaves position, size, capacity and `m_cur` as they
were. -/
theorem read_throws_iff_short (s : ByteArray) (len : Nat) (hps : s.m_position ≤ s.m_size)
    (hsz : s.m_size < 2 ^ 64) :
    (s.read len = .error Fault.outOfRange ↔ len > s.m_size - s.m_position) ∧
    (len > s.m_size - s.m_position → reached s [Call.read len] = [s]) ∧
    (∀ (fuel : Nat) (t : ByteArray) (npos ncap size : Nat) (out : List Nat),
      readLoop fuel t npos ncap size out ≠ .error Fault.outOfRange) := by
  have hiff : s.read len = .error Fault.outOfRange ↔ len > s.m_size - s.m_position := by
    rw [read_throws_iff, getReadSize_eq s hps hsz]
  refine ⟨hiff, ?_, readLoop_ne_outOfRange⟩
  intro hgt
  have hthrow := hiff.mpr hgt
  simp only [reached, Call.apply, hthrow, Except.map]

/-- C21 (fails on the code): after `ByteArray ba(4); ba.read(buf, 1, 1);` the buffer has
`position = 1` and `size = 0`, so that `len = 1` exceeds `size − position = −1`; the guard of
`read` compares against `getReadSize()`, the difference in unsigned 64-bit arithmetic
(`2^64 − 1`), and `ba.read(buf, 1)` returns one byte and leaves `position = 2`. -/
theorem read_returns_beyond_size :
    ∃ s : ByteArray,
      ((ByteArray.ctor 4).readAt 1 1).map Prod.snd = .ok s ∧
      s.m_position = 1 ∧ s.m_size = 0 ∧
      (s.m_size : Int) - (s.m_position : Int) < 1 ∧
      s.getReadSize = 2 ^ 64 - 1 ∧
      s.read 1 = .ok ([0], { s with m_position := 2 }) ∧
      reached (ByteArray.ctor 4) [Call.readAt 1 1, Call.read 1] =
        [s, { s with m_position := 2 }] :=
  ⟨asBuilt 4 [[0, 0, 0, 0]] 0 1 (NodePtr.node 0), by decide⟩

/-- The cursor-relative `read` on the design-intended states: on a buffer whose chunks
record their capacity (the data-model invariants), with `position ≤ size`, every
`read(len)` that returns has returned the `len` bytes stored at the offsets
`[position, position + len)`, whatever chunk boundaries the range crosses, advanced
`position` by exactly `len` and left `size` and the chunks alone; and the call does return
whenever `len ≤ size − position` and the cursor is on a chunk (`position < capacity`). -/
theorem read_returns_stored_bytes (s : ByteArray) (len : Nat) (hwf : s.WF)
    (hps : s.m_position ≤ s.m_size) :
    (∀ (bytes : List Nat) (s' : ByteArray), s.read len = .ok (bytes, s') →
      bytes = (s.content.drop s.m_position).take len ∧ bytes.length = len ∧
      s.Holds s.m_position bytes ∧
      s'.m_position = s.m_position + len ∧ s'.m_size = s.m_size ∧ s'.nodes = s.nodes ∧
      s'.WF) ∧
    (len ≤ s.m_size - s.m_position → s.m_position < s.m_capacity →
      ∃ (bytes : List Nat) (s' : ByteArray), s.read len = .ok (bytes, s')) := by
  have hwf' := hwf
  obtain ⟨hb, hn, hcap, hc64, hpcap, hsc, htl, hcur⟩ := hwf
  have hptr : ∀ n ∈ s.nodes, n.ptr.length = s.m_baseSize := fun n hm => (hn n hm).2
  constructor
  · intro bytes s' h
    obtain ⟨hle, _, _, _⟩ := read_frame s len bytes s' h
    have hle' := hle
    rw [getReadSize_eq s hps (by omega)] at hle'
    have hpc : s.m_position < s.m_capacity := by
      by_contra hcon
      have hpe : s.m_position = s.m_capacity := by omega
      rw [read_at_capacity s len hwf' hpe hle] at h
      cases h
    rw [read_wf s len hwf' hps hle' hpc] at h
    simp only [Except.ok.injEq, Prod.mk.injEq] at h
    obtain ⟨hbytes, hstate⟩ := h
    refine ⟨hbytes.symm, ?_, ?_, ?_, ?_, ?_, ?_⟩
    · rw [← hbytes, List.length_take, List.length_drop]
      unfold content
      rw [flatten_length s.m_baseSize s.nodes hptr, ← hcap]
      omega
    · rw [← hbytes]
      exact holds_content s hb hptr _ _
    · rw [← hstate]
    · rw [← hstate]
    · rw [← hstate]
    · rw [← hstate]
      exact read_wf_state s len hwf' hps hle'
  · intro hle hpc
    exact ⟨_, _, read_wf s len hwf' hps hle hpc⟩

/-- C22 (fails on the code): after `ByteArray ba(4); ba.read(buf, 1, 1);
ba.getWriteBuffers(v, 11); ba.write(b, 2); ba.setPosition(0); ba.read(buf, 1, 1);` with `b`
the bytes `09 09`, the buffer has `position = 1`, `size = 3` and holds `09 09` at the
offsets `[1, 3)`;
`read(buf, 2)` succeeds and returns the two bytes at the in-chunk offsets 1 and 2 of the
second chunk, where `setPosition(0)` has left `m_cur` (every chunk records `size = 0`). When
`07 07` is written at the offsets `[5, 7)` before (the position moved there by three
positional reads), the call returns `07 07`, the bytes at the offsets 5 and 6. On the buffer
with the same bytes whose chunks record their capacity the call returns `09 09`. -/
theorem read_copies_from_wrong_chunk :
    (∃ s : ByteArray,
      (do let r ← (ByteArray.ctor 4).readAt 1 1
          let w ← r.2.getWriteBuffers 11
          let s ← w.2.2.write [9, 9]
          let s ← s.setPosition 0
          let r ← s.readAt 1 1
          pure r.2) = .ok s ∧
      s.m_position = 1 ∧ s.m_size = 3 ∧ s.m_capacity = 12 ∧ s.m_cur = NodePtr.node 1 ∧
      s.Holds 1 [9, 9] ∧
      s.byteAt 5 = some 0 ∧ s.byteAt 6 = some 0 ∧
      s.read 2 = .ok ([0, 0], { s with m_position := 3 })) ∧
    (∃ s : ByteArray,
      (do let r ← (ByteArray.ctor 4).readAt 1 1
          let w ← r.2.getWriteBuffers 11
          let s ← w.2.2.write [9, 9]
          let s ← s.setPosition 0
          let r ← s.readAt 2 1
          let r ← r.2.readAt 2 1
          let r ← r.2.readAt 1 1
          let s ← r.2.write [7, 7]
          let s ← s.setPosition 0
          let r ← s.readAt 1 1
          pure r.2) = .ok s ∧
      s.m_position = 1 ∧ s.m_size = 7 ∧ s.m_capacity = 12 ∧ s.m_cur = NodePtr.node 1 ∧
      s.Holds 1 [9, 9] ∧ s.Holds 5 [7, 7] ∧
      s.read 2 = .ok ([7, 7], { s with m_position := 3 })) ∧
    (ofBlocks 4 [[0, 9, 9, 0], [0, 0, 0, 0], [0, 0, 0, 0]] 3 1).read 2 =
      .ok ([9, 9], ofBlocks 4 [[0, 9, 9, 0], [0, 0, 0, 0], [0, 0, 0, 0]] 3 3) :=
  ⟨⟨asBuilt 4 [[0, 9, 9, 0], [0, 0, 0, 0], [0, 0, 0, 0]] 3 1 (NodePtr.node 1),
    by decide⟩,
   ⟨asBuilt 4 [[0, 9, 9, 0], [0, 7, 7, 0], [0, 0, 0, 0]] 7 1 (NodePtr.node 1),
    by decide⟩,
   by decide⟩

/-- C23: in every state `setPosition(p)` throws `std::out_of_range` if and only if
`p > capacity`; the throw is the first statement of the function, so a call that throws
leaves the object as it was; every call that returns has set `position = p` and
`size = max(old size, p)`. On a buffer that satisfies the data-model invariants the call
returns for every `p ≤ capacity`. -/
theorem setPosition_throws_iff_beyond_capacity (s : ByteArray) (p : Nat) :
    (s.setPosition p = .error Fault.outOfRange ↔ p > s.m_capacity) ∧
    (p > s.m_capacity → reached s [Call.setPosition p] = [s]) ∧
    (∀ s' : ByteArray, s.setPosition p = .ok s' →
      s'.m_position = p ∧ s'.m_size = max s.m_size p) ∧
    (s.WF → s.nodes ≠ [] → p ≤ s.m_capacity →
      ∃ s' : ByteArray, s.setPosition p = .ok s' ∧ s'.WF) := by
  refine ⟨setPosition_throws_iff s p, ?_, ?_, ?_⟩
  · intro hgt
    have hthrow := (setPosition_throws_iff s p).mpr hgt
    simp only [reached, Call.apply, hthrow]
  · intro s' h
    obtain ⟨_, hp, hs, _⟩ := setPosition_frame s s' p h
    exact ⟨hp, hs⟩
  · intro hwf hroot hv
    exact ⟨_, setPosition_wf s p hwf hroot hv, setPosition_wf_state s p hwf hv⟩

/-- C23 on a two-chunk buffer of capacity 8 with `position = 1`, `size = 3`: `setPosition(9)`
throws and leaves the object as it was; `setPosition(6)` sets `position = 6`, `size = 6`;
`setPosition(2)` sets `position = 2` and leaves `size = 3`. -/
theorem setPosition_throws_iff_beyond_capacity_witness :
    (ofBlocks 4 [[1, 2, 3, 4], [5, 6, 7, 8]] 3 1).setPosition 9 = .error Fault.outOfRange ∧
    reached (ofBlocks 4 [[1, 2, 3, 4], [5, 6, 7, 8]] 3 1) [Call.setPosition 9] =
      [ofBlocks 4 [[1, 2, 3, 4], [5, 6, 7, 8]] 3 1] ∧
    ((ofBlocks 4 [[1, 2, 3, 4], [5, 6, 7, 8]] 6 6).m_position = 6 ∧
      (ofBlocks 4 [[1, 2, 3, 4], [5, 6, 7, 8]] 6 6).m_size =
        max (ofBlocks 4 [[1, 2, 3, 4], [5, 6, 7, 8]] 3 1).m_size 6) ∧
    ((ofBlocks 4 [[1, 2, 3, 4], [5, 6, 7, 8]] 3 2).m_position = 2 ∧
      (ofBlocks 4 [[1, 2, 3, 4], [5, 6, 7, 8]] 3 2).m_size =
        max (ofBlocks 4 [[1, 2, 3, 4], [5, 6, 7, 8]] 3 1).m_size 2) ∧
    (∃ s' : ByteArray, (ofBlocks 4 [[1, 2, 3, 4], [5, 6, 7, 8]] 3 1).setPosition 8 = .ok s' ∧
      s'.WF) :=
  ⟨(setPosition_throws_iff_beyond_capacity (ofBlocks 4 [[1, 2, 3, 4], [5, 6, 7, 8]] 3 1) 9).1.mpr
      (by decide),
   (setPosition_throws_iff_beyond_capacity (ofBlocks 4 [[1, 2, 3, 4], [5, 6, 7, 8]] 3 1) 9).2.1
      (by decide),
   (setPosition_throws_iff_beyond_capacity (ofBlocks 4 [[1, 2, 3, 4], [5, 6, 7, 8]] 3 1) 6).2.2.1
      (ofBlocks 4 [[1, 2, 3, 4], [5, 6, 7, 8]] 6 6) (by decide),
   (setPosition_throws_iff_beyond_capacity (ofBlocks 4 [[1, 2, 3, 4], [5, 6, 7, 8]] 3 1) 2).2.2.1
      (ofBlocks 4 [[1, 2, 3, 4], [5, 6, 7, 8]] 3 2) (by decide),
   (setPosition_throws_iff_beyond_capacity (ofBlocks 4 [[1, 2, 3, 4], [5, 6, 7, 8]] 3 1) 8).2.2.2
      (by decide) (by decide) (by decide)⟩

/-- C24 (fails on the code): after `clear` on a buffer of two chunks the root chunk still has
a successor reference, to the chunk just deleted (line 64 compares `m_root->next` with
`nullptr` instead of assigning it): the next growth of the chain walks into the deleted
chunk, and `setPosition(4)` leaves `m_cur` pointing at it. The same state is reached from
the freshly constructed buffer by `addCapacity(8)` and `clear()`. Position, size, capacity
and `m_cur` are reset as the claim says, and on a one-chunk buffer the whole claim holds. -/
theorem clear_keeps_stale_successor :
    (ofBlocks 4 [[1, 2, 3, 4], [5, 6, 7, 8]] 8 8).clear =
      .ok { ofBlocks 4 [[1, 2, 3, 4]] 0 0 with tailDangling := true } ∧
    ({ ofBlocks 4 [[1, 2, 3, 4]] 0 0 with tailDangling := true } : ByteArray).next
      (NodePtr.node 0) = .ok NodePtr.dangling ∧
    (do let s ← (ofBlocks 4 [[1, 2, 3, 4], [5, 6, 7, 8]] 8 8).clear
        s.write [1, 2, 3, 4, 5]) = .error Fault.danglingDeref ∧
    (do let s ← (ofBlocks 4 [[1, 2, 3, 4], [5, 6, 7, 8]] 8 8).clear
        let s ← s.setPosition 4
        pure s.m_cur) = .ok NodePtr.dangling ∧
    (reached (ByteArray.ctor 4) [Call.addCapacity 8, Call.clear]).map
        (fun t => (t.nodes.length, t.tailDangling, t.m_capacity)) =
      [(2, false, 8), (1, true, 4)] ∧
    (ofBlocks 4 [[1, 2, 3, 4]] 3 2).clear = .ok (ofBlocks 4 [[1, 2, 3, 4]] 0 0) ∧
    (ofBlocks 4 [[1, 2, 3, 4]] 0 0).next (NodePtr.node 0) = .ok NodePtr.null := by
  decide

/-- C25 (fails on the code): when the position is not chunk-aligned and fewer than
`chunkSize` bytes are readable, `writeToFile` does not return: line 521 takes
`min(read_size, m_baseSize) − diff` bytes instead of `min(read_size, m_baseSize − diff)`, so
`read_size` never reaches 0 and the walk runs off the chain (one chunk holding 3 bytes with
the cursor at 1; two chunks with the range `[5, 7)`, `[5, 8)` or `[2, 3)`). From an aligned
position, or with at least `chunkSize` readable bytes, the file receives the bytes at
`[position, size)`; on the freshly constructed buffer it receives nothing. Both cases are
proved for every buffer that satisfies the data-model invariants in `writeToFile_stuck` and
`writeToFile_wf`. -/
theorem writeToFile_short_unaligned_faults :
    (ofBlocks 4 [[1, 2, 3, 4]] 3 1).writeToFile true = .error Fault.nullDeref ∧
    (ofBlocks 4 [[1, 2, 3, 4], [5, 6, 7, 8]] 7 5).writeToFile true = .error Fault.nullDeref ∧
    (ofBlocks 4 [[1, 2, 3, 4], [5, 6, 7, 8]] 8 5).writeToFile true = .error Fault.nullDeref ∧
    (ofBlocks 4 [[1, 2, 3, 4], [5, 6, 7, 8]] 3 2).writeToFile true = .error Fault.nullDeref ∧
    (ofBlocks 4 [[1, 2, 3, 4], [5, 6, 7, 8]] 6 0).writeToFile true =
      .ok (true, [1, 2, 3, 4, 5, 6]) ∧
    (ofBlocks 4 [[1, 2, 3, 4], [5, 6, 7, 8]] 6 1).writeToFile true =
      .ok (true, [2, 3, 4, 5, 6]) ∧
    (ofBlocks 4 [[1, 2, 3, 4], [5, 6, 7, 8]] 6 4).writeToFile true = .ok (true, [5, 6]) ∧
    (ByteArray.ctor 4).writeToFile true = .ok (true, []) := by
  decide

/-- C26 (fails on the code): the file written from a one-chunk buffer holding
`01 02 03 04` has these four bytes, and `readFromFile` on the freshly constructed buffer
faults on it: the first `write` dereferences a null `m_cur`, so nothing is read back. On a
one-chunk buffer that records its capacity the reload also faults when the file has
`chunkSize` bytes or more; a file of 3 bytes is reloaded and read back by `read(buf, 3, 0)`. -/
theorem bulk_roundtrip_faults :
    (ofBlocks 4 [[1, 2, 3, 4]] 4 0).writeToFile true = .ok (true, [1, 2, 3, 4]) ∧
    (do let w ← (ofBlocks 4 [[1, 2, 3, 4]] 4 0).writeToFile true
        let r ← (ByteArray.ctor 4).readFromFile true w.2
        let b ← r.2.readAt r.2.m_size 0
        pure b.1) = .error Fault.nullDeref ∧
    (ByteArray.ctor 4).readFromFile true [1, 2, 3, 4] = .error Fault.nullDeref ∧
    (ByteArray.ctor 4).readFromFile true [1] = .error Fault.nullDeref ∧
    (ofBlocks 4 [[0, 0, 0, 0]] 0 0).readFromFile true [1, 2, 3, 4] = .error Fault.nullDeref ∧
    (ofBlocks 4 [[0, 0, 0, 0]] 0 0).readFromFile true [1, 2, 3, 4, 5] =
      .error Fault.nullDeref ∧
    (do let w ← (ofBlocks 4 [[1, 2, 3, 4]] 3 0).writeToFile true
        let r ← (ofBlocks 4 [[0, 0, 0, 0]] 0 0).readFromFile true w.2
        let b ← r.2.readAt r.2.m_size 0
        pure b.1) = .ok [1, 2, 3] := by
  decide

/-- C27 (the claim as stated fails): for a buffer whose readable bytes are
`00 05 68 65 6c 6c 6f`, `toHexString` returns `"00 05 68 65 6c 6c 6f "`, with a space after
the last group, not `"00 05 68 65 6c 6c 6f"`. -/
theorem toHexString_trailing_space :
    ((ofBlocks 8 [[0x00, 0x05, 0x68, 0x65, 0x6c, 0x6c, 0x6f, 0]] 7 0).toHexString).map Prod.fst =
      .ok "00 05 68 65 6c 6c 6f " ∧
    ((ofBlocks 8 [[0x00, 0x05, 0x68, 0x65, 0x6c, 0x6c, 0x6f, 0]] 7 0).toHexString).map Prod.fst ≠
      .ok "00 05 68 65 6c 6c 6f" := by
  decide

/-- C27 (amended): `toHexString` renders the string `toString` returns, each byte as a group
of two lowercase hexadecimal digits followed by a single space: up to 32 bytes give their
groups one after the other (the rendering ends in a space), and after a full line of 32
groups a line feed is inserted when another byte follows, the rest being rendered the same
way; the bytes `00 05 68 65 6c 6c 6f` render as `"00 05 68 65 6c 6c 6f "`. On a buffer that
satisfies the data-model invariants the bytes rendered are those at the offsets
`[position, size)`, unless there are more of them than a `std::string` can hold, when the
`resize` in `toString` throws `std::length_error`. -/
theorem toHexString_groups (s : ByteArray) :
    s.toHexString =
      s.toString.map (fun r => (String.mk (toHexStringLoop r.1 0 []), r.2)) ∧
    (s.WF → s.m_position ≤ s.m_size →
      s.toHexString.map Prod.fst =
        if s.m_size - s.m_position > stringMaxSize then .error Fault.lengthError
        else .ok (String.mk (toHexStringLoop
          ((s.content.drop s.m_position).take (s.m_size - s.m_position)) 0 []))) ∧
    (∀ d : Nat, d < 16 → "0123456789abcdef".data[d]? = some (hexDigit d)) ∧
    (∀ line : List Nat, line.length ≤ 32 → toHexStringLoop line 0 [] = hexGroups line) ∧
    (∀ line rest : List Nat, line.length = 32 → rest ≠ [] →
      toHexStringLoop (line ++ rest) 0 [] =
        hexGroups line ++ [Char.ofNat 10] ++ toHexStringLoop rest 0 []) ∧
    String.mk (toHexStringLoop [0x00, 0x05, 0x68, 0x65, 0x6c, 0x6c, 0x6f] 0 []) =
      "00 05 68 65 6c 6c 6f " := by
  refine ⟨?_, ?_, by decide, ?_, ?_, by decide⟩
  · unfold toHexString
    cases s.toString with
    | error e => rfl
    | ok r => rfl
  · intro hwf hps
    by_cases hmax : s.m_size - s.m_position > stringMaxSize
    · have hrs : s.getReadSize = s.m_size - s.m_position :=
        getReadSize_eq s hps (by obtain ⟨_, _, _, h64, _, hsc, _, _⟩ := hwf; omega)
      unfold toHexString
      rw [if_pos hmax, toString_eq, hrs, if_pos hmax]
      rfl
    · unfold toHexString
      rw [if_neg hmax, toString_wf s hwf hps (Nat.not_lt.mp hmax)]
      rfl
  · intro line hl
    have h := toHexStringLoop_line line [] 0 (by omega)
    rw [List.append_nil] at h
    rw [h]
    simp [toHexStringLoop]
  · intro line rest hl hne
    rw [toHexStringLoop_line line rest 0 (by omega), hl]
    cases rest with
    | nil => exact absurd rfl hne
    | cons c cs =>
      rw [Nat.zero_add, toHexStringLoop_next_line, List.append_assoc]

/-- C27 (amended) on concrete bytes: seven bytes render as their seven groups, each followed
by a space; 33 bytes render as a line of 32 groups, a line feed and the last group. -/
theorem toHexString_groups_witness :
    (ofBlocks 8 [[0x00, 0x05, 0x68, 0x65, 0x6c, 0x6c, 0x6f, 0]] 7 0).toHexString.map Prod.fst =
      .ok (String.mk (toHexStringLoop
        (((ofBlocks 8 [[0x00, 0x05, 0x68, 0x65, 0x6c, 0x6c, 0x6f, 0]] 7 0).content.drop
            (ofBlocks 8 [[0x00, 0x05, 0x68, 0x65, 0x6c, 0x6c, 0x6f, 0]] 7 0).m_position).take
          ((ofBlocks 8 [[0x00, 0x05, 0x68, 0x65, 0x6c, 0x6c, 0x6f, 0]] 7 0).m_size -
            (ofBlocks 8 [[0x00, 0x05, 0x68, 0x65, 0x6c, 0x6c, 0x6f, 0]] 7 0).m_position)) 0 [])) ∧
    toHexStringLoop [0x00, 0x05, 0x68, 0x65, 0x6c, 0x6c, 0x6f] 0 [] =
      hexGroups [0x00, 0x05, 0x68, 0x65, 0x6c, 0x6c, 0x6f] ∧
    String.mk (hexGroups [0x00, 0x05, 0x68, 0x65, 0x6c, 0x6c, 0x6f]) = "00 05 68 65 6c 6c 6f " ∧
    toHexStringLoop (List.range 32 ++ [255]) 0 [] =
      hexGroups (List.range 32) ++ [Char.ofNat 10] ++ toHexStringLoop [255] 0 [] ∧
    String.mk (toHexStringLoop [255] 0 []) = "ff " ∧
    "0123456789abcdef".data[11]? = some (hexDigit 11) :=
  ⟨((toHexString_groups (ofBlocks 8 [[0x00, 0x05, 0x68, 0x65, 0x6c, 0x6c, 0x6f, 0]] 7 0)).2.1
      (by decide) (by decide)).trans (if_neg (by decide)),
   (toHexString_groups (ofBlocks 8 [[0x00, 0x05, 0x68, 0x65, 0x6c, 0x6c, 0x6f, 0]] 7 0)).2.2.2.1
      [0x00, 0x05, 0x68, 0x65, 0x6c, 0x6c, 0x6f] (by decide),
   by decide,
   (toHexString_groups (ofBlocks 8 [[0x00, 0x05, 0x68, 0x65, 0x6c, 0x6c, 0x6f, 0]] 7 0)).2.2.2.2.1
      (List.range 32) [255] (by decide) (by decide),
   by decide,
   (toHexString_groups (ofBlocks 8 [[0x00, 0x05, 0x68, 0x65, 0x6c, 0x6c, 0x6f, 0]] 7 0)).2.2.1 11
      (by decide)⟩

/-- C28 (fails on the code): `toString()` goes through the positional `read`, which adds
the bytes read to `m_position`: on a one-chunk buffer holding `01 02 03 04` the first call
returns these bytes and leaves `position = 4`, the second call returns the empty string; the
same with the cursor at 1 on a two-chunk buffer, and for `toHexString()`. On the freshly
constructed buffer nothing is readable and both calls return the empty string. -/
theorem toString_twice_differs :
    (do let r1 ← (ofBlocks 4 [[1, 2, 3, 4]] 4 0).toString
        let r2 ← r1.2.toString
        pure (r1.1, r1.2.m_position, r2.1)) = .ok ([1, 2, 3, 4], 4, []) ∧
    (do let r1 ← (ofBlocks 4 [[1, 2, 3, 4], [5, 6, 7, 8]] 6 1).toString
        let r2 ← r1.2.toString
        pure (r1.1, r1.2.m_position, r2.1)) = .ok ([2, 3, 4, 5, 6], 6, []) ∧
    (do let r1 ← (ofBlocks 8 [[0x00, 0x05, 0x68, 0x65, 0x6c, 0x6c, 0x6f, 0]] 7 0).toHexString
        let r2 ← r1.2.toHexString
        pure (r1.1, r1.2.m_position, r2.1)) = .ok ("00 05 68 65 6c 6c 6f ", 7, "") ∧
    (do let r1 ← (ByteArray.ctor 4).toString
        let r2 ← r1.2.toString
        pure (r1.1, r1.2.m_position, r2.1)) = .ok ([], 0, []) := by
  decide

/-- C29 (fails on the code): after `ByteArray ba(16); ba.read(buf, 1, 1); ba.write(b, 7);
ba.clear(); ba.read(buf, 1, 1);` with `b` the bytes `00 05 01 02 03 04 05` the buffer has
`position = 1` and `size = 0`; `readStringF16` decodes the prefix 5, which exceeds
`size − position = −3` after it, and returns the 5 bytes `01 02 03 04 05`: both reads
compare against the difference in unsigned 64-bit arithmetic. And on a buffer with
`position = 1`, `size = 9` whose 8-byte prefix decodes to `2^63`, with no byte left after
it, `readStringF64` throws `std::length_error` from `buff.resize`, not
`std::out_of_range`. -/
theorem readString_returns_beyond_size :
    (∃ s : ByteArray,
      (do let r ← (ByteArray.ctor 16).readAt 1 1
          let s ← r.2.write [0, 5, 1, 2, 3, 4, 5]
          let s ← s.clear
          let r ← s.readAt 1 1
          pure r.2) = .ok s ∧
      s.m_position = 1 ∧ s.m_size = 0 ∧
      s.readFuint16 Endian.little = .ok (5, { s with m_position := 3 }) ∧
      (s.m_size : Int) - (3 : Int) < 5 ∧
      s.readStringF16 Endian.little = .ok ([1, 2, 3, 4, 5], { s with m_position := 8 })) ∧
    (∃ s : ByteArray,
      (do let r ← (ByteArray.ctor 16).readAt 1 1
          let w ← r.2.getWriteBuffers 31
          let s ← w.2.2.setPosition 0
          let r ← s.readAt 1 1
          let s ← r.2.write [0x80, 0, 0, 0, 0, 0, 0, 0]
          let s ← s.setPosition 0
          let r ← s.readAt 1 1
          pure r.2) = .ok s ∧
      s.m_position = 1 ∧ s.m_size = 9 ∧
      s.readFuint64 Endian.little = .ok (2 ^ 63, { s with m_position := 9 }) ∧
      s.m_size - 9 < 2 ^ 63 ∧
      s.readStringF64 Endian.little = .error Fault.lengthError) :=
  ⟨⟨asBuilt 16 [[0, 0, 5, 1, 2, 3, 4, 5] ++ List.replicate 8 0] 0 1 (NodePtr.node 0),
    by decide⟩,
   ⟨asBuilt 16 [List.replicate 16 0, [0, 0x80] ++ List.replicate 14 0] 9 1 (NodePtr.node 1),
    by decide⟩⟩

/-- C30: in every state reached from the freshly constructed buffer of chunk size
`base > 0` by any sequence of calls of the member functions that assign members
(`setPosition`, `write`, both `read`s, `toString`, `toHexString`, `addCapacity`, `clear`),
`m_capacity` is `base` times the number of chunks in 64-bit arithmetic, and the chain holds
at least the root chunk; as long as the chunks allocated fit the 64-bit address space the
capacity is therefore an exact multiple of `base` and at least `base`. -/
theorem capacity_multiple_of_chunkSize (base : Nat) (hb : 0 < base) (hb64 : base < 2 ^ 64)
    (calls : List Call) :
    ∀ t ∈ reached (ByteArray.ctor base) calls,
      t.m_baseSize = base ∧ t.m_capacity = (base * t.nodes.length) % 2 ^ 64 ∧
      0 < t.nodes.length ∧
      (base * t.nodes.length < 2 ^ 64 →
        base ∣ t.m_capacity ∧ base ≤ t.m_capacity ∧ 0 < t.m_capacity) := by
  intro t ht
  have h0 : (ByteArray.ctor base).m_capacity =
      ((ByteArray.ctor base).m_baseSize * (ByteArray.ctor base).nodes.length) % 2 ^ 64 := by
    show base = (base * 1) % 2 ^ 64
    rw [Nat.mul_one, Nat.mod_eq_of_lt hb64]
  obtain ⟨h1, h2, h3⟩ := reached_capacity calls (ByteArray.ctor base) hb64 h0 Nat.one_pos t ht
  have h1' : t.m_baseSize = base := h1
  rw [h1'] at h2
  refine ⟨h1', h2, h3, ?_⟩
  intro hfit
  rw [Nat.mod_eq_of_lt hfit] at h2
  have hle : base * 1 ≤ base * t.nodes.length := Nat.mul_le_mul_left _ h3
  rw [Nat.mul_one] at hle
  exact ⟨⟨t.nodes.length, h2⟩, by rw [h2]; exact hle, by rw [h2]; omega⟩

/-- C30 along `addCapacity(8)`, a positional read, a `setPosition(9)` that throws and
`clear()` from the freshly constructed buffer of chunk size 4: the capacities are 8, 8, 8
and 4 with 2, 2, 2 and 1 chunks; the last state has a capacity that is a multiple of 4 and at
least 4. -/
theorem capacity_multiple_of_chunkSize_witness :
    (reached (ByteArray.ctor 4)
        [Call.addCapacity 8, Call.readAt 1 1, Call.setPosition 9, Call.clear]).map
      (fun t => (t.m_capacity, t.nodes.length)) = [(8, 2), (8, 2), (8, 2), (4, 1)] ∧
    ({ ByteArray.ctor 4 with tailDangling := true } : ByteArray).m_capacity =
      (4 * ({ ByteArray.ctor 4 with tailDangling := true } : ByteArray).nodes.length) % 2 ^ 64 ∧
    (4 ∣ ({ ByteArray.ctor 4 with tailDangling := true } : ByteArray).m_capacity ∧
      4 ≤ ({ ByteArray.ctor 4 with tailDangling := true } : ByteArray).m_capacity ∧
      0 < ({ ByteArray.ctor 4 with tailDangling := true } : ByteArray).m_capacity) :=
  ⟨by decide,
   (capacity_multiple_of_chunkSize 4 (by decide) (by decide)
     [Call.addCapacity 8, Call.readAt 1 1, Call.setPosition 9, Call.clear]
     { ByteArray.ctor 4 with tailDangling := true } (by decide)).2.1,
   (capacity_multiple_of_chunkSize 4 (by decide) (by decide)
     [Call.addCapacity 8, Call.readAt 1 1, Call.setPosition 9, Call.clear]
     { ByteArray.ctor 4 with tailDangling := true } (by decide)).2.2.2 (by decide)⟩

/-! ### Writes that run into chunks recording capacity 0 -/

/-- Storing the element a list already has at an index changes nothing. -/
theorem list_set_same {α : Type} (l : List α) (i : Nat) (a : α) (h : l[i]? = some a) :
    l.set i a = l := by
  apply List.ext_getElem?
  intro j
  rw [List.getElem?_set]
  by_cases hij : i = j
  · subst hij
    rw [if_pos rfl]
    split
    · exact h.symm
    · rename_i hlt
      rw [List.getElem?_eq_none (Nat.le_of_not_lt hlt)]
  · rw [if_neg hij]

/-- A copy of no bytes to the start of a chunk changes nothing. -/
theorem memcpyTo_nil (s : ByteArray) (i : Nat) (hi : i < s.nodes.length) :
    s.memcpyTo (NodePtr.node i) 0 [] = .ok s := by
  have hget : s.nodes[i]? = some s.nodes[i] := List.getElem?_eq_getElem hi
  have hblock : ∀ blk : List Nat, blk.take 0 ++ [] ++ blk.drop 0 = blk := by
    intro blk; simp
  simp only [memcpyTo, hget, List.length_nil, Nat.add_zero, Nat.zero_le, if_true]
  rw [hblock s.nodes[i].ptr]
  have hnode : ({ ptr := s.nodes[i].ptr, size := s.nodes[i].size } : Node) = s.nodes[i] := rfl
  rw [hnode, list_set_same s.nodes i s.nodes[i] hget]

/-- From a chunk on whose successors all record capacity 0 like itself, the loop of
`write`, started at in-chunk offset 0 with bytes left to copy, copies nothing and steps from
chunk to chunk until it reads `m_cur->size` through the null pointer after the last one. -/
theorem writeLoop_zero_sizes (buf : List Nat) : ∀ (fuel : Nat) (s : ByteArray)
    (i bpos size : Nat), (∀ j n, s.nodes[j]? = some n → i ≤ j → n.size = 0) →
    s.tailDangling = false → s.m_cur = NodePtr.node i → i < s.nodes.length → 0 < size →
    size < 2 ^ 64 → s.nodes.length - i < fuel →
    writeLoop buf fuel s 0 0 bpos size = .error Fault.nullDeref := by
  intro fuel
  induction fuel with
  | zero => intro s i bpos size _ _ _ _ _ _ hf; omega
  | succ fuel ih =>
    intro s i bpos size hn htl hcur hi hs hs64 hf
    have hsub : subU 64 size 0 = size := by
      unfold subU negU
      simp only [Nat.reducePow] at hs64 ⊢
      omega
    unfold writeLoop
    rw [if_pos hs, if_neg (by omega), if_neg (by omega), List.take_zero, hcur,
      memcpyTo_nil s i hi]
    simp only [bind, Except.bind, ByteArray.next, hcur, hi, ByteArray.tailNext, htl, hsub]
    by_cases hi1 : i + 1 < s.nodes.length
    · simp only [hi1, if_true, deref, List.getElem?_eq_getElem hi1,
        hn (i + 1) _ (List.getElem?_eq_getElem hi1) (Nat.le_succ i)]
      refine ih _ (i + 1) _ size ?_ ?_ ?_ ?_ hs hs64 ?_
      · intro j n hj hij
        exact hn j n hj (by omega)
      · rfl
      · rfl
      · exact hi1
      · show s.nodes.length - (i + 1) < fuel
        omega
    · simp only [hi1, if_false, deref]
      rfl

/-- On the freshly constructed buffer every `write` of at least one byte dereferences a
null `m_cur`, whatever the length: the chunks appended by `addCapacity` record capacity 0 as
well. -/
theorem ctor_write_faults_any (base : Nat) (buf : List Nat) (hb : 0 < base)
    (hb64 : base < 2 ^ 64) (hne : buf ≠ []) (hlen : buf.length < 2 ^ 64) :
    (ByteArray.ctor base).write buf = .error Fault.nullDeref := by
  have hpos : 0 < buf.length := List.length_pos.mpr hne
  have hadd : ∃ s1 : ByteArray, (ByteArray.ctor base).addCapacity buf.length = .ok s1 ∧
      s1.m_baseSize = base ∧ s1.m_position = 0 ∧ s1.m_cur = NodePtr.node 0 ∧
      0 < s1.nodes.length ∧ (∀ n ∈ s1.nodes, n.size = 0) ∧ s1.tailDangling = false := by
    have hgc : (ByteArray.ctor base).getCapacity = base := by
      unfold getCapacity subU negU
      show (base % 2 ^ 64 + (2 ^ 64 - 0 % 2 ^ 64) % 2 ^ 64) % 2 ^ 64 = base
      simp only [Nat.reducePow] at hb64 ⊢
      omega
    have hctor : ∀ n ∈ (ByteArray.ctor base).nodes, n.size = 0 := by
      intro n hn
      simp only [ByteArray.ctor, List.mem_singleton] at hn
      rw [hn]; rfl
    simp only [addCapacity, hgc]
    rw [if_neg (by omega)]
    by_cases hfit : base ≥ buf.length
    · rw [if_pos hfit]
      exact ⟨_, rfl, rfl, rfl, rfl, Nat.one_pos, hctor, rfl⟩
    · rw [if_neg hfit]
      have hbs : (ByteArray.ctor base).m_baseSize = base := rfl
      have hnn : (ByteArray.ctor base).nodes ≠ [] := by simp [ByteArray.ctor]
      have htd : (ByteArray.ctor base).tailDangling = false := rfl
      rw [hbs, if_neg (by omega), if_neg hnn]
      simp only [htd, Bool.false_eq_true, if_false]
      rw [if_neg (by omega)]
      refine ⟨_, rfl, rfl, rfl, rfl, ?_, ?_, rfl⟩
      · show 0 < ((ByteArray.ctor base).nodes ++ _).length
        rw [List.length_append]
        exact Nat.lt_of_lt_of_le Nat.one_pos (Nat.le_add_right _ _)
      · intro n hn
        have hn' : n ∈ (ByteArray.ctor base).nodes ++
            List.replicate (subU 64 buf.length base / base) (Node.ctor base) := hn
        rw [List.mem_append] at hn'
        rcases hn' with h | h
        · exact hctor n h
        · rw [List.eq_of_mem_replicate h]; rfl
  obtain ⟨s1, hs1, hbs1, hp1, hc1, hl1, hn1, htl1⟩ := hadd
  have hget : s1.nodes[0]? = some s1.nodes[0] := List.getElem?_eq_getElem hl1
  unfold write
  simp only [hs1, bind, Except.bind]
  rw [hbs1, if_neg (by omega), hc1]
  simp only [deref, hget, hn1 _ (List.getElem_mem hl1), hp1, Nat.zero_mod]
  have hz : subU 64 0 0 = 0 := by decide
  rw [hz, writeLoop_zero_sizes buf _ s1 0 0 buf.length
    (fun j n hj _ => hn1 n (List.getElem?_mem hj)) htl1 hc1 hl1 hpos hlen
    (Nat.lt_succ_of_le (Nat.sub_le _ _))]

/-! ### `write` throws no exception -/

theorem memcpyTo_ne_outOfRange (s : ByteArray) (p : NodePtr) (npos : Nat) (src : List Nat) :
    s.memcpyTo p npos src ≠ .error Fault.outOfRange := by
  unfold memcpyTo
  repeat' split
  all_goals simp

theorem writeLoop_ne_outOfRange (buf : List Nat) : ∀ (fuel : Nat) (s : ByteArray)
    (npos ncap bpos size : Nat),
    writeLoop buf fuel s npos ncap bpos size ≠ .error Fault.outOfRange := by
  intro fuel
  induction fuel with
  | zero => intro s _ _ _ _; simp [writeLoop]
  | succ fuel ih =>
    intro s npos ncap bpos size
    unfold writeLoop
    split
    · split
      · split
        · simp
        · apply bind_ne_outOfRange _ _ (memcpyTo_ne_outOfRange _ _ _ _)
          intro s1 _
          apply bind_ne_outOfRange _ _ (deref_ne_outOfRange _ _)
          intro cur _
          apply bind_ne_outOfRange
          · split
            · apply bind_ne_outOfRange _ _ (next_ne_outOfRange _ _)
              intro nx _
              simp [pure, Except.pure]
            · simp [pure, Except.pure]
          · intro s2 _
            simp [pure, Except.pure]
      · split
        · simp
        · apply bind_ne_outOfRange _ _ (memcpyTo_ne_outOfRange _ _ _ _)
          intro s1 _
          apply bind_ne_outOfRange _ _ (next_ne_outOfRange _ _)
          intro nx _
          apply bind_ne_outOfRange _ _ (deref_ne_outOfRange _ _)
          intro cur _
          apply ih
    · simp [pure, Except.pure]

theorem addCapacity_ne_outOfRange (s : ByteArray) (size : Nat) :
    s.addCapacity size ≠ .error Fault.outOfRange := by
  simp only [addCapacity]
  repeat' split
  all_goals simp

/-- No path through `write` throws `std::out_of_range`: the function has no check of its
input at all. -/
theorem write_ne_outOfRange (s : ByteArray) (buf : List Nat) :
    s.write buf ≠ .error Fault.outOfRange := by
  unfold write
  apply bind_ne_outOfRange _ _ (addCapacity_ne_outOfRange _ _)
  intro s1 _
  split
  · simp
  · apply bind_ne_outOfRange _ _ (deref_ne_outOfRange _ _)
    intro cur _
    apply bind_ne_outOfRange
    · exact writeLoop_ne_outOfRange _ _ _ _ _ _ _
    · intro s2 _
      simp [pure, Except.pure]

/-! ### One iteration of the loop of `write` -/

/-- The last iteration of the loop of `write`: the bytes left fit into the room `ncap` of the
chunk under `m_cur`; they are stored at the in-chunk offset `npos`, `m_cur` moves on when the
recorded capacity equals `npos + size`, and `m_position` is advanced. -/
theorem writeLoop_last (buf : List Nat) (fuel : Nat) (s : ByteArray) (i : Nat) (n0 : Node)
    (npos ncap bpos size : Nat) (hcur : s.m_cur = NodePtr.node i)
    (hget : s.nodes[i]? = some n0) (htl : s.tailDangling = false) (hs : 0 < size)
    (hc : size ≤ ncap) (hbuf : bpos + size ≤ buf.length) (hfit : npos + size ≤ n0.ptr.length) :
    writeLoop buf (fuel + 1) s npos ncap bpos size =
      .ok { s with
        nodes := s.nodes.set i
          { ptr := n0.ptr.take npos ++ (buf.drop bpos).take size ++ n0.ptr.drop (npos + size),
            size := n0.size },
        m_position := addU 64 s.m_position size,
        m_cur := if n0.size = addU 64 npos size then
                   (if i + 1 < s.nodes.length then NodePtr.node (i + 1) else NodePtr.null)
                 else NodePtr.node i } := by
  have hi : i < s.nodes.length := by
    by_contra hcon
    rw [List.getElem?_eq_none (Nat.le_of_not_lt hcon)] at hget
    cases hget
  have hsrc : ((buf.drop bpos).take size).length = size := by
    rw [List.length_take, List.length_drop]; omega
  unfold writeLoop
  rw [if_pos hs, if_pos hc, if_neg (by omega), hcur]
  simp only [memcpyTo, hget, hsrc, hfit, if_true, bind, Except.bind, deref, hcur,
    List.getElem?_set_self hi, ByteArray.next, List.length_set, hi, ByteArray.tailNext, htl]
  by_cases heq : n0.size = addU 64 npos size
  · simp only [heq, if_true, pure, Except.pure]
    by_cases hi1 : i + 1 < s.nodes.length
    · simp only [hi1, if_true]
    · simp only [hi1, if_false, Bool.false_eq_true]
  · simp only [heq, if_false, pure, Except.pure]

/-- An iteration of the loop of `write` that fills the room `ncap` of the chunk under
`m_cur` and goes on in the next chunk: `ncap` bytes are stored (taken from the start of the
input), `m_position` is advanced by `ncap` and the loop continues at in-chunk offset 0 with
the recorded capacity of the next chunk. -/
theorem writeLoop_step (buf : List Nat) (fuel : Nat) (s : ByteArray) (i : Nat) (n0 n1 : Node)
    (npos ncap bpos size : Nat) (hcur : s.m_cur = NodePtr.node i)
    (hget : s.nodes[i]? = some n0) (hget1 : s.nodes[i + 1]? = some n1) (hs : 0 < size)
    (hc : ncap < size) (hbuf : ncap ≤ buf.length) (hfit : npos + ncap ≤ n0.ptr.length) :
    writeLoop buf (fuel + 1) s npos ncap bpos size =
      writeLoop buf fuel
        { s with
          nodes := s.nodes.set i
            { ptr := n0.ptr.take npos ++ buf.take ncap ++ n0.ptr.drop (npos + ncap),
              size := n0.size },
          m_position := addU 64 s.m_position ncap,
          m_cur := NodePtr.node (i + 1) }
        0 n1.size (addU 64 bpos ncap) (subU 64 size ncap) := by
  have hi1 : i + 1 < s.nodes.length := by
    by_contra hcon
    rw [List.getElem?_eq_none (Nat.le_of_not_lt hcon)] at hget1
    cases hget1
  have hsrc : (buf.take ncap).length = ncap := by
    rw [List.length_take]; omega
  have hne : i ≠ i + 1 := by omega
  rw [writeLoop]
  rw [if_pos hs, if_neg (by omega), if_neg (by omega), hcur]
  simp only [memcpyTo, hget, hsrc, hfit, if_true, bind, Except.bind, deref, hcur,
    ByteArray.next, List.length_set, hi1, List.getElem?_set_ne hne, hget1]

/-- An iteration of the loop of `write` that fills the room of the last chunk of the chain
with bytes still left: `m_cur` becomes the null successor and `m_cur->size` is read through
it. -/
theorem writeLoop_off_end (buf : List Nat) (fuel : Nat) (s : ByteArray) (i : Nat) (n0 : Node)
    (npos ncap bpos size : Nat) (hcur : s.m_cur = NodePtr.node i)
    (hget : s.nodes[i]? = some n0) (hlast : i + 1 = s.nodes.length)
    (htl : s.tailDangling = false) (hs : 0 < size)
    (hc : ncap < size) (hbuf : ncap ≤ buf.length) (hfit : npos + ncap ≤ n0.ptr.length) :
    writeLoop buf (fuel + 1) s npos ncap bpos size = .error Fault.nullDeref := by
  have hsrc : (buf.take ncap).length = ncap := by
    rw [List.length_take]; omega
  have h1 : ¬ (i + 1 < s.nodes.length) := by omega
  have h2 : i < s.nodes.length := by omega
  unfold writeLoop
  rw [if_pos hs, if_neg (by omega), if_neg (by omega), hcur]
  simp only [memcpyTo, hget, hsrc, hfit, if_true, bind, Except.bind, deref, hcur,
    ByteArray.next, List.length_set, h1, h2, if_false, ByteArray.tailNext, htl,
    Bool.false_eq_true]

/-! ### Bytes of the buffer after a store -/

/-- The byte at a logical offset after a block of `len` bytes was stored into chunk `i` at
the in-chunk offset `npos`: the stored byte inside the block, the old byte everywhere else. -/
theorem byteAt_set (s : ByteArray) (base i npos : Nat) (n0 : Node) (src : List Nat)
    (len sz : Nat) (hbs : s.m_baseSize = base) (hget : s.nodes[i]? = some n0)
    (hlen : src.length = len) (hfit : npos + len ≤ n0.ptr.length) (off : Nat) :
    ByteArray.byteAt
      { s with
        nodes := s.nodes.set i
          { ptr := n0.ptr.take npos ++ src ++ n0.ptr.drop (npos + len), size := sz } }
      off =
    if off / base = i ∧ npos ≤ off % base ∧ off % base < npos + len
    then src[off % base - npos]? else s.byteAt off := by
  subst hbs
  subst hlen
  have hi : i < s.nodes.length := by
    by_contra hcon
    rw [List.getElem?_eq_none (Nat.le_of_not_lt hcon)] at hget
    cases hget
  unfold byteAt
  simp only [List.getElem?_set]
  by_cases hq : i = off / s.m_baseSize
  · rw [if_pos hq, if_pos hi]
    simp only [Option.bind]
    rw [← hq, hget]
    simp only [true_and]
    by_cases h1 : off % s.m_baseSize < npos
    · rw [if_neg (by omega), List.append_assoc,
        List.getElem?_append_left (by rw [List.length_take]; omega),
        List.getElem?_take_of_lt h1]
    · by_cases h2 : off % s.m_baseSize < npos + src.length
      · rw [if_pos ⟨by omega, h2⟩, List.append_assoc,
          List.getElem?_append_right (by rw [List.length_take]; omega),
          List.getElem?_append_left (by rw [List.length_take]; omega)]
        congr 1
        rw [List.length_take]; omega
      · rw [if_neg (by omega),
          List.getElem?_append_right
            (by rw [List.length_append, List.length_take]; omega),
          List.getElem?_drop]
        congr 1
        rw [List.length_append, List.length_take]; omega
  · rw [if_neg hq, if_neg (fun h => hq h.1.symm)]

/-- A block stored inside a chunk leaves the length of the chunk as it was. -/
theorem block_length (p src : List Nat) (npos len : Nat) (hlen : src.length = len)
    (hfit : npos + len ≤ p.length) :
    (p.take npos ++ src ++ p.drop (npos + len)).length = p.length := by
  rw [List.length_append, List.length_append, List.length_take, List.length_drop, hlen]
  omega

/-- The in-chunk offset of a logical offset inside chunk `i`. -/
theorem cursor_in_chunk (base i r : Nat) (hr : r < base) : (i * base + r) % base = r := by
  rw [Nat.add_comm, Nat.add_mul_mod_self_right, Nat.mod_eq_of_lt hr]

/-- A logical offset is the start of its chunk plus its in-chunk offset. -/
theorem offset_split (base off : Nat) : off / base * base + off % base = off := by
  rw [Nat.mul_comm]; exact Nat.div_add_mod off base

/-! ### The loop of `write` over chunks that record their capacity -/

/-- The loop of `write` over chunks that record their capacity: started with `m_cur` at
chunk `i`, in-chunk offset `npos`, and `size > 0` bytes that fit into the chain, it returns,
advances `m_position` by `size`, leaves `m_cur` at the chunk of the offset reached (null at
the end of the chain), keeps the shape of every chunk and changes no byte outside the
offsets `[i * base + npos, i * base + npos + size)`; when the bytes fit into chunk `i` they
are stored there as given. -/
theorem writeLoop_wf (buf : List Nat) (base : Nat) (hb : 0 < base)
    (hbuf64 : buf.length < 2 ^ 64) :
    ∀ (fuel : Nat) (s : ByteArray) (i npos bpos size : Nat),
      s.m_baseSize = base →
      (∀ n ∈ s.nodes, n.size = base ∧ n.ptr.length = base) → s.tailDangling = false →
      base * s.nodes.length < 2 ^ 64 → s.m_cur = NodePtr.node i →
      i < s.nodes.length → npos < base → 0 < size → bpos + size ≤ buf.length →
      i * base + npos + size ≤ base * s.nodes.length → s.m_position + size < 2 ^ 64 →
      s.nodes.length - i < fuel →
      ∃ s', writeLoop buf fuel s npos (base - npos) bpos size = .ok s' ∧
        s'.m_baseSize = base ∧ s'.m_capacity = s.m_capacity ∧ s'.m_size = s.m_size ∧
        s'.m_endian = s.m_endian ∧ s'.tailDangling = false ∧
        s'.m_position = s.m_position + size ∧
        s'.m_cur = (if (i * base + npos + size) / base < s.nodes.length
                    then NodePtr.node ((i * base + npos + size) / base)
                    else NodePtr.null) ∧
        s'.nodes.length = s.nodes.length ∧
        (∀ n ∈ s'.nodes, n.size = base ∧ n.ptr.length = base) ∧
        (∀ off, off < i * base + npos ∨ i * base + npos + size ≤ off →
          s'.byteAt off = s.byteAt off) ∧
        (npos + size ≤ base →
          s'.Holds (i * base + npos) ((buf.drop bpos).take size)) := by
  intro fuel
  induction fuel with
  | zero => intro s i npos bpos size _ _ _ _ _ _ _ _ _ _ _ hf; omega
  | succ fuel ih =>
    intro s i npos bpos size hbs hn htl hb64 hcur hi hnp hs hbuf hfit hp64 hf
    have hget : s.nodes[i]? = some s.nodes[i] := List.getElem?_eq_getElem hi
    obtain ⟨hsz, hpl⟩ := hn _ (List.getElem_mem hi)
    have hbase64 : base < 2 ^ 64 := by
      have : base * 1 ≤ base * s.nodes.length := Nat.mul_le_mul_left _ (by omega)
      omega
    by_cases hc : size ≤ base - npos
    · have hsrc : ((buf.drop bpos).take size).length = size := by
        rw [List.length_take, List.length_drop]; omega
      have hlast := writeLoop_last buf fuel s i s.nodes[i] npos (base - npos) bpos size hcur
        hget htl hs hc hbuf (by rw [hpl]; omega)
      have hadd : addU 64 npos size = npos + size := by
        unfold addU
        simp only [Nat.reducePow] at hbase64 ⊢
        omega
      have hpadd : addU 64 s.m_position size = s.m_position + size := by
        unfold addU
        simp only [Nat.reducePow] at hp64 ⊢
        omega
      have hbyte := byteAt_set s base i npos s.nodes[i] ((buf.drop bpos).take size) size
        base hbs hget hsrc (by rw [hpl]; omega)
      have hcongr : ∀ (off p : Nat) (c : NodePtr) (nodes : List Node),
          ByteArray.byteAt { s with nodes := nodes, m_position := p, m_cur := c } off =
            ByteArray.byteAt { s with nodes := nodes } off := fun _ _ _ _ => rfl
      rw [hsz, hadd, hpadd] at hlast
      refine ⟨_, hlast, hbs, rfl, rfl, rfl, htl, rfl, ?_, List.length_set _ _ _, ?_, ?_, ?_⟩
      · by_cases heq : base = npos + size
        · have he : (i * base + npos + size) / base = i + 1 := by
            have : i * base + npos + size = i * base + base := by omega
            rw [this]; exact cursor_next_chunk base i hb
          simp only [heq, if_true]
          rw [← heq, he]
        · have he : (i * base + npos + size) / base = i := by
            have : i * base + npos + size = i * base + (npos + size) := by omega
            rw [this]; exact cursor_same_chunk base i _ (by omega)
          simp only [heq, if_false]
          rw [he, if_pos hi]
      · intro n hm
        rcases List.mem_or_eq_of_mem_set hm with h | h
        · exact hn n h
        · rw [h]
          exact ⟨rfl, by
            rw [block_length _ _ npos size hsrc (by rw [hpl]; omega)]; exact hpl⟩
      · intro off hoff
        have h1 := hbyte off
        have hsplit := offset_split base off
        rw [if_neg (by
          rintro ⟨hq, h2, h3⟩
          rw [hq] at hsplit
          omega)] at h1
        rw [hcongr]
        exact h1
      · intro _ k hk
        rw [hsrc] at hk
        have h1 := hbyte (i * base + npos + k)
        have hq : (i * base + npos + k) / base = i := by
          rw [Nat.add_assoc]; exact cursor_same_chunk base i _ (by omega)
        have hr : (i * base + npos + k) % base = npos + k := by
          rw [Nat.add_assoc]; exact cursor_in_chunk base i _ (by omega)
        rw [hq, hr, if_pos ⟨rfl, by omega, by omega⟩, Nat.add_sub_cancel_left] at h1
        rw [hcongr]
        exact h1
    · have hmul : (i + 1) * base = i * base + base := by rw [Nat.add_mul, Nat.one_mul]
      have hi1 : i + 1 < s.nodes.length := by
        by_contra hcon
        have hle : s.nodes.length ≤ i + 1 := by omega
        have : base * s.nodes.length ≤ base * (i + 1) := Nat.mul_le_mul_left _ hle
        rw [Nat.mul_comm base (i + 1), hmul] at this
        omega
      have hget1 : s.nodes[i + 1]? = some s.nodes[i + 1] := List.getElem?_eq_getElem hi1
      obtain ⟨hsz1, _⟩ := hn _ (List.getElem_mem hi1)
      have hsrc : (buf.take (base - npos)).length = base - npos := by
        rw [List.length_take]; omega
      have hstep := writeLoop_step buf fuel s i s.nodes[i] s.nodes[i + 1] npos (base - npos)
        bpos size hcur hget hget1 hs (by omega) (by omega) (by rw [hpl]; omega)
      have hsub : subU 64 size (base - npos) = size - (base - npos) := by
        unfold subU negU
        simp only [Nat.reducePow] at hp64 ⊢
        omega
      have hpadd : addU 64 s.m_position (base - npos) = s.m_position + (base - npos) := by
        unfold addU
        simp only [Nat.reducePow] at hp64 ⊢
        omega
      have hbadd : addU 64 bpos (base - npos) = bpos + (base - npos) := by
        unfold addU
        simp only [Nat.reducePow] at hbuf64 ⊢
        omega
      have hbyte := byteAt_set s base i npos s.nodes[i] (buf.take (base - npos)) (base - npos)
        s.nodes[i].size hbs hget hsrc (by rw [hpl]; omega)
      rw [hsz1, hsub, hpadd, hbadd] at hstep
      have hn3 : ∀ n ∈ s.nodes.set i
          { ptr := s.nodes[i].ptr.take npos ++ buf.take (base - npos) ++
              s.nodes[i].ptr.drop (npos + (base - npos)),
            size := s.nodes[i].size }, n.size = base ∧ n.ptr.length = base := by
        intro n hm
        rcases List.mem_or_eq_of_mem_set hm with h | h
        · exact hn n h
        · rw [h]
          exact ⟨hsz, by
            rw [block_length _ _ npos (base - npos) hsrc (by rw [hpl]; omega)]; exact hpl⟩
      have hl3 : (s.nodes.set i
          { ptr := s.nodes[i].ptr.take npos ++ buf.take (base - npos) ++
              s.nodes[i].ptr.drop (npos + (base - npos)),
            size := s.nodes[i].size }).length = s.nodes.length := List.length_set _ _ _
      obtain ⟨s', hrun, h1, h2, h3, h4, h5, h6, h7, h8, h9, h10, _⟩ :=
        ih { s with
             nodes := s.nodes.set i
               { ptr := s.nodes[i].ptr.take npos ++ buf.take (base - npos) ++
                   s.nodes[i].ptr.drop (npos + (base - npos)),
                 size := s.nodes[i].size },
             m_position := s.m_position + (base - npos),
             m_cur := NodePtr.node (i + 1) }
          (i + 1) 0 (bpos + (base - npos)) (size - (base - npos)) hbs hn3 htl
          (by rw [hl3]; exact hb64) rfl (by rw [hl3]; exact hi1) hb (by omega) (by omega)
          (by rw [hl3, hmul]; omega)
          (by show s.m_position + (base - npos) + (size - (base - npos)) < 2 ^ 64; omega)
          (by rw [hl3]; omega)
      rw [Nat.sub_zero] at hrun
      have hoff : (i + 1) * base + 0 + (size - (base - npos)) = i * base + npos + size := by
        rw [hmul]; omega
      rw [hoff, hl3] at h7
      rw [hl3] at h8
      refine ⟨s', by rw [hstep]; exact hrun, h1, h2, h3, h4, h5, ?_, h7, h8, h9, ?_, ?_⟩
      · rw [h6]
        show s.m_position + (base - npos) + (size - (base - npos)) = s.m_position + size
        omega
      · intro off hoff2
        rw [h10 off (by rw [hmul]; omega)]
        have hcongr : ∀ (p : Nat) (c : NodePtr) (nodes : List Node),
            ByteArray.byteAt { s with nodes := nodes, m_position := p, m_cur := c } off =
              ByteArray.byteAt { s with nodes := nodes } off := fun _ _ _ => rfl
        rw [hcongr, hbyte off]
        have hsplit := offset_split base off
        rw [if_neg (by
          rintro ⟨hq, h2, h3⟩
          rw [hq] at hsplit
          omega)]
      · intro hcon
        omega

/-! ### Writes that need more room than the chunks recording their capacity hold -/

/-- The loop of `write` started inside the first `k` chunks, which record their capacity
`base`, with more bytes than these chunks hold from the cursor on, every later chunk
recording capacity 0: the loop fills the `k` chunks, finds no room in the later ones and
reads `m_cur->size` through the null pointer at the end of the chain. -/
theorem writeLoop_runs_off (buf : List Nat) (base k : Nat) (hb : 0 < base)
    (hbuf64 : buf.length < 2 ^ 64) :
    ∀ (fuel : Nat) (s : ByteArray) (i npos bpos size : Nat),
      (∀ j n, s.nodes[j]? = some n →
        n.ptr.length = base ∧ (j < k → n.size = base) ∧ (k ≤ j → n.size = 0)) →
      s.tailDangling = false → s.m_cur = NodePtr.node i → i < k → k ≤ s.nodes.length →
      npos < base → size ≤ buf.length → k * base < i * base + npos + size →
      s.nodes.length - i < fuel →
      writeLoop buf fuel s npos (base - npos) bpos size = .error Fault.nullDeref := by
  intro fuel
  induction fuel with
  | zero => intro s i npos bpos size _ _ _ _ _ _ _ _ hf; omega
  | succ fuel ih =>
    intro s i npos bpos size hn htl hcur hik hk hnp hsb hoff hf
    have hi : i < s.nodes.length := by omega
    have hget : s.nodes[i]? = some s.nodes[i] := List.getElem?_eq_getElem hi
    obtain ⟨hpl, hsz, _⟩ := hn i _ hget
    have hmul : (i + 1) * base = i * base + base := by rw [Nat.add_mul, Nat.one_mul]
    have hkm : (i + 1) * base ≤ k * base := Nat.mul_le_mul_right _ hik
    have hsrc : (buf.take (base - npos)).length = base - npos := by
      rw [List.length_take]; omega
    have hn3 : ∀ j n, (s.nodes.set i
        { ptr := s.nodes[i].ptr.take npos ++ buf.take (base - npos) ++
            s.nodes[i].ptr.drop (npos + (base - npos)),
          size := s.nodes[i].size })[j]? = some n →
        n.ptr.length = base ∧ (j < k → n.size = base) ∧ (k ≤ j → n.size = 0) := by
      intro j n hj
      rw [List.getElem?_set] at hj
      by_cases hij : i = j
      · rw [if_pos hij, if_pos hi] at hj
        cases hj
        refine ⟨?_, fun _ => hsz hik, fun hkj => by omega⟩
        rw [block_length _ _ npos (base - npos) hsrc (by rw [hpl]; omega)]; exact hpl
      · rw [if_neg hij] at hj
        exact hn j n hj
    have hl3 : (s.nodes.set i
        { ptr := s.nodes[i].ptr.take npos ++ buf.take (base - npos) ++
            s.nodes[i].ptr.drop (npos + (base - npos)),
          size := s.nodes[i].size }).length = s.nodes.length := List.length_set _ _ _
    have hsub : subU 64 size (base - npos) = size - (base - npos) := by
      unfold subU negU
      simp only [Nat.reducePow] at hbuf64 ⊢
      omega
    by_cases hi1 : i + 1 < s.nodes.length
    · have hget1 : s.nodes[i + 1]? = some s.nodes[i + 1] := List.getElem?_eq_getElem hi1
      obtain ⟨_, hsz1, hz1⟩ := hn (i + 1) _ hget1
      rw [writeLoop_step buf fuel s i s.nodes[i] s.nodes[i + 1] npos (base - npos)
        bpos size hcur hget hget1 (by omega) (by omega) (by omega) (by rw [hpl]; omega), hsub]
      by_cases hk1 : i + 1 < k
      · have hrec := ih { s with
             nodes := s.nodes.set i
               { ptr := s.nodes[i].ptr.take npos ++ buf.take (base - npos) ++
                   s.nodes[i].ptr.drop (npos + (base - npos)),
                 size := s.nodes[i].size },
             m_position := addU 64 s.m_position (base - npos),
             m_cur := NodePtr.node (i + 1) }
          (i + 1) 0 (addU 64 bpos (base - npos)) (size - (base - npos)) hn3 htl rfl hk1
          (by rw [hl3]; exact hk) hb (by omega) (by rw [hmul]; omega)
          (by rw [hl3]; omega)
        rw [Nat.sub_zero] at hrec
        rw [hsz1 hk1]
        exact hrec
      · rw [hz1 (by omega)]
        exact writeLoop_zero_sizes buf fuel _ (i + 1) _ _
          (fun j n hj hij => (hn3 j n hj).2.2 (by omega)) htl rfl
          (by rw [hl3]; exact hi1) (by omega) (by omega) (by rw [hl3]; omega)
    · exact writeLoop_off_end buf fuel s i s.nodes[i] npos (base - npos) bpos size hcur hget
        (by omega) htl (by omega) (by omega) (by omega) (by rw [hpl]; omega)

/-! ### `write` on a buffer that satisfies the data-model invariants -/

/-- A `write` of at least one byte that fits into the spare capacity of a buffer satisfying
the data-model invariants returns: the invariants hold again, `m_position` is advanced by
the length of the input, `m_size` is the larger of the old size and the new position, the
chain is not grown, and no byte outside the offsets `[position, position + |buf|)` is
changed. When the input fits into the chunk of the position, it is stored there as
given. -/
theorem write_wf (s : ByteArray) (buf : List Nat) (hwf : s.WF) (hne : buf ≠ [])
    (hfit : buf.length ≤ s.m_capacity - s.m_position) :
    ∃ s', s.write buf = .ok s' ∧ s'.WF ∧
      s'.m_position = s.m_position + buf.length ∧
      s'.m_size = max s.m_size (s.m_position + buf.length) ∧
      s'.m_capacity = s.m_capacity ∧ s'.m_baseSize = s.m_baseSize ∧
      s'.m_endian = s.m_endian ∧ s'.nodes.length = s.nodes.length ∧
      (∀ off, off < s.m_position ∨ s.m_position + buf.length ≤ off →
        s'.byteAt off = s.byteAt off) ∧
      (s.m_position % s.m_baseSize + buf.length ≤ s.m_baseSize →
        s'.Holds s.m_position buf) := by
  obtain ⟨hb, hn, hcap, hc64, hpc, hsc, htl, hcur⟩ := hwf
  have hlen : 0 < buf.length := List.length_pos.mpr hne
  have hgc : s.getCapacity = s.m_capacity - s.m_position := by
    unfold getCapacity subU negU
    simp only [Nat.reducePow] at hc64 ⊢
    omega
  have hadd : s.addCapacity buf.length = .ok s := by
    simp only [addCapacity, hgc]
    rw [if_neg (by omega), if_pos hfit]
  have hq : s.m_position / s.m_baseSize < s.nodes.length := by
    apply Nat.div_lt_of_lt_mul
    rw [← hcap]; omega
  rw [if_pos hq] at hcur
  have hr : s.m_position % s.m_baseSize < s.m_baseSize := Nat.mod_lt _ hb
  have hget : s.nodes[s.m_position / s.m_baseSize]? =
      some (s.nodes[s.m_position / s.m_baseSize]) := List.getElem?_eq_getElem hq
  obtain ⟨hns, _⟩ := hn _ (List.getElem_mem hq)
  have hbcap : s.m_baseSize ≤ s.m_capacity := by
    rw [hcap]; exact Nat.le_mul_of_pos_right _ (Nat.lt_of_le_of_lt (Nat.zero_le _) hq)
  have hncap : subU 64 s.m_baseSize (s.m_position % s.m_baseSize) =
      s.m_baseSize - s.m_position % s.m_baseSize := by
    unfold subU negU
    simp only [Nat.reducePow] at hc64 ⊢
    omega
  have hoff := offset_split s.m_baseSize s.m_position
  obtain ⟨s2, hrun, h1, h2, h3, h4, h5, h6, h7, h8, h9, h10, h11⟩ :=
    writeLoop_wf buf s.m_baseSize hb (by omega) (s.nodes.length + 1) s
      (s.m_position / s.m_baseSize) (s.m_position % s.m_baseSize) 0 buf.length rfl hn htl
      (by rw [← hcap]; exact hc64) hcur hq hr hlen (by omega)
      (by rw [hoff, ← hcap]; omega) (by omega) (Nat.lt_succ_of_le (Nat.sub_le _ _))
  rw [hoff] at h7 h10 h11
  rw [List.drop_zero, List.take_length] at h11
  have hwf2 : ∀ sz : Nat, sz ≤ s.m_capacity →
      ({ s2 with m_size := sz } : ByteArray).WF := by
    intro sz hsz
    refine ⟨by rw [← h1] at hb; exact hb, ?_, ?_, ?_, ?_, ?_, h5, ?_⟩
    · intro n hm
      have := h9 n hm
      rw [← h1] at this
      exact this
    · show s2.m_capacity = s2.m_baseSize * s2.nodes.length
      rw [h2, h1, h8]; exact hcap
    · show s2.m_capacity < 2 ^ 64
      rw [h2]; exact hc64
    · show s2.m_position ≤ s2.m_capacity
      rw [h6, h2]; omega
    · show sz ≤ s2.m_capacity
      rw [h2]; exact hsz
    · show s2.m_cur = if s2.m_position / s2.m_baseSize < s2.nodes.length then
          NodePtr.node (s2.m_position / s2.m_baseSize) else NodePtr.null
      rw [h7, h6, h1, h8]
  have hw : s.write buf =
      .ok (if s2.m_position > s2.m_size then { s2 with m_size := s2.m_position } else s2) := by
    unfold write
    simp only [hadd, bind, Except.bind]
    rw [if_neg (by omega)]
    simp only [hcur, deref, hget, hns, hncap, hrun, pure, Except.pure]
  rw [hw]
  by_cases hgt : s2.m_position > s2.m_size
  · rw [if_pos hgt]
    rw [h6, h3] at hgt
    refine ⟨_, rfl, hwf2 _ (by rw [h6]; omega), h6, ?_, h2, h1, h4, h8, h10, h11⟩
    show s2.m_position = max s.m_size (s.m_position + buf.length)
    rw [h6]; omega
  · rw [if_neg hgt]
    rw [h6, h3] at hgt
    have hs2 : ({ s2 with m_size := s2.m_size } : ByteArray) = s2 := rfl
    have := hwf2 s2.m_size (by rw [h3]; exact hsc)
    rw [hs2] at this
    refine ⟨_, rfl, this, h6, ?_, h2, h1, h4, h8, h10, h11⟩
    rw [h3]; omega

/-- A `write` that needs more room than a buffer satisfying the data-model invariants has
beyond its position never returns: `addCapacity` appends too few chunks, or chunks that
record capacity 0, and the loop reads `m_cur->size` through a null pointer. -/
theorem write_grow_faults (s : ByteArray) (buf : List Nat) (hwf : s.WF)
    (hgrow : s.m_capacity - s.m_position < buf.length) (hlen : buf.length < 2 ^ 64) :
    s.write buf = .error Fault.nullDeref := by
  obtain ⟨hb, hn, hcap, hc64, hpc, hsc, htl, hcur⟩ := hwf
  have hgc : s.getCapacity = s.m_capacity - s.m_position := by
    unfold getCapacity subU negU
    simp only [Nat.reducePow] at hc64 ⊢
    omega
  unfold write
  simp only [addCapacity, hgc]
  rw [if_neg (by omega), if_neg (by omega), if_neg (by omega)]
  by_cases hroot : s.nodes = []
  · rw [if_pos hroot]; rfl
  · rw [if_neg hroot, if_neg (by rw [htl]; exact Bool.false_ne_true)]
    generalize subU 64 buf.length (s.m_capacity - s.m_position) / s.m_baseSize = count
    have hoff := offset_split s.m_baseSize s.m_position
    have hr : s.m_position % s.m_baseSize < s.m_baseSize := Nat.mod_lt _ hb
    have hnodes : ∀ (j : Nat) (n : Node),
        (s.nodes ++ List.replicate count (Node.ctor s.m_baseSize))[j]? = some n →
        n.ptr.length = s.m_baseSize ∧ (j < s.nodes.length → n.size = s.m_baseSize) ∧
          (s.nodes.length ≤ j → n.size = 0) := by
      intro j n hj
      by_cases hjl : j < s.nodes.length
      · rw [List.getElem?_append_left hjl] at hj
        obtain ⟨h1, h2⟩ := hn n (List.getElem?_mem hj)
        exact ⟨h2, fun _ => h1, fun h => by omega⟩
      · rw [List.getElem?_append_right (by omega)] at hj
        have hm := List.getElem?_mem hj
        rw [List.eq_of_mem_replicate hm]
        exact ⟨by simp [Node.ctor], fun h => absurd h hjl, fun _ => rfl⟩
    have hlen1 : (s.nodes ++ List.replicate count (Node.ctor s.m_baseSize)).length =
        s.nodes.length + count := by
      rw [List.length_append, List.length_replicate]
    by_cases hz : s.m_capacity - s.m_position = 0
    · rw [if_pos hz]
      simp only [bind, Except.bind]
      rw [if_neg (by omega)]
      by_cases hcount : count = 0
      · simp only [hcount, if_true, deref]
      · simp only [hcount, if_false, deref]
        have hc1 : 0 < count := Nat.pos_of_ne_zero hcount
        have hlt : s.nodes.length <
            (s.nodes ++ List.replicate count (Node.ctor s.m_baseSize)).length := by
          rw [hlen1]; omega
        rw [List.getElem?_eq_getElem hlt]
        have hsz0 := (hnodes s.nodes.length _ (List.getElem?_eq_getElem hlt)).2.2
          (Nat.le_refl _)
        have hp : s.m_position = s.m_capacity := by omega
        have hmod : s.m_position % s.m_baseSize = 0 := by
          rw [hp, hcap]; exact Nat.mul_mod_right _ _
        simp only [hsz0, hmod]
        have hz0 : subU 64 0 0 = 0 := by decide
        rw [hz0, writeLoop_zero_sizes buf _
          { s with
            nodes := s.nodes ++ List.replicate count (Node.ctor s.m_baseSize),
            m_capacity := addU 64 s.m_capacity (count * s.m_baseSize),
            m_cur := NodePtr.node s.nodes.length }
          s.nodes.length 0 buf.length
          (fun j n hj hij => (hnodes j n hj).2.2 hij) htl rfl hlt (by omega) hlen
          (Nat.lt_succ_of_le (Nat.sub_le _ _))]
    · rw [if_neg hz]
      simp only [bind, Except.bind]
      rw [if_neg (by omega)]
      have hq : s.m_position / s.m_baseSize < s.nodes.length := by
        apply Nat.div_lt_of_lt_mul
        rw [← hcap]; omega
      rw [if_pos hq] at hcur
      have hlt : s.m_position / s.m_baseSize <
          (s.nodes ++ List.replicate count (Node.ctor s.m_baseSize)).length := by
        rw [hlen1]; omega
      have hszq := (hnodes (s.m_position / s.m_baseSize) _
        (List.getElem?_eq_getElem hlt)).2.1 hq
      have hbcap : s.m_baseSize ≤ s.m_capacity := by
        rw [hcap]; exact Nat.le_mul_of_pos_right _ (Nat.lt_of_le_of_lt (Nat.zero_le _) hq)
      have hncap : subU 64 s.m_baseSize (s.m_position % s.m_baseSize) =
          s.m_baseSize - s.m_position % s.m_baseSize := by
        unfold subU negU
        simp only [Nat.reducePow] at hc64 ⊢
        omega
      simp only [hcur, deref, List.getElem?_eq_getElem hlt, hszq, hncap]
      rw [writeLoop_runs_off buf s.m_baseSize s.nodes.length hb hlen
        ((s.nodes ++ List.replicate count (Node.ctor s.m_baseSize)).length + 1)
        { s with
          nodes := s.nodes ++ List.replicate count (Node.ctor s.m_baseSize),
          m_capacity := addU 64 s.m_capacity (count * s.m_baseSize),
          m_cur := NodePtr.node (s.m_position / s.m_baseSize) }
        (s.m_position / s.m_baseSize) (s.m_position % s.m_baseSize) 0 buf.length
        (fun j n hj => hnodes j n hj) htl rfl hq
        (by rw [hlen1]; omega) hr (Nat.le_refl _)
        (by rw [hoff, Nat.mul_comm, ← hcap]; omega)
        (Nat.lt_succ_of_le (Nat.sub_le _ _))]

/-! ### The cursor invariant along `setPosition`, `write` and the cursor-relative `read` -/

/-- A `setPosition` that returns on a buffer satisfying the data-model invariants leaves a
buffer satisfying them, with `position ≤ size`. -/
theorem setPosition_keeps_wf (s s' : ByteArray) (v : Nat) (hwf : s.WF)
    (h : s.setPosition v = .ok s') : s'.WF ∧ s'.m_position ≤ s'.m_size := by
  have hv : v ≤ s.m_capacity := by
    by_contra hcon
    rw [(setPosition_throws_iff s v).mpr (by omega)] at h
    cases h
  have hroot : s.nodes ≠ [] := by
    intro hcon
    unfold setPosition at h
    rw [if_neg (by omega)] at h
    obtain ⟨cur, hloop, _⟩ := bind_eq_ok h
    unfold setPositionLoop at hloop
    obtain ⟨n, hn, _⟩ := bind_eq_ok hloop
    obtain ⟨i, hi, hlt⟩ := deref_ok_lt _ _ _ hn
    have hlen : ∀ t : ByteArray, t.nodes = s.nodes → ¬ (i < t.nodes.length) := by
      intro t ht
      rw [ht, hcon]
      exact Nat.not_lt_zero _
    split at hlt
    · exact hlen _ rfl hlt
    · exact hlen _ rfl hlt
  rw [setPosition_wf s v hwf hroot hv] at h
  cases h
  exact ⟨setPosition_wf_state s v hwf hv, Nat.le_max_right _ _⟩

/-- A `write` that returns on a buffer satisfying the data-model invariants, with
`position ≤ size`, leaves a buffer satisfying them, with `position ≤ size`. -/
theorem write_keeps_wf (s s' : ByteArray) (buf : List Nat) (hwf : s.WF)
    (hps : s.m_position ≤ s.m_size) (hlen : buf.length < 2 ^ 64)
    (h : s.write buf = .ok s') : s'.WF ∧ s'.m_position ≤ s'.m_size := by
  by_cases hne : buf = []
  · subst hne
    unfold write at h
    obtain ⟨s1, hs1, h⟩ := bind_eq_ok h
    simp only [addCapacity, List.length_nil, if_true, Except.ok.injEq] at hs1
    subst hs1
    split at h
    · cases h
    · obtain ⟨cur, _, h⟩ := bind_eq_ok h
      obtain ⟨s2, hs2, h⟩ := bind_eq_ok h
      simp only [writeLoop, List.length_nil, Nat.lt_irrefl, gt_iff_lt, if_false, pure,
        Except.pure, Except.ok.injEq] at hs2
      subst hs2
      simp only [pure, Except.pure, Except.ok.injEq] at h
      rw [if_neg (by omega)] at h
      subst h
      exact ⟨hwf, hps⟩
  · by_cases hfit : buf.length ≤ s.m_capacity - s.m_position
    · obtain ⟨s2, hw, hwf2, hp2, hs2, _⟩ := write_wf s buf hwf hne hfit
      rw [hw] at h
      cases h
      exact ⟨hwf2, by rw [hp2, hs2]; exact Nat.le_max_right _ _⟩
    · rw [write_grow_faults s buf hwf (by omega) hlen] at h
      cases h

/-- A cursor-relative `read` that returns on a buffer satisfying the data-model invariants,
with `position ≤ size`, leaves a buffer satisfying them, with `position ≤ size`. -/
theorem read_keeps_wf (s s' : ByteArray) (n : Nat) (r : List Nat) (hwf : s.WF)
    (hps : s.m_position ≤ s.m_size) (h : s.read n = .ok (r, s')) :
    s'.WF ∧ s'.m_position ≤ s'.m_size := by
  have hwf0 := hwf
  obtain ⟨hb, hn, hcap, hc64, hpc, hsc, htl, hcur⟩ := hwf
  have hrs : s.getReadSize = s.m_size - s.m_position := getReadSize_eq s hps (by omega)
  have hlen : n ≤ s.m_size - s.m_position := by
    by_contra hcon
    rw [(read_throws_iff s n).mpr (by rw [hrs]; omega)] at h
    cases h
  have hlt : s.m_position < s.m_capacity := by
    by_contra hcon
    have hp : s.m_position = s.m_baseSize * s.nodes.length := by omega
    have hq : ¬ (s.m_position / s.m_baseSize < s.nodes.length) := by
      rw [hp, Nat.mul_div_cancel_left _ hb]; omega
    rw [if_neg hq] at hcur
    unfold ByteArray.read at h
    rw [if_neg (by rw [hrs]; omega), if_neg (by omega), hcur] at h
    cases h
  rw [read_wf s n hwf0 hps hlen hlt] at h
  cases h
  exact ⟨read_wf_state s n hwf0 hps hlen, by
    show s.m_position + n ≤ s.m_size
    omega⟩

/-- Along every sequence of `setPosition`, `write` and cursor-relative `read` calls started
on a buffer that satisfies the data-model invariants with `position ≤ size`, every state
reached satisfies them: in particular `m_cur` is the chunk with index
`position / chunkSize` (null when `position = capacity`). -/
theorem reached_wf : ∀ (calls : List Call) (s : ByteArray), s.WF → s.m_position ≤ s.m_size →
    (∀ c ∈ calls, (∃ v, c = Call.setPosition v) ∨
      (∃ buf, c = Call.write buf ∧ buf.length < 2 ^ 64) ∨ (∃ n, c = Call.read n)) →
    ∀ t ∈ reached s calls, t.WF ∧ t.m_position ≤ t.m_size := by
  intro calls
  induction calls with
  | nil => intro s _ _ _ t ht; simp [reached] at ht
  | cons c cs ih =>
    intro s hwf hps hall t ht
    have hcs : ∀ c ∈ cs, (∃ v, c = Call.setPosition v) ∨
        (∃ buf, c = Call.write buf ∧ buf.length < 2 ^ 64) ∨ (∃ n, c = Call.read n) :=
      fun c hc => hall c (List.mem_cons_of_mem _ hc)
    cases hca : c.apply s with
    | ok s1 =>
      have hs1 : s1.WF ∧ s1.m_position ≤ s1.m_size := by
        rcases hall c (List.mem_cons_self _ _) with ⟨v, hc⟩ | ⟨buf, hc, hlen⟩ | ⟨n, hc⟩
        · subst hc
          exact setPosition_keeps_wf s s1 v hwf hca
        · subst hc
          exact write_keeps_wf s s1 buf hwf hps hlen hca
        · subst hc
          simp only [Call.apply] at hca
          cases hr : s.read n with
          | error e => rw [hr] at hca; cases hca
          | ok r =>
            rw [hr] at hca
            obtain ⟨bytes, s2⟩ := r
            simp only [Except.map, Except.ok.injEq] at hca
            subst hca
            exact read_keeps_wf s s2 n bytes hwf hps hr
      simp only [reached, hca, List.mem_cons] at ht
      rcases ht with ht | ht
      · subst ht
        exact hs1
      · exact ih s1 hs1.1 hs1.2 hcs t ht
    | error e =>
      cases e with
      | outOfRange =>
        simp only [reached, hca, List.mem_cons] at ht
        rcases ht with ht | ht
        · subst ht
          exact ⟨hwf, hps⟩
        · exact ih s hwf hps hcs t ht
      | lengthError =>
        simp only [reached, hca, List.mem_cons] at ht
        rcases ht with ht | ht
        · subst ht
          exact ⟨hwf, hps⟩
        · exact ih s hwf hps hcs t ht
      | nullDeref => simp [reached, hca] at ht
      | danglingDeref => simp [reached, hca] at ht
      | overrun => simp [reached, hca] at ht
      | divByZero => simp [reached, hca] at ht
      | outOfFuel => simp [reached, hca] at ht

/-! ### What `addCapacity` appends -/

/-- With at least `n` bytes of spare capacity `addCapacity n` changes nothing. -/
theorem addCapacity_enough (s : ByteArray) (n : Nat) (h : n ≤ s.getCapacity) :
    s.addCapacity n = .ok s := by
  simp only [addCapacity]
  by_cases hn : n = 0
  · rw [if_pos hn]
  · rw [if_neg hn, if_pos h]

/-- With less than `n` bytes of spare capacity `addCapacity n` appends
`(n − spare) / chunkSize` chunks, the quotient rounded down, each made by the constructor of
`Node`, and adds that many times `chunkSize` to `m_capacity`; when the spare capacity was 0
it sets `m_cur` to the first appended chunk, which is the null pointer when none was
appended. -/
theorem addCapacity_grow (s : ByteArray) (n : Nat) (hb : 0 < s.m_baseSize)
    (hroot : s.nodes ≠ []) (htl : s.tailDangling = false) (hpc : s.m_position ≤ s.m_capacity)
    (hn64 : n < 2 ^ 64) (hgrow : s.m_capacity - s.m_position < n) :
    s.addCapacity n =
      .ok { s with
        nodes := s.nodes ++
          List.replicate ((n - (s.m_capacity - s.m_position)) / s.m_baseSize)
            (Node.ctor s.m_baseSize),
        m_capacity := addU 64 s.m_capacity
          ((n - (s.m_capacity - s.m_position)) / s.m_baseSize * s.m_baseSize),
        m_cur := if s.m_capacity - s.m_position = 0 then
                   (if (n - (s.m_capacity - s.m_position)) / s.m_baseSize = 0 then NodePtr.null
                    else NodePtr.node s.nodes.length)
                 else s.m_cur } := by
  have hgc : s.getCapacity = s.m_capacity - s.m_position := by
    unfold getCapacity subU negU
    simp only [Nat.reducePow] at hn64 ⊢
    omega
  have hsub : subU 64 n (s.m_capacity - s.m_position) = n - (s.m_capacity - s.m_position) := by
    unfold subU negU
    simp only [Nat.reducePow] at hn64 ⊢
    omega
  simp only [addCapacity, hgc, hsub]
  rw [if_neg (by omega), if_neg (by omega), if_neg (by omega), if_neg hroot,
    if_neg (by rw [htl]; exact Bool.false_ne_true)]
  by_cases hz : s.m_capacity - s.m_position = 0
  · rw [if_pos hz, if_pos hz]
  · rw [if_neg hz, if_neg hz]

/-- After a growing `addCapacity n` the spare capacity is still below `n` whenever
`chunkSize` does not divide the shortfall: the chunk count is rounded down. -/
theorem addCapacity_short (s s1 : ByteArray) (n : Nat) (hb : 0 < s.m_baseSize)
    (hroot : s.nodes ≠ []) (htl : s.tailDangling = false) (hpc : s.m_position ≤ s.m_capacity)
    (hn64 : s.m_position + n < 2 ^ 64)
    (hgrow : s.m_capacity - s.m_position < n)
    (hrem : (n - (s.m_capacity - s.m_position)) % s.m_baseSize ≠ 0)
    (h : s.addCapacity n = .ok s1) :
    s1.nodes.length = s.nodes.length + (n - (s.m_capacity - s.m_position)) / s.m_baseSize ∧
    s1.m_capacity = s.m_capacity +
      (n - (s.m_capacity - s.m_position)) / s.m_baseSize * s.m_baseSize ∧
    s1.m_capacity - s1.m_position < n := by
  rw [addCapacity_grow s n hb hroot htl hpc (by omega) hgrow] at h
  cases h
  have hdm := offset_split s.m_baseSize (n - (s.m_capacity - s.m_position))
  have hadd : addU 64 s.m_capacity
      ((n - (s.m_capacity - s.m_position)) / s.m_baseSize * s.m_baseSize) =
      s.m_capacity + (n - (s.m_capacity - s.m_position)) / s.m_baseSize * s.m_baseSize := by
    unfold addU
    simp only [Nat.reducePow] at hn64 ⊢
    omega
  refine ⟨?_, hadd, ?_⟩
  · show (s.nodes ++ _).length = _
    rw [List.length_append, List.length_replicate]
  · show addU 64 s.m_capacity _ - s.m_position < n
    rw [hadd]
    have hpos : 0 < (n - (s.m_capacity - s.m_position)) % s.m_baseSize :=
      Nat.pos_of_ne_zero hrem
    omega

/-! ### The recorded capacity of a chunk never changes -/

theorem memcpyTo_sizes (s s1 : ByteArray) (p : NodePtr) (npos : Nat) (src : List Nat)
    (h : s.memcpyTo p npos src = .ok s1) :
    s1.nodes.map (fun n => n.size) = s.nodes.map (fun n => n.size) := by
  cases p with
  | null => cases h
  | dangling => cases h
  | node i =>
    simp only [memcpyTo] at h
    split at h
    · cases h
    · rename_i n hget
      split at h
      · cases h
        show (s.nodes.set i _).map (fun n => n.size) = _
        rw [List.map_set]
        exact list_set_same _ i _ (by rw [List.getElem?_map, hget]; rfl)
      · cases h

/-- The loop of `write` leaves the recorded capacity of every chunk as it was. -/
theorem writeLoop_sizes (buf : List Nat) : ∀ (fuel : Nat) (s : ByteArray)
    (npos ncap bpos size : Nat) (s' : ByteArray),
    writeLoop buf fuel s npos ncap bpos size = .ok s' →
    s'.nodes.map (fun n => n.size) = s.nodes.map (fun n => n.size) := by
  intro fuel
  induction fuel with
  | zero => intro s npos ncap bpos size s' h; cases h
  | succ fuel ih =>
    intro s npos ncap bpos size s' h
    unfold writeLoop at h
    by_cases hs : size > 0
    · rw [if_pos hs] at h
      by_cases hc : ncap ≥ size
      · rw [if_pos hc] at h
        split at h
        · cases h
        · obtain ⟨s1, hs1, h⟩ := bind_eq_ok h
          have hm1 := memcpyTo_sizes _ _ _ _ _ hs1
          obtain ⟨cur, _, h⟩ := bind_eq_ok h
          obtain ⟨s2, hs2, h⟩ := bind_eq_ok h
          cases h
          have h2 : s2.nodes = s1.nodes := by
            split at hs2
            · obtain ⟨nx, _, hs2⟩ := bind_eq_ok hs2
              cases hs2
              rfl
            · cases hs2
              rfl
          show s2.nodes.map _ = _
          rw [h2, hm1]
      · rw [if_neg hc] at h
        split at h
        · cases h
        · obtain ⟨s1, hs1, h⟩ := bind_eq_ok h
          have hm1 := memcpyTo_sizes _ _ _ _ _ hs1
          obtain ⟨nx, _, h⟩ := bind_eq_ok h
          obtain ⟨cur, _, h⟩ := bind_eq_ok h
          rw [ih _ _ _ _ _ _ h]
          exact hm1
    · rw [if_neg hs] at h
      cases h
      rfl

/-- A call of `addCapacity` that returns keeps the chunks it found and appends chunks made
by the constructor of `Node`. -/
theorem addCapacity_appends (s s1 : ByteArray) (size : Nat) (h : s.addCapacity size = .ok s1) :
    ∃ count, s1.nodes = s.nodes ++ List.replicate count (Node.ctor s.m_baseSize) := by
  simp only [addCapacity] at h
  split at h
  · cases h; exact ⟨0, by simp⟩
  · split at h
    · cases h; exact ⟨0, by simp⟩
    · split at h
      · cases h
      · split at h
        · cases h
        · split at h
          · cases h
          · split at h
            · cases h
              exact ⟨_, rfl⟩
            · cases h
              exact ⟨_, rfl⟩

/-- No member function changes the capacity a chunk records: a chunk that is in the chain
before and after a call that returns records the same capacity. -/
theorem apply_keeps_recorded_size (s s' : ByteArray) (c : Call) (h : c.apply s = .ok s')
    (j : Nat) (n n' : Node) (hj : s.nodes[j]? = some n) (hj' : s'.nodes[j]? = some n') :
    n'.size = n.size := by
  have hsame : s'.nodes = s.nodes → n'.size = n.size := by
    intro he
    rw [he, hj] at hj'
    cases hj'
    rfl
  have hjl : j < s.nodes.length := by
    by_contra hcon
    rw [List.getElem?_eq_none (Nat.le_of_not_lt hcon)] at hj
    cases hj
  cases c with
  | setPosition v =>
    simp only [Call.apply, setPosition] at h
    split at h
    · cases h
    · obtain ⟨cur, _, h⟩ := bind_eq_ok h
      cases h
      apply hsame
      split <;> rfl
  | write buf =>
    simp only [Call.apply] at h
    unfold write at h
    obtain ⟨s1, hs1, h⟩ := bind_eq_ok h
    obtain ⟨count, happ⟩ := addCapacity_appends s s1 _ hs1
    split at h
    · cases h
    · obtain ⟨cur, _, h⟩ := bind_eq_ok h
      obtain ⟨s2, hs2, h⟩ := bind_eq_ok h
      have hm := writeLoop_sizes _ _ _ _ _ _ _ _ hs2
      have hn2 : s'.nodes = s2.nodes := by
        cases h
        split <;> rfl
      rw [hn2] at hj'
      have h1 : (s2.nodes.map (fun n => n.size))[j]? = some n'.size := by
        rw [List.getElem?_map, hj']; rfl
      rw [hm, happ, List.map_append, List.getElem?_append_left (by
        rw [List.length_map]; exact hjl), List.getElem?_map, hj] at h1
      exact (Option.some.inj h1).symm
  | read size =>
    simp only [Call.apply] at h
    cases hr : s.read size with
    | error e => rw [hr] at h; cases h
    | ok r =>
      rw [hr] at h
      obtain ⟨bytes, s1⟩ := r
      simp only [Except.map, Except.ok.injEq] at h
      subst h
      obtain ⟨_, _, _, hrest⟩ := read_frame s size bytes s1 hr
      apply hsame
      rw [hrest]
  | readAt size position =>
    simp only [Call.apply] at h
    cases hr : s.readAt size position with
    | error e => rw [hr] at h; cases h
    | ok r =>
      rw [hr] at h
      obtain ⟨bytes, s1⟩ := r
      simp only [Except.map, Except.ok.injEq] at h
      subst h
      apply hsame
      rw [readAt_only_position s size position bytes s1 hr]
  | toString =>
    simp only [Call.apply] at h
    cases hr : s.toString with
    | error e => rw [hr] at h; cases h
    | ok r =>
      rw [hr] at h
      obtain ⟨bytes, s1⟩ := r
      simp only [Except.map, Except.ok.injEq] at h
      subst h
      apply hsame
      rw [toString_only_position s bytes s1 hr]
  | toHexString =>
    simp only [Call.apply] at h
    cases hr : s.toString with
    | error e => rw [hr] at h; cases h
    | ok r =>
      rw [hr] at h
      obtain ⟨bytes, s1⟩ := r
      simp only [Except.map, Except.ok.injEq] at h
      subst h
      apply hsame
      rw [toString_only_position s bytes s1 hr]
  | addCapacity size =>
    obtain ⟨count, happ⟩ := addCapacity_appends s s' size h
    rw [happ, List.getElem?_append_left hjl, hj] at hj'
    cases hj'
    rfl
  | clear =>
    obtain ⟨_, _, _, hnodes, _⟩ := clear_frame s s' h
    rw [hnodes, List.getElem?_take] at hj'
    split at hj'
    · rw [hj] at hj'
      cases hj'
      rfl
    · cases hj'

/-! ### The positional span export -/

/-- The positional `getReadBuffers` takes its length from the cursor alone: whenever the
clamped length `min(n, size − position)` is 0 it returns without a value, whatever the
offset, and it never throws. -/
theorem getReadBuffersAt_empty (s : ByteArray) (n offset : Nat)
    (hps : s.m_position ≤ s.m_size) (hsz : s.m_size < 2 ^ 64)
    (htot : min (n % 2 ^ 64) (s.m_size - s.m_position) = 0) :
    s.getReadBuffersAt n offset = .ok ([], none) := by
  have hrs : s.getReadSize = s.m_size - s.m_position := getReadSize_eq s hps hsz
  have hclamp : (if n % 2 ^ 64 > s.getReadSize then s.getReadSize else n % 2 ^ 64) = 0 := by
    rw [hrs]
    split <;> omega
  unfold getReadBuffersAt
  simp only [hclamp, if_true]

/-! ### Two consecutive writes inside one chunk -/

/-- A buffer built from blocks of `base` bytes each satisfies the data-model invariants
when its capacity is below `2^64` and its position and size are within the capacity. -/
theorem ofBlocks_wf (base : Nat) (blocks : List (List Nat)) (size position : Nat)
    (hb : 0 < base) (hblocks : ∀ b ∈ blocks, b.length = base)
    (hcap : base * blocks.length < 2 ^ 64) (hp : position ≤ base * blocks.length)
    (hs : size ≤ base * blocks.length) : (ofBlocks base blocks size position).WF := by
  refine ⟨hb, ?_, ?_, ?_, hp, hs, rfl, ?_⟩
  · intro n hn
    simp only [ofBlocks, List.mem_map] at hn
    obtain ⟨b, hbm, hbn⟩ := hn
    subst hbn
    exact ⟨rfl, hblocks b hbm⟩
  · show base * blocks.length = base * (blocks.map _).length
    rw [List.length_map]
  · exact hcap
  · show (if position / base < blocks.length then _ else _) =
      if position / base < (blocks.map _).length then _ else _
    rw [List.length_map]
    rfl

/-- Bytes held at `off` followed by bytes held right after them are held as one run. -/
theorem holds_append (s : ByteArray) (off : Nat) (xs ys : List Nat)
    (hx : s.Holds off xs) (hy : s.Holds (off + xs.length) ys) : s.Holds off (xs ++ ys) := by
  intro k hk
  by_cases hkx : k < xs.length
  · rw [List.getElem?_append_left hkx]
    exact hx k hkx
  · rw [List.getElem?_append_right (by omega)]
    rw [List.length_append] at hk
    have := hy (k - xs.length) (by omega)
    rw [← this]
    congr 1
    omega

/-- Two consecutive writes that together fit into the chunk of the position, on a buffer
that satisfies the data-model invariants: both return, the position is advanced by both
lengths and the two inputs are stored one after the other at the old position. -/
theorem write_write_in_chunk (s : ByteArray) (pre str : List Nat) (hwf : s.WF)
    (hpre : pre ≠ []) (hstr : str ≠ []) (hpc : s.m_position < s.m_capacity)
    (hfit : s.m_position % s.m_baseSize + pre.length + str.length ≤ s.m_baseSize) :
    ∃ s', (s.write pre >>= fun s1 => s1.write str) = .ok s' ∧ s'.WF ∧
      s'.m_position = s.m_position + pre.length + str.length ∧
      s'.m_size = max s.m_size (s.m_position + pre.length + str.length) ∧
      s'.Holds s.m_position (pre ++ str) := by
  have hwf0 := hwf
  obtain ⟨hb, hn, hcap, hc64, _, hsc, htl, hcur⟩ := hwf
  have hq : s.m_position / s.m_baseSize < s.nodes.length := by
    apply Nat.div_lt_of_lt_mul
    rw [← hcap]; exact hpc
  have hoff := offset_split s.m_baseSize s.m_position
  have hchunk : s.m_position / s.m_baseSize * s.m_baseSize + s.m_baseSize ≤ s.m_capacity := by
    have h1 : (s.m_position / s.m_baseSize + 1) * s.m_baseSize ≤
        s.nodes.length * s.m_baseSize := Nat.mul_le_mul_right _ hq
    rw [Nat.add_mul, Nat.one_mul, Nat.mul_comm s.nodes.length, ← hcap] at h1
    exact h1
  have hlp : 0 < pre.length := List.length_pos.mpr hpre
  have hls : 0 < str.length := List.length_pos.mpr hstr
  obtain ⟨s1, hw1, hwf1, hp1, hs1, hc1, hb1, _, _, _, hh1⟩ :=
    write_wf s pre hwf0 hpre (by omega)
  have hmod1 : s1.m_position % s1.m_baseSize = s.m_position % s.m_baseSize + pre.length := by
    rw [hp1, hb1]
    have : s.m_position + pre.length =
        s.m_position / s.m_baseSize * s.m_baseSize + (s.m_position % s.m_baseSize + pre.length) := by
      omega
    rw [this]
    exact cursor_in_chunk _ _ _ (by omega)
  obtain ⟨s2, hw2, hwf2, hp2, hs2, _, hb2, _, _, hfr2, hh2⟩ :=
    write_wf s1 str hwf1 hstr (by rw [hc1, hp1]; omega)
  refine ⟨s2, ?_, hwf2, by rw [hp2, hp1], ?_, ?_⟩
  · simp only [hw1, bind, Except.bind]
    exact hw2
  · rw [hs2, hs1, hp1]
    omega
  · apply holds_append
    · intro k hk
      rw [hfr2 (s.m_position + k) (Or.inl (by rw [hp1]; omega))]
      exact hh1 (by omega) k hk
    · have := hh2 (by rw [hmod1, hb1]; omega)
      rw [hp1] at this
      exact this

/-! ### The state a failing `readString` leaves behind -/

/-- A varint decode that returns in a state with `position ≤ size` has moved the position
forward by at least one byte. -/
theorem readVarintLoop_advances (w : Nat) : ∀ (fuel i result : Nat) (s : ByteArray) (r : Nat)
    (s' : ByteArray), s.m_position ≤ s.m_size → s.m_size < 2 ^ 64 →
    readVarintLoop w fuel i result s = .ok (r, s') →
    s.m_position ≤ s'.m_position ∧ (i < 32 → s.m_position < s'.m_position) := by
  intro fuel
  induction fuel with
  | zero => intro i result s r s' _ _ h; cases h
  | succ fuel ih =>
    intro i result s r s' hps hsz h
    unfold readVarintLoop at h
    by_cases hi : i < 32
    · rw [if_pos hi] at h
      obtain ⟨p, hp, h⟩ := bind_eq_ok h
      obtain ⟨b, s1⟩ := p
      obtain ⟨hp1, hs1, hps1⟩ := readFuint8_keeps s b s1 hps hsz hp
      simp only at h
      split at h
      · simp only [pure, Except.pure, Except.ok.injEq, Prod.mk.injEq] at h
        obtain ⟨_, hs⟩ := h
        subst hs
        exact ⟨by omega, fun _ => by omega⟩
      · obtain ⟨h1, _⟩ := ih _ _ _ _ _ hps1 (by rw [hs1]; exact hsz) h
        exact ⟨by omega, fun _ => by omega⟩
    · rw [if_neg hi] at h
      simp only [pure, Except.pure, Except.ok.injEq, Prod.mk.injEq] at h
      obtain ⟨_, hs⟩ := h
      subst hs
      exact ⟨Nat.le_refl _, fun h => absurd h hi⟩

/-- C31 (fails on the code): the number of chunks `addCapacity` appends is the shortfall
divided by the chunk size rounded down, not up. On the fresh buffer of chunk size 4096 a
request of 10000 bytes appends one chunk where two are needed: 2 chunks and capacity 8192
instead of 3 and 12288, and the write of 10000 bytes dereferences a null `m_cur`. On 4-byte
chunks a shortfall of 6 resp. 5 bytes appends one chunk and leaves a spare capacity of 8
resp. 6, below the 10 resp. 7 bytes asked for. With enough spare capacity nothing
changes. -/
theorem addCapacity_10000_appends_one_chunk :
    ((ByteArray.ctor 4096).addCapacity 10000).map
        (fun s => (s.nodes.length, s.m_capacity)) = .ok (2, 8192) ∧
    (ByteArray.ctor 4096).write (List.replicate 10000 0) = .error Fault.nullDeref ∧
    ((ByteArray.ctor 4).addCapacity 10).map
        (fun s => (s.nodes.length, s.m_capacity - s.m_position)) = .ok (2, 8) ∧
    ((ofBlocks 4 [[1, 2, 3, 4]] 4 2).addCapacity 7).map
        (fun s => (s.nodes.length, s.m_capacity - s.m_position)) = .ok (2, 6) ∧
    (ofBlocks 4 [[1, 2, 3, 4]] 4 2).addCapacity 2 = .ok (ofBlocks 4 [[1, 2, 3, 4]] 4 2) := by
  refine ⟨?_, ?_, by decide, by decide, by decide⟩
  · rw [addCapacity_grow (ByteArray.ctor 4096) 10000 (by decide) (by simp [ByteArray.ctor])
      rfl (by decide) (by decide) (by decide)]
    simp only [Except.map, List.length_append, List.length_replicate]
    rfl
  · have hne : List.replicate 10000 0 ≠ [] := by
      intro h
      have hl := congrArg List.length h
      rw [List.length_replicate] at hl
      exact absurd hl (by decide)
    exact ctor_write_faults_any 4096 _ (by decide) (by decide) hne
      (by rw [List.length_replicate]; decide)

/-- C32 (fails on the code): with no spare capacity and a request below the chunk size,
`addCapacity` appends no chunk and sets `m_cur` to the null pointer `first`, on a buffer
whose chunk records its capacity and on the constructed buffer after four positional reads
have moved the position to the capacity; the following write dereferences it. For a
request of a whole chunk `m_cur` is the appended chunk, but that chunk records capacity 0
and the write does not return either. -/
theorem addCapacity_cursor_null_or_empty_chunk :
    ((ofBlocks 4 [[1, 2, 3, 4]] 4 4).addCapacity 1).map
        (fun s => (s.m_cur, s.nodes.length)) = .ok (NodePtr.null, 1) ∧
    (ofBlocks 4 [[1, 2, 3, 4]] 4 4).write [9] = .error Fault.nullDeref ∧
    (reached (ByteArray.ctor 4)
        [Call.readAt 1 1, Call.readAt 1 1, Call.readAt 1 1, Call.readAt 1 1,
         Call.addCapacity 1]).map
        (fun s => (s.m_position, s.m_capacity, s.m_cur, s.nodes.length)) =
      [(1, 4, NodePtr.node 0, 1), (2, 4, NodePtr.node 0, 1), (3, 4, NodePtr.node 0, 1),
       (4, 4, NodePtr.node 0, 1), (4, 4, NodePtr.null, 1)] ∧
    ((ofBlocks 4 [[1, 2, 3, 4]] 4 4).addCapacity 4).map
        (fun s => (s.m_cur, s.nodes.map (fun n => n.size), s.m_capacity)) =
      .ok (NodePtr.node 1, [4, 0], 8) ∧
    (ofBlocks 4 [[1, 2, 3, 4]] 4 4).write [9, 9, 9, 9] = .error Fault.nullDeref := by
  decide

/-- C33 (fails on the code): on the freshly constructed buffer `setPosition(0)` leaves
`m_cur` null instead of at the first chunk, because the chunk records capacity 0 and the
test `v == m_cur->size` moves the cursor on; a following write or read dereferences it, and
`setPosition(2)` does not return. On a buffer whose chunks record their capacity the cursor
is the chunk of the position after each of `setPosition(4)`, a write, `setPosition(3)`, a
read across the chunk boundary and a write up to the end of the chain. -/
theorem setPosition_zero_fresh_cursor_null :
    (ByteArray.ctor 4).setPosition 0 = .ok { ByteArray.ctor 4 with m_cur := NodePtr.null } ∧
    (reached (ByteArray.ctor 4) [Call.setPosition 0, Call.write [1]]).map
        (fun s => (s.m_position, s.m_cur)) = [(0, NodePtr.null)] ∧
    (reached (ByteArray.ctor 4) [Call.setPosition 0, Call.read 0]).map
        (fun s => (s.m_position, s.m_cur)) = [(0, NodePtr.null)] ∧
    (ByteArray.ctor 4).setPosition 2 = .error Fault.nullDeref ∧
    (reached (ofBlocks 4 [[1, 2, 3, 4], [5, 6, 7, 8]] 8 0)
        [Call.setPosition 4, Call.write [9], Call.setPosition 3, Call.read 2,
         Call.write [7, 7, 7]]).map (fun s => (s.m_position, s.m_cur)) =
      [(4, NodePtr.node 1), (5, NodePtr.node 1), (3, NodePtr.node 0), (5, NodePtr.node 1),
       (8, NodePtr.null)] := by
  decide

/-- C34 (fails on the code): the constructor of `Node` allocates `s` bytes but records the
capacity 0, for every `s`; so do the chunk of the constructed buffer and every chunk
`addCapacity` appends (here two chunks appended to a chunk that records its capacity
4). -/
theorem node_ctor_records_zero :
    (∀ s : Nat, (Node.ctor s).size = 0 ∧ (Node.ctor s).ptr.length = s) ∧
    (∀ base : Nat, (ByteArray.ctor base).nodes.map (fun n => n.size) = [0]) ∧
    ((ofBlocks 4 [[1, 2, 3, 4]] 4 4).addCapacity 8).map
        (fun s => s.nodes.map (fun n => n.size)) = .ok [4, 0, 0] :=
  ⟨fun s => ⟨rfl, List.length_replicate _ _⟩, fun _ => rfl, by decide⟩

/-- C35: for every int32 `n`, `EncodeZigzag32 n` is `2n` for `n ≥ 0` and `2|n| − 1` for
`n < 0`, taken modulo `2^32`, and it is a uint32; for every uint32 `u`, `DecodeZigzag32 u` is
the int32 with the bit pattern `(u >> 1) XOR m`, where `m = −(u & 1)` is all ones for odd `u`
and zero for even `u`: the value `u / 2` for even `u` and `−(u / 2) − 1` for odd `u`. -/
theorem zigzag32_formulas (n : Int) (hn : IsInt 32 n) (u : Nat) (hu : u < 2 ^ 32) :
    ((EncodeZigzag32 n : Nat) : Int) = (if 0 ≤ n then 2 * n else 2 * |n| - 1) % 2 ^ 32 ∧
    EncodeZigzag32 n < 2 ^ 32 ∧
    DecodeZigzag32 u =
      toSigned 32 ((u >>> 1) ^^^ (if u &&& 1 = 1 then 2 ^ 32 - 1 else 0)) ∧
    DecodeZigzag32 u =
      (if u % 2 = 0 then ((u / 2 : Nat) : Int) else -((u / 2 : Nat) : Int) - 1) := by
  obtain ⟨h1, h2⟩ := hn
  simp only [Nat.add_one_sub_one, Nat.reducePow, Int.reducePow, Int.reduceNeg,
    Nat.reduceSub] at h1 h2 hu
  have henc := EncodeZigzag32_eq n h1 h2
  refine ⟨?_, ?_, ?_, DecodeZigzag32_eq u hu⟩
  · rw [henc]
    by_cases hneg : n < 0
    · rw [if_pos hneg, if_neg (by omega), abs_of_neg hneg]
      simp only [Int.reducePow]
      omega
    · rw [if_neg hneg, if_pos (by omega)]
      simp only [Int.reducePow]
      omega
  · rw [henc]
    simp only [Nat.reducePow]
    split <;> omega
  · unfold DecodeZigzag32
    rw [Nat.and_one_is_mod]
    rcases Nat.mod_two_eq_zero_or_one u with h0 | h0
    · rw [h0]; rfl
    · rw [h0]; rfl

/-- C35 at the values the claim names: `0 → 0`, `−1 → 1`, `1 → 2`, `−2 → 3`, `2 → 4`, the
minimum int32 maps to `2^32 − 1`, and `2^32 − 1` decodes to the minimum int32. -/
theorem zigzag32_formulas_witness :
    EncodeZigzag32 0 = 0 ∧ EncodeZigzag32 (-1) = 1 ∧ EncodeZigzag32 1 = 2 ∧
    EncodeZigzag32 (-2) = 3 ∧ EncodeZigzag32 2 = 4 ∧
    EncodeZigzag32 (-2147483648) = 2 ^ 32 - 1 ∧
    ((EncodeZigzag32 (-2147483648) : Nat) : Int) =
      (if (0 : Int) ≤ -2147483648 then 2 * (-2147483648) else 2 * |(-2147483648 : Int)| - 1)
        % 2 ^ 32 ∧
    DecodeZigzag32 4294967295 = -2147483648 :=
  ⟨by decide, by decide, by decide, by decide, by decide, by decide,
   (zigzag32_formulas (-2147483648) (by decide) 4294967295 (by decide)).1,
   by
    have h := (zigzag32_formulas (-2147483648) (by decide) 4294967295 (by decide)).2.2.2
    rw [h]; decide⟩

/-- C36 (fails on the code): `write` stores through `m_cur` at the in-chunk offset
`position mod chunkSize`, so after a positional read has moved the position without the
cursor it overwrites bytes outside `[p, p + |b|)`. On a two-chunk buffer holding `1 … 8`,
after a positional read of 4 bytes the write of `9` at position 4 changes the byte at
offset 0 and leaves the byte at offset 4 alone. From the constructor: after a positional
read, a write of `7` at position 1 and three more positional reads, the write of `9` at
position 5 changes the byte at offset 1 from 7 to 9. A write that makes the chain grow
does not return. -/
theorem write_changes_bytes_outside_range :
    (reached (ofBlocks 4 [[1, 2, 3, 4], [5, 6, 7, 8]] 8 0)
        [Call.readAt 4 0, Call.write [9]]).map
        (fun s => (s.m_position, s.byteAt 0, s.byteAt 4)) =
      [(4, some 1, some 5), (5, some 9, some 5)] ∧
    (reached (ByteArray.ctor 4)
        [Call.readAt 1 1, Call.write [7], Call.readAt 1 1, Call.readAt 1 1, Call.readAt 1 1,
         Call.write [9]]).map (fun s => (s.m_position, s.byteAt 1)) =
      [(1, some 0), (2, some 7), (3, some 7), (4, some 7), (5, some 7), (6, some 9)] ∧
    (ofBlocks 4 [[1, 2, 3, 4]] 4 2).write [9, 9, 9, 9] = .error Fault.nullDeref ∧
    (ofBlocks 4 [[1, 2, 3, 4]] 4 2).write [9, 9, 9, 9, 9, 9] = .error Fault.nullDeref := by
  decide

/-- C37: in every state `writeStringF16(str)` is the write of the two prefix bytes of
`|str| mod 2^16`, in the byte order of the buffer, followed by the write of all `|str|`
bytes of `str`, and `writeStringF32(str)` the same with the four bytes of `|str| mod 2^32`;
neither throws `std::out_of_range`, a call that returns has advanced the position by the
prefix width plus the full `|str|`, and for `|str| ≥ 65536` resp. `|str| ≥ 2^32` the value
of the prefix differs from `|str|`. -/
theorem writeString_prefix_wraps (s : ByteArray) (native : Endian) (str : List Nat) :
    s.writeStringF16 native str =
      (s.write (if s.m_endian = Endian.big then (leBytes 2 (str.length % 2 ^ 16)).reverse
                else leBytes 2 (str.length % 2 ^ 16)) >>= fun s1 => s1.write str) ∧
    s.writeStringF32 native str =
      (s.write (if s.m_endian = Endian.big then (leBytes 4 (str.length % 2 ^ 32)).reverse
                else leBytes 4 (str.length % 2 ^ 32)) >>= fun s1 => s1.write str) ∧
    s.writeStringF16 native str ≠ .error Fault.outOfRange ∧
    s.writeStringF32 native str ≠ .error Fault.outOfRange ∧
    (∀ s', s.writeStringF16 native str = .ok s' →
      s'.m_position = (s.m_position + 2 + str.length) % 2 ^ 64) ∧
    (∀ s', s.writeStringF32 native str = .ok s' →
      s'.m_position = (s.m_position + 4 + str.length) % 2 ^ 64) ∧
    (65536 ≤ str.length → str.length % 2 ^ 16 ≠ str.length) ∧
    (4294967296 ≤ str.length → str.length % 2 ^ 32 ≠ str.length) := by
  have h16 : s.writeStringF16 native str =
      (s.write (if s.m_endian = Endian.big then (leBytes 2 (str.length % 2 ^ 16)).reverse
                else leBytes 2 (str.length % 2 ^ 16)) >>= fun s1 => s1.write str) := by
    unfold writeStringF16 writeFuint16
    rw [writeFixed_bytes]
  have h32 : s.writeStringF32 native str =
      (s.write (if s.m_endian = Endian.big then (leBytes 4 (str.length % 2 ^ 32)).reverse
                else leBytes 4 (str.length % 2 ^ 32)) >>= fun s1 => s1.write str) := by
    unfold writeStringF32 writeFuint32
    rw [writeFixed_bytes]
  have hpos : ∀ (pre : List Nat) (w : Nat) (s' : ByteArray), pre.length = w → 0 < w →
      (s.write pre >>= fun s1 => s1.write str) = .ok s' →
      s'.m_position = (s.m_position + w + str.length) % 2 ^ 64 := by
    intro pre w s' hw hw0 h
    obtain ⟨s1, h1, h2⟩ := bind_eq_ok h
    have hne : pre ≠ [] := by
      intro hcon
      rw [hcon] at hw
      simp only [List.length_nil] at hw
      omega
    have hp1 := (write_frame s s1 pre h1).2.1 hne
    obtain ⟨hp2, hp3, _⟩ := write_frame s1 s' str h2
    by_cases hstr : str = []
    · rw [hp2 hstr, hp1, hw, hstr]
      simp only [List.length_nil, Nat.add_zero]
    · rw [hp3 hstr, hp1, hw]
      simp only [Nat.reducePow]
      omega
  have hlen : ∀ (w v : Nat), (if s.m_endian = Endian.big then (leBytes w v).reverse
      else leBytes w v).length = w := by
    intro w v
    split
    · rw [List.length_reverse, leBytes_length]
    · rw [leBytes_length]
  refine ⟨h16, h32, ?_, ?_, ?_, ?_, ?_, ?_⟩
  · rw [h16]
    exact bind_ne_outOfRange _ _ (write_ne_outOfRange _ _)
      (fun s1 _ => write_ne_outOfRange _ _)
  · rw [h32]
    exact bind_ne_outOfRange _ _ (write_ne_outOfRange _ _)
      (fun s1 _ => write_ne_outOfRange _ _)
  · intro s' h
    rw [h16] at h
    exact hpos _ 2 s' (hlen 2 _) (by decide) h
  · intro s' h
    rw [h32] at h
    exact hpos _ 4 s' (hlen 4 _) (by decide) h
  · intro h
    have := Nat.mod_lt str.length (show 0 < 2 ^ 16 by decide)
    simp only [Nat.reducePow] at this ⊢
    omega
  · intro h
    have := Nat.mod_lt str.length (show 0 < 2 ^ 32 by decide)
    simp only [Nat.reducePow] at this ⊢
    omega

/-- C37 on a one-chunk buffer of 70000 bytes: `writeStringF16` of a string of 65541 bytes
returns, the position ends at `2 + 65541`, and the buffer holds the prefix `00 05`, the
length modulo `2^16`, followed by all 65541 bytes of the string. On an 8-byte chunk
`writeStringF32` of two bytes ends at position `4 + 2`; a length of `2^32` has the 32-bit
prefix value 0. -/
theorem writeString_prefix_wraps_witness :
    (∃ s', (ofBlocks 70000 [List.replicate 70000 0] 0 0).writeStringF16 Endian.little
        (List.replicate 65541 7) = .ok s' ∧
      s'.m_position = 65543 ∧
      s'.Holds 0 ([0, 5] ++ List.replicate 65541 7) ∧
      (List.replicate 65541 7).length % 2 ^ 16 = 5 ∧
      (List.replicate 65541 7).length % 2 ^ 16 ≠ (List.replicate 65541 7).length) ∧
    (ofBlocks 8 [[0, 0, 0, 0, 0, 0, 0, 0]] 0 0).writeStringF32 Endian.little [7, 8] =
      .ok (ofBlocks 8 [[0, 0, 0, 2, 7, 8, 0, 0]] 6 6) ∧
    (ofBlocks 8 [[0, 0, 0, 2, 7, 8, 0, 0]] 6 6).m_position = (0 + 4 + 2) % 2 ^ 64 ∧
    (List.replicate 4294967296 7).length % 2 ^ 32 ≠ (List.replicate 4294967296 7).length := by
  have hthm := writeString_prefix_wraps (ofBlocks 70000 [List.replicate 70000 0] 0 0)
    Endian.little (List.replicate 65541 7)
  have hl : (List.replicate 65541 7).length = 65541 := List.length_replicate _ _
  have hbig : (ofBlocks 70000 [List.replicate 70000 0] 0 0).m_endian = Endian.big := rfl
  have hpre : (leBytes 2 ((List.replicate 65541 7).length % 2 ^ 16)).reverse = [0, 5] := by
    rw [hl]; decide
  have hwf : (ofBlocks 70000 [List.replicate 70000 0] 0 0).WF :=
    ofBlocks_wf 70000 _ 0 0 (by decide)
      (by intro b hb; rw [List.mem_singleton] at hb; rw [hb, List.length_replicate])
      (by decide) (by decide) (by decide)
  have hstr : List.replicate 65541 7 ≠ [] := by
    intro h
    have hc := congrArg List.length h
    rw [hl] at hc
    exact absurd hc (by decide)
  obtain ⟨s', hw, _, _, _, hh⟩ :=
    write_write_in_chunk (ofBlocks 70000 [List.replicate 70000 0] 0 0) [0, 5]
      (List.replicate 65541 7) hwf (by decide) hstr (by decide)
      (by rw [hl]; decide)
  have hcall : (ofBlocks 70000 [List.replicate 70000 0] 0 0).writeStringF16 Endian.little
      (List.replicate 65541 7) = .ok s' := by
    rw [hthm.1, if_pos hbig, hpre]
    exact hw
  have hpos : s'.m_position = 65543 := by
    rw [hthm.2.2.2.2.1 s' hcall, hl]
    decide
  have hl32 : (List.replicate 4294967296 7).length = 4294967296 := List.length_replicate _ _
  have hsmall : (ofBlocks 8 [[0, 0, 0, 0, 0, 0, 0, 0]] 0 0).writeStringF32 Endian.little
      [7, 8] = .ok (ofBlocks 8 [[0, 0, 0, 2, 7, 8, 0, 0]] 6 6) := by decide
  exact ⟨⟨s', hcall, hpos, hh, by rw [hl]; decide,
      hthm.2.2.2.2.2.2.1 (by rw [hl]; decide)⟩,
    hsmall,
    (writeString_prefix_wraps (ofBlocks 8 [[0, 0, 0, 0, 0, 0, 0, 0]] 0 0) Endian.little
      [7, 8]).2.2.2.2.2.1 _ hsmall,
    (writeString_prefix_wraps (ofBlocks 8 [[0, 0, 0, 0, 0, 0, 0, 0]] 0 0) Endian.little
      (List.replicate 4294967296 7)).2.2.2.2.2.2.2 (by rw [hl32])⟩

/-- The offset of the positional `getReadBuffers` is not checked against the chain, also
where the chunks record their capacity. On a two-chunk buffer of capacity 8 with
`position = 2` and `size = 6` the clamped length is 4; for the offset 8, the end of the
chain, the walk from the root ends at the null pointer and `cur->size` is read through it,
and for the offset 5 the span walk runs off the chain. -/
theorem getReadBuffersAt_offset_beyond_chain :
    (ofBlocks 4 [[1, 2, 3, 4], [5, 6, 7, 8]] 6 2).getReadBuffersAt 10 8 =
      .error Fault.nullDeref ∧
    (ofBlocks 4 [[1, 2, 3, 4], [5, 6, 7, 8]] 6 2).getReadBuffersAt 10 5 =
      .error Fault.nullDeref ∧
    min 10 ((ofBlocks 4 [[1, 2, 3, 4], [5, 6, 7, 8]] 6 2).m_size -
      (ofBlocks 4 [[1, 2, 3, 4], [5, 6, 7, 8]] 6 2).m_position) = 4 := by
  decide

/-- The positional `getReadBuffers` on the design-intended states: on a buffer whose chunks
record their capacity (the data-model invariants), with
`position ≤ size`, a non-empty clamped length `total = min(n, size − position)` and an offset whose range
`[offset, offset + total)` lies within the chain, the positional `getReadBuffers` returns
`total`, clamped against the cursor and not against the offset, and spans whose lengths sum
to `total`, each non-empty and inside one chunk, which in order cover the offsets
`[offset, offset + total)` and describe the bytes stored there. -/
theorem getReadBuffersAt_clamps_against_cursor (s : ByteArray) (n offset : Nat) (hwf : s.WF)
    (hps : s.m_position ≤ s.m_size) (hn64 : n < 2 ^ 64)
    (htot : 0 < min n (s.m_size - s.m_position))
    (hfit : offset + min n (s.m_size - s.m_position) ≤ s.m_capacity) :
    ∃ spans,
      s.getReadBuffersAt n offset = .ok (spans, some (min n (s.m_size - s.m_position))) ∧
      (spans.map (fun sp => sp.len)).sum = min n (s.m_size - s.m_position) ∧
      (∀ sp ∈ spans, sp.chunk < s.nodes.length ∧ sp.offset + sp.len ≤ s.m_baseSize ∧
        0 < sp.len) ∧
      (spans.map (spanOffsets s.m_baseSize)).flatten =
        List.range' offset (min n (s.m_size - s.m_position)) ∧
      (spans.map (spanBytes s)).flatten =
        (s.content.drop offset).take (min n (s.m_size - s.m_position)) := by
  obtain ⟨hb, hn, hcap, hc64, hpc, hsc, htl, hcur⟩ := hwf
  have hrs : s.getReadSize = s.m_size - s.m_position := by
    unfold getReadSize subU negU
    simp only [Nat.reducePow] at hc64 ⊢
    omega
  have hclamp : (if n % 2 ^ 64 > s.getReadSize then s.getReadSize else n % 2 ^ 64) =
      min n (s.m_size - s.m_position) := by
    rw [hrs, Nat.mod_eq_of_lt hn64]
    split <;> omega
  have hq : offset / s.m_baseSize < s.nodes.length := by
    apply Nat.div_lt_of_lt_mul
    rw [← hcap]; omega
  have hr : offset % s.m_baseSize < s.m_baseSize := Nat.mod_lt _ hb
  have hget : s.nodes[offset / s.m_baseSize]? = some (s.nodes[offset / s.m_baseSize]) :=
    List.getElem?_eq_getElem hq
  obtain ⟨hns, _⟩ := hn _ (List.getElem_mem hq)
  have hbcap : s.m_baseSize ≤ s.m_capacity := by
    rw [hcap]; exact Nat.le_mul_of_pos_right _ (Nat.lt_of_le_of_lt (Nat.zero_le _) hq)
  have hncap : subU 64 s.m_baseSize (offset % s.m_baseSize) =
      s.m_baseSize - offset % s.m_baseSize := by
    unfold subU negU
    simp only [Nat.reducePow] at hc64 ⊢
    omega
  have hoff := offset_split s.m_baseSize offset
  have hadv : s.advance (offset / s.m_baseSize) (NodePtr.node 0) =
      .ok (NodePtr.node (offset / s.m_baseSize)) := by
    have := advance_wf s (offset / s.m_baseSize) 0 (by omega)
    rw [Nat.zero_add] at this
    exact this
  obtain ⟨spans, hrun, hsum, hall, hoffs, hcont⟩ :=
    spanLoop_wf s s.m_baseSize hb (by rw [← hcap]; exact hc64) hn (s.nodes.length + 1)
      (offset / s.m_baseSize) (offset % s.m_baseSize)
      (min n (s.m_size - s.m_position)) [] hq hr htot
      (by rw [hoff, ← hcap]; omega) (Nat.lt_succ_of_le (Nat.sub_le _ _))
  rw [hoff] at hoffs hcont
  refine ⟨spans, ?_, hsum, hall, hoffs, hcont⟩
  unfold getReadBuffersAt
  simp only [hclamp]
  rw [if_neg (by omega), if_neg (by omega)]
  simp only [hadv, deref, hget, bind, Except.bind, hns, hncap, hrun, List.nil_append, pure,
    Except.pure]

/-- Whenever the positional `getReadBuffers` returns a value, the value is `len` clamped
against `getReadSize()`, whatever the offset. -/
theorem getReadBuffersAt_total (s : ByteArray) (len position : Nat) (spans : List Span)
    (t : Nat) (h : s.getReadBuffersAt len position = .ok (spans, some t)) :
    t = min (len % 2 ^ 64) s.getReadSize := by
  unfold getReadBuffersAt at h
  have hc : (if len % 2 ^ 64 > s.getReadSize then s.getReadSize else len % 2 ^ 64) =
      min (len % 2 ^ 64) s.getReadSize := by
    split <;> omega
  simp only [hc] at h
  generalize min (len % 2 ^ 64) s.getReadSize = m at h ⊢
  by_cases h0 : m = 0
  · rw [if_pos h0] at h
    simp at h
  · rw [if_neg h0] at h
    by_cases hb : s.m_baseSize = 0
    · rw [if_pos hb] at h
      cases h
    · rw [if_neg hb] at h
      obtain ⟨cur, _, h⟩ := bind_eq_ok h
      obtain ⟨n, _, h⟩ := bind_eq_ok h
      obtain ⟨b, _, h⟩ := bind_eq_ok h
      simp only [pure, Except.pure, Except.ok.injEq, Prod.mk.injEq, Option.some.injEq] at h
      exact h.2.symm

/-- C39 (fails on the code): the positional `getReadBuffers` does not return
`min(len, size − position)` for every offset. On `ByteArray ba(4)` the call
`ba.getReadBuffers(v, 5, 0)` leaves through the `return;` of line 575 and returns no value.
After `ba.read(buf, 1, 1); ba.getWriteBuffers(v, 11); ba.write(b, 2); ba.setPosition(0);`
with `b` the bytes `09 09` the buffer has `position = 0`, `size = 3` and three chunks, each
recording `size = 0`: for the offsets 4 and 0 the span walk runs through the chain to the
null pointer and dereferences it, and for the offset 2 the call returns 3 with one span of 3
bytes that starts at the in-chunk offset 2 of a 4-byte chunk. For the offset 1 it returns 3
with one span covering the offsets `[1, 4)`, which reach beyond `size = 3`. -/
theorem getReadBuffersAt_fails_on_built_buffer :
    (ByteArray.ctor 4).getReadBuffersAt 5 0 = .ok ([], none) ∧
    (∃ s : ByteArray,
      (do let r ← (ByteArray.ctor 4).readAt 1 1
          let w ← r.2.getWriteBuffers 11
          let s ← w.2.2.write [9, 9]
          let s ← s.setPosition 0
          pure s) = .ok s ∧
      s.m_position = 0 ∧ s.m_size = 3 ∧ s.m_capacity = 12 ∧ s.m_baseSize = 4 ∧
      s.nodes.length = 3 ∧ (∀ n ∈ s.nodes, n.size = 0) ∧
      min 10 (s.m_size - s.m_position) = 3 ∧
      s.getReadBuffersAt 10 4 = .error Fault.nullDeref ∧
      s.getReadBuffersAt 10 0 = .error Fault.nullDeref ∧
      s.getReadBuffersAt 10 2 = .ok ([{ chunk := 0, offset := 2, len := 3 }], some 3) ∧
      s.getReadBuffersAt 10 1 = .ok ([{ chunk := 0, offset := 1, len := 3 }], some 3)) :=
  ⟨by decide,
   ⟨asBuilt 4 [[0, 9, 9, 0], [0, 0, 0, 0], [0, 0, 0, 0]] 3 0 (NodePtr.node 1),
    by decide⟩⟩

end sylar
